import Mathlib

/-! The codec `based`: an arbitrary-alphabet binary-to-text codec.

A shallow embedding of `based.go` and a verification of its specification.

Conventions of the embedding.

* Go slices are lists. A destination buffer `dst` is a list that the engine
  updates in place with `List.set`; an index outside the buffer is the Go
  run-time panic, `Fault.indexOutOfRange`.
* `uint64` and `uint8` values are natural numbers; every operation that can
  wrap in Go is followed by an explicit `% 2 ^ 64` or `% 256`.
* `int` lengths and counters (`len(src)`, `n`, `dstIdx`) are natural numbers:
  they are bounded by the length of a slice and never wrap.
* Bytes of a `[]byte` are `Fin 256`.
* The Go map `idx` is an association list, newest binding first.
* The `for remReadBits > 0` loops take an iteration bound (fuel); running out
  of it is `Fault.fuelExhausted`, which no theorem below ever concludes.
-/

namespace Based

/-! ## Results -/

/-- Ways in which a run ends without a result. -/
inductive Fault where
  /-- Go run-time panic: index out of range. -/
  | indexOutOfRange
  /-- The iteration bound of an inner loop was reached. -/
  | fuelExhausted
  deriving DecidableEq, Repr

/-- The two errors `Decode` builds with `fmt.Errorf`. -/
inductive DecodeError (Word : Type) where
  /-- The error `unknown word %v at index %d`. -/
  | unknownWord (w : Word) (i : Nat)
  /-- The error `finished with remaining partial bits`. -/
  | trailingBits (partialByte partialBits : Nat)
  deriving DecidableEq, Repr

/-! ## Machine arithmetic -/

/-- Subtraction of two `uint8` values. -/
def sub8 (a b : Nat) : Nat := (a + 256 - b % 256) % 256

/-- Subtraction of two `uint64` values. -/
def sub64 (a b : Nat) : Nat := (a + 2 ^ 64 - b % 2 ^ 64) % 2 ^ 64

/-- Bit length, by repeated halving. -/
def lenAux : Nat → Nat → Nat
  | 0, _ => 0
  | fuel + 1, x => if x = 0 then 0 else lenAux fuel (x / 2) + 1

/-- Go `bits.Len64`: the number of bits needed to represent a `uint64`. -/
def Len64 (x : Nat) : Nat := lenAux 64 (x % 2 ^ 64)

/-! ## The encoding -/

/-- Go `Encoding[Dict, Word]`. -/
structure Encoding (Word : Type) where
  dict : List Word
  idx : List (Word × Nat)
  size : Nat
  stepBits : Nat
  offsetToggle : Nat
  deriving DecidableEq, Repr

/-- Go map read `m[w]`. -/
def mapGet {Word : Type} [DecidableEq Word] : List (Word × Nat) → Word → Option Nat
  | [], _ => none
  | (k, v) :: m, w => if k = w then some v else mapGet m w

/-- The `for i, w := range dict` loop of `NewEncoding`; `none` is the panic on
a duplicate word. -/
def buildIdx {Word : Type} [DecidableEq Word] :
    List Word → Nat → List (Word × Nat) → Option (List (Word × Nat))
  | [], _, m => some m
  | w :: ws, i, m =>
    match mapGet m w with
    | some _ => none
    | none => buildIdx ws (i + 1) ((w, i % 2 ^ 64) :: m)

/-- Go `NewEncoding`; `none` is a panic. -/
def NewEncoding {Word : Type} [DecidableEq Word] (dict : List Word) : Option (Encoding Word) :=
  if dict.length < 2 then none
  else
    match buildIdx dict 0 [] with
    | none => none
    | some idx =>
      let size := dict.length % 2 ^ 64
      let sz := Len64 (sub64 size 1)
      if sz = Len64 size then
        some { dict := dict, idx := idx, size := size,
               stepBits := (sz - 1) % 256, offsetToggle := 2 ^ 64 - 1 }
      else
        some { dict := dict, idx := idx, size := size,
               stepBits := sz % 256, offsetToggle := 0 }

/-! ## Encoding engine -/

/-- The variables `encode` and `add` share: the destination, the three
accumulator cells behind the pointers, and the write position `n`. -/
structure EncState (Word : Type) where
  dst : List Word
  index : Nat
  offset : Nat
  availBits : Nat
  n : Nat
  deriving DecidableEq, Repr

/-- Go `add`. -/
def add {Word : Type} (enc : Encoding Word) (st : EncState Word) :
    Except Fault (EncState Word) :=
  let index := (st.index <<< sub8 enc.stepBits st.availBits) % 2 ^ 64
  let index := (index + st.offset) % 2 ^ 64
  let index := if enc.size ≤ index then sub64 index enc.size else index
  match enc.dict[index]? with
  | none => .error .indexOutOfRange
  | some w =>
    if st.n < st.dst.length then
      .ok { dst := st.dst.set st.n w, index := 0, offset := index &&& enc.offsetToggle,
            availBits := 0, n := st.n + 1 }
    else .error .indexOutOfRange

/-- The `for remReadBits > 0` loop of `encode`, for one byte `read`. -/
def encodeByte {Word : Type} (enc : Encoding Word) :
    Nat → Nat → Nat → EncState Word → Except Fault (EncState Word)
  | 0, _, remReadBits, st => if remReadBits = 0 then .ok st else .error .fuelExhausted
  | fuel + 1, read, remReadBits, st =>
    if remReadBits = 0 then .ok st
    else
      let readBits := min (sub8 enc.stepBits st.availBits) remReadBits
      let index := ((st.index <<< readBits) % 2 ^ 64) ||| (read >>> sub8 remReadBits readBits)
      let availBits := (st.availBits + readBits) % 256
      let read := read &&& sub8 ((1 <<< sub8 remReadBits readBits) % 256) 1
      let remReadBits := sub8 remReadBits readBits
      let st := { st with index := index, availBits := availBits }
      if availBits = enc.stepBits then
        match add enc st with
        | .error e => .error e
        | .ok st => encodeByte enc fuel read remReadBits st
      else encodeByte enc fuel read remReadBits st

/-- The `for len(src) > 0` loop of `encode`. -/
def encodeLoop {Word : Type} (enc : Encoding Word) :
    List (Fin 256) → EncState Word → Except Fault (EncState Word)
  | [], st => .ok st
  | read :: src, st =>
    match encodeByte enc 9 read.val 8 st with
    | .error e => .error e
    | .ok st => encodeLoop enc src st

/-- Go `encode`: the result carries the updated `dst`, the three cells and
the returned `n`. -/
def encode {Word : Type} (enc : Encoding Word) (dst : List Word) (src : List (Fin 256))
    (index offset availBits : Nat) : Except Fault (EncState Word) :=
  encodeLoop enc src
    { dst := dst, index := index, offset := offset, availBits := availBits, n := 0 }

/-- The body of Go `Encode`, keeping the final values of its local variables. -/
def encodeRun {Word : Type} (enc : Encoding Word) (dst : List Word) (src : List (Fin 256)) :
    Except Fault (EncState Word) :=
  match encode enc dst src 0 0 0 with
  | .error e => .error e
  | .ok st => if 0 < st.availBits then add enc st else .ok st

/-- Go `Encode`: the destination after the call. -/
def Encode {Word : Type} (enc : Encoding Word) (dst : List Word) (src : List (Fin 256)) :
    Except Fault (List Word) :=
  match encodeRun enc dst src with
  | .error e => .error e
  | .ok st => .ok st.dst

/-- Go `encodedLen`. -/
def encodedLen {Word : Type} (enc : Encoding Word) (n availBits : Nat) : Nat :=
  let lenBits := n * 8 + availBits
  let stepBits := enc.stepBits
  if lenBits % stepBits = 0 then lenBits / stepBits else lenBits / stepBits + 1

/-- Go `EncodedLen`. -/
def EncodedLen {Word : Type} (enc : Encoding Word) (n : Nat) : Nat :=
  encodedLen enc n 0

/-- Go `AppendEncode`: `slices.Grow` leaves `n` spare cells after `dst`
(zero values here), `Encode` runs on them and the result is `dst` with those
cells. -/
def AppendEncode {Word : Type} [Inhabited Word] (enc : Encoding Word) (dst : List Word)
    (src : List (Fin 256)) : Except Fault (List Word) :=
  let n := EncodedLen enc src.length
  match Encode enc (List.replicate n default) src with
  | .error e => .error e
  | .ok cells => .ok (dst ++ cells)

/-! ## Decoding engine -/

/-- The variables of `decode`: the destination, the three accumulator cells
behind the pointers, and the write position `n`. -/
structure DecState where
  dst : List (Fin 256)
  offset : Nat
  partialByte : Nat
  partialBits : Nat
  n : Nat
  deriving DecidableEq, Repr

/-- The `for remReadBits > 0` loop of `decode`, for one looked-up `index`. -/
def decodeWord : Nat → Nat → Nat → DecState → Except Fault DecState
  | 0, _, remReadBits, st => if remReadBits = 0 then .ok st else .error .fuelExhausted
  | fuel + 1, index, remReadBits, st =>
    if remReadBits = 0 then .ok st
    else
      let readBits := min remReadBits (sub8 8 st.partialBits)
      let partialByte := ((st.partialByte <<< readBits) % 256) |||
        ((index >>> sub8 remReadBits readBits) % 256)
      let partialBits := (st.partialBits + readBits) % 256
      let index := index &&& sub64 ((1 <<< sub8 remReadBits readBits) % 2 ^ 64) 1
      let remReadBits := sub8 remReadBits readBits
      if partialBits = 8 then
        if st.n < st.dst.length then
          decodeWord fuel index remReadBits
            { st with dst := st.dst.set st.n (Fin.ofNat partialByte), n := st.n + 1,
                      partialByte := 0, partialBits := 0 }
        else .error .indexOutOfRange
      else
        decodeWord fuel index remReadBits
          { st with partialByte := partialByte, partialBits := partialBits }

/-- The `for i, w := range src` loop of `decode`; the second component is the
returned `err`. -/
def decodeLoop {Word : Type} [DecidableEq Word] (enc : Encoding Word) :
    List Word → Nat → DecState → Except Fault (DecState × Option (DecodeError Word))
  | [], _, st => .ok (st, none)
  | w :: src, i, st =>
    match mapGet enc.idx w with
    | none => .ok (st, some (.unknownWord w i))
    | some index =>
      let temp := index
      let index := if st.offset ≤ index then sub64 index st.offset
        else sub64 enc.size (sub64 st.offset index)
      match decodeWord (enc.stepBits + 1) index enc.stepBits st with
      | .error e => .error e
      | .ok st => decodeLoop enc src (i + 1) { st with offset := temp &&& enc.offsetToggle }

/-- Go `decode`. -/
def decode {Word : Type} [DecidableEq Word] (enc : Encoding Word) (dst : List (Fin 256))
    (src : List Word) (offset partialByte partialBits : Nat) :
    Except Fault (DecState × Option (DecodeError Word)) :=
  decodeLoop enc src 0
    { dst := dst, offset := offset, partialByte := partialByte, partialBits := partialBits,
      n := 0 }

/-- Go `Decode`: the destination after the call, `n` and `err`. -/
def Decode {Word : Type} [DecidableEq Word] (enc : Encoding Word) (dst : List (Fin 256))
    (src : List Word) : Except Fault (List (Fin 256) × Nat × Option (DecodeError Word)) :=
  match decode enc dst src 0 0 0 with
  | .error e => .error e
  | .ok (st, some err) => .ok (st.dst, st.n, some err)
  | .ok (st, none) =>
    if 0 < st.partialBits ∧ st.partialByte ≠ 0 then
      .ok (st.dst, st.n, some (.trailingBits st.partialByte st.partialBits))
    else .ok (st.dst, st.n, none)

/-- Go `DecodedLen`. -/
def DecodedLen {Word : Type} (enc : Encoding Word) (n : Nat) : Nat :=
  let lenBits := n * enc.stepBits
  lenBits / 8

/-- Go `AppendDecode`. -/
def AppendDecode {Word : Type} [DecidableEq Word] (enc : Encoding Word) (dst : List (Fin 256))
    (src : List Word) : Except Fault (List (Fin 256) × Option (DecodeError Word)) :=
  let n := DecodedLen enc src.length
  match Decode enc (List.replicate n 0) src with
  | .error e => .error e
  | .ok (cells, read, err) => .ok (dst ++ cells.take read, err)

/-! ## Streaming writer

The sink `w.w` is an opaque endpoint: it is modelled by the list of words
forwarded to it so far, and it accepts every write. `w.buf` always has length
zero; what matters is its spare capacity, modelled by the list of the cells
behind it, with `none` for the nil slice. -/

/-- Go `writer`. -/
structure writer (Word : Type) where
  buf : Option (List Word)
  index : Nat
  offset : Nat
  availBits : Nat
  sink : List Word
  deriving DecidableEq, Repr

/-- Go `NewWriter`. -/
def NewWriter {Word : Type} : writer Word :=
  { buf := none, index := 0, offset := 0, availBits := 0, sink := [] }

/-- Go `slices.Grow` on a slice of length zero: the cells behind it are kept
when there are at least `n` of them, and otherwise `n` zero cells are added. -/
def growCells {Word : Type} [Inhabited Word] : Option (List Word) → Nat → Option (List Word)
  | none, n => if n = 0 then none else some (List.replicate n default)
  | some cells, n =>
    if n ≤ cells.length then some cells else some (cells ++ List.replicate n default)

/-- Go `writer.Write`. -/
def writer.Write {Word : Type} [Inhabited Word] (enc : Encoding Word) (w : writer Word)
    (p : List (Fin 256)) : Except Fault (writer Word) :=
  if p.length = 0 then .ok w
  else
    let n := encodedLen enc p.length w.availBits
    let buf := growCells w.buf n
    let cells := buf.getD []
    match encode enc (cells.take n) p w.index w.offset w.availBits with
    | .error e => .error e
    | .ok st =>
      .ok { buf := buf.map (fun _ => st.dst ++ cells.drop n), index := st.index,
            offset := st.offset, availBits := st.availBits,
            sink := w.sink ++ st.dst.take st.n }

/-- Go `writer.Close`. -/
def writer.Close {Word : Type} (enc : Encoding Word) (w : writer Word) :
    Except Fault (writer Word) :=
  match w.buf with
  | none => .ok w
  | some cells =>
    if 0 < w.availBits then
      match add enc { dst := cells.take 1, index := w.index, offset := w.offset,
                      availBits := w.availBits, n := 0 } with
      | .error e => .error e
      | .ok st =>
        .ok { buf := some (st.dst ++ cells.drop 1), index := st.index, offset := st.offset,
              availBits := st.availBits, sink := w.sink ++ st.dst.take st.n }
    else .ok w

/-- A caller that writes the chunks in order. -/
def writeChunks {Word : Type} [Inhabited Word] (enc : Encoding Word) :
    writer Word → List (List (Fin 256)) → Except Fault (writer Word)
  | w, [] => .ok w
  | w, p :: ps =>
    match writer.Write enc w p with
    | .error e => .error e
    | .ok w => writeChunks enc w ps

/-! ## Streaming reader

The cells a reader carries from one `Read` to the next. The source `r.r` is
an opaque endpoint: a `Read` is modelled from the point where the source has
delivered its words. -/

/-- Go `reader`: `offset`, `partial` and `partialBits`. -/
structure reader where
  offset : Nat
  partialByte : Nat
  partialBits : Nat
  deriving DecidableEq, Repr

/-- Go `NewReader`. -/
def NewReader : reader :=
  { offset := 0, partialByte := 0, partialBits := 0 }

/-- The last line of Go `reader.Read`: the words `got` that the source
delivered are decoded into the caller's buffer `p` with the carried cells.
The result is the reader afterwards, `p` afterwards, `n` and `err`. -/
def reader.decodeGot {Word : Type} [DecidableEq Word] (enc : Encoding Word) (r : reader)
    (p : List (Fin 256)) (got : List Word) :
    Except Fault (reader × List (Fin 256) × Nat × Option (DecodeError Word)) :=
  match decode enc p got r.offset r.partialByte r.partialBits with
  | .error e => .error e
  | .ok (st, err) =>
    .ok ({ offset := st.offset, partialByte := st.partialByte, partialBits := st.partialBits },
         st.dst, st.n, err)

/-- Go `reader.Close`. -/
def reader.Close {Word : Type} (r : reader) : Option (DecodeError Word) :=
  if 0 < r.partialBits ∧ r.partialByte ≠ 0 then
    some (.trailingBits r.partialByte r.partialBits)
  else none

/-- A caller that decodes chunk after chunk, each into a buffer of its own,
and collects the bytes `p[:n]` of every call; it stops at the first error. -/
def readChunks {Word : Type} [DecidableEq Word] (enc : Encoding Word) :
    reader → List (List Word × List (Fin 256)) →
      Except Fault (reader × List (Fin 256) × Option (DecodeError Word))
  | r, [] => .ok (r, [], none)
  | r, (got, p) :: cs =>
    match reader.decodeGot enc r p got with
    | .error e => .error e
    | .ok (r, p, n, some err) => .ok (r, p.take n, some err)
    | .ok (r, p, n, none) =>
      match readChunks enc r cs with
      | .error e => .error e
      | .ok (r, out, err) => .ok (r, p.take n ++ out, err)

/-- The error a `Read` returns: the error of the source, handed on as it is,
or an error of `decode`. -/
inductive ReadError (Word : Type) where
  /-- An error returned by the source `r.r`. -/
  | source
  /-- An error returned by `decode`. -/
  | decode (err : DecodeError Word)
  deriving DecidableEq, Repr

/-- The number of words Go `reader.Read` asks the source for, for a caller
buffer of `len` bytes: `encodedLen(len, 0)`, less one when that is positive
and `partialBits > 0`. -/
def reader.request {Word : Type} (enc : Encoding Word) (r : reader) (len : Nat) : Nat :=
  let n := encodedLen enc len 0
  if 0 < n ∧ 0 < r.partialBits then n - 1 else n

/-- Go `reader.Read`. The source is opaque: `source n` is what `r.r.Read`
does when it is handed `n` cells to fill, the words it delivers and whether it
returns an error. The result is the reader afterwards, `p` afterwards, `n`
and `err`. -/
def reader.Read {Word : Type} [DecidableEq Word] (enc : Encoding Word) (r : reader)
    (p : List (Fin 256)) (source : Nat → List Word × Bool) :
    Except Fault (reader × List (Fin 256) × Nat × Option (ReadError Word)) :=
  let n := reader.request enc r p.length
  let got := (source n).1
  if (source n).2 then .ok (r, p, got.length, some .source)
  else
    match reader.decodeGot enc r p got with
    | .error e => .error e
    | .ok (r, p, n, err) => .ok (r, p, n, err.map .decode)

/-! ## Bit strings

The specification side: a byte sequence as a most-significant-bit-first bit
string, its fixed-width groups, and the carry chain of emitted positions. -/

/-- The `w` low bits of `v`, most significant first. -/
def bitsOf : Nat → Nat → List Bool
  | 0, _ => []
  | w + 1, v => decide (v / 2 ^ w % 2 = 1) :: bitsOf w v

/-- The number a bit string denotes, most significant bit first. -/
def valOf : List Bool → Nat
  | [] => 0
  | b :: bs => b.toNat * 2 ^ bs.length + valOf bs

/-- The bit string of a byte sequence. -/
def bitString (x : List (Fin 256)) : List Bool :=
  x.flatMap (fun b => bitsOf 8 b.val)

/-- The first `k` consecutive groups of `s` elements. -/
def chunks {α : Type} (s : Nat) : Nat → List α → List (List α)
  | 0, _ => []
  | k + 1, l => l.take s :: chunks s k (l.drop s)

/-- The complete groups of `s` elements of a list. -/
def groups {α : Type} (s : Nat) (l : List α) : List (List α) :=
  chunks s (l.length / s) l

/-- What is left of a list after its complete groups of `s` elements. -/
def rest {α : Type} (s : Nat) (l : List α) : List α :=
  l.drop (l.length / s * s)

/-- The position `add` emits for the packed value `v` under the running
offset `o`. -/
def emitPos {Word : Type} (enc : Encoding Word) (v o : Nat) : Nat :=
  if enc.size ≤ v + o then v + o - enc.size else v + o

/-- The positions emitted for a sequence of packed values, starting from the
running offset `o`. -/
def chainPos {Word : Type} (enc : Encoding Word) : Nat → List Nat → List Nat
  | _, [] => []
  | o, v :: vs => emitPos enc v o :: chainPos enc (emitPos enc v o &&& enc.offsetToggle) vs

/-- The running offset after a sequence of packed values. -/
def chainOff {Word : Type} (enc : Encoding Word) : Nat → List Nat → Nat
  | o, [] => o
  | o, v :: vs => chainOff enc (emitPos enc v o &&& enc.offsetToggle) vs

/-- The word at a position of the dictionary. -/
def symAt {Word : Type} [Inhabited Word] (enc : Encoding Word) (e : Nat) : Word :=
  enc.dict.getD e default

/-- The facts about an encoding that `NewEncoding` establishes. -/
structure Valid {Word : Type} [DecidableEq Word] (enc : Encoding Word) : Prop where
  size_eq : enc.size = enc.dict.length
  step_pos : 0 < enc.stepBits
  pow_le : 2 ^ enc.stepBits ≤ enc.size
  size_lt : enc.size < 2 ^ 63
  toggle : (enc.offsetToggle = 0 ∧ enc.size = 2 ^ enc.stepBits) ∨
    (enc.offsetToggle = 2 ^ 64 - 1 ∧ 2 ^ enc.stepBits < enc.size ∧
      enc.size < 2 ^ (enc.stepBits + 1))
  idx_get : ∀ w i, mapGet enc.idx w = some i ↔ enc.dict[i]? = some w

/-- The emitted words for a list of complete groups. -/
def emitted {Word : Type} [Inhabited Word] (enc : Encoding Word) (o : Nat)
    (gs : List (List Bool)) : List Word :=
  (chainPos enc o (gs.map valOf)).map (symAt enc)

/-- The state of the encoding engine with destination `pre ++ post`, write
position after `pre`, pending bits `P` and running offset `o`. -/
def encSt {Word : Type} (pre post : List Word) (P : List Bool) (o : Nat) : EncState Word :=
  { dst := pre ++ post, index := valOf P, offset := o, availBits := P.length, n := pre.length }

/-- The state the engine reaches from `encSt pre post P o` on the bits `R`. -/
def encAfter {Word : Type} [Inhabited Word] (enc : Encoding Word) (pre post : List Word)
    (P : List Bool) (o : Nat) (R : List Bool) : EncState Word :=
  encSt (pre ++ emitted enc o (groups enc.stepBits (P ++ R)))
    (post.drop (groups enc.stepBits (P ++ R)).length)
    (rest enc.stepBits (P ++ R))
    (chainOff enc o ((groups enc.stepBits (P ++ R)).map valOf))

/-- A bit string padded on the right with zero bits to a multiple of `s`. -/
def padBits (s : Nat) (X : List Bool) : List Bool :=
  X ++ List.replicate ((s - X.length % s) % s) false

/-- The words of the encoding of `x`: the groups of the padded bit string,
sent through the carry chain and the dictionary. -/
def encodeSpec {Word : Type} [Inhabited Word] (enc : Encoding Word) (x : List (Fin 256)) :
    List Word :=
  emitted enc 0 (groups enc.stepBits (padBits enc.stepBits (bitString x)))

/-- The inner loop of `decode` as a function of the accumulator alone: the
bytes it completes, and `partial` and `partialBits` afterwards. -/
def unpackWord : Nat → Nat → Nat → Nat → Nat → List (Fin 256) × Nat × Nat
  | 0, _, _, partialByte, partialBits => ([], partialByte, partialBits)
  | fuel + 1, index, remReadBits, partialByte, partialBits =>
    if remReadBits = 0 then ([], partialByte, partialBits)
    else
      let readBits := min remReadBits (sub8 8 partialBits)
      let partialByte := ((partialByte <<< readBits) % 256) |||
        ((index >>> sub8 remReadBits readBits) % 256)
      let partialBits := (partialBits + readBits) % 256
      let index := index &&& sub64 ((1 <<< sub8 remReadBits readBits) % 2 ^ 64) 1
      let remReadBits := sub8 remReadBits readBits
      if partialBits = 8 then
        (Fin.ofNat partialByte :: (unpackWord fuel index remReadBits 0 0).1,
          (unpackWord fuel index remReadBits 0 0).2)
      else unpackWord fuel index remReadBits partialByte partialBits

/-- The loop of `decode` as a function of the accumulator alone: the bytes it
completes, the cells afterwards, and the returned `err`. -/
def unpack {Word : Type} [DecidableEq Word] (enc : Encoding Word) :
    List Word → Nat → reader → List (Fin 256) × reader × Option (DecodeError Word)
  | [], _, r => ([], r, none)
  | w :: src, i, r =>
    match mapGet enc.idx w with
    | none => ([], r, some (.unknownWord w i))
    | some index =>
      let value := if r.offset ≤ index then sub64 index r.offset
        else sub64 enc.size (sub64 r.offset index)
      let u := unpackWord (enc.stepBits + 1) value enc.stepBits r.partialByte r.partialBits
      let t := unpack enc src (i + 1)
        { offset := index &&& enc.offsetToggle, partialByte := u.2.1, partialBits := u.2.2 }
      (u.1 ++ t.1, t.2)

/-- The state of the decoding engine with destination `pre ++ post`, write
position after `pre` and accumulator cells `r`. -/
def decSt (pre post : List (Fin 256)) (r : reader) : DecState :=
  { dst := pre ++ post, offset := r.offset, partialByte := r.partialByte,
    partialBits := r.partialBits, n := pre.length }

/-- The byte a group of eight bits denotes. -/
def toByte (g : List Bool) : Fin 256 := Fin.ofNat (valOf g)

/-- The error `Decode` returns for the outcome of the loop of `decode`. -/
def finalErr {Word : Type} (u : List (Fin 256) × reader × Option (DecodeError Word)) :
    Option (DecodeError Word) :=
  match u.2.2 with
  | some err => some err
  | none => reader.Close u.2.1

/-- The number of zero bytes that decoding adds to an encoding: the whole
bytes among the padding bits. -/
def extraBytes (s n : Nat) : Nat := ((s - n * 8 % s) % s) / 8

/-- What a writer holds after the bit string `X` has been written to it, in
terms of the groups of `X`. -/
structure WInv {Word : Type} [Inhabited Word] (enc : Encoding Word) (w : writer Word)
    (X : List Bool) : Prop where
  index_eq : w.index = valOf (rest enc.stepBits X)
  avail_eq : w.availBits = (rest enc.stepBits X).length
  offset_eq : w.offset = chainOff enc 0 ((groups enc.stepBits X).map valOf)
  sink_eq : w.sink = emitted enc 0 (groups enc.stepBits X)
  buf_ok : 0 < (rest enc.stepBits X).length → ∃ c cs, w.buf = some (c :: cs)

/-! ## Reference definitions and sample inputs -/

/-- The value of bits `[i * k, (i + 1) * k)` of the bit string of `x`, the
bit string being padded on the right with zero bits to a multiple of `k`. -/
def groupValue (k : Nat) (x : List (Fin 256)) (i : Nat) : Nat :=
  valOf (((padBits k (bitString x)).drop (i * k)).take k)

/-- The classical unpadded fixed-width base-`2 ^ k` encoding over `dict`: the
word at position `groupValue k x i` for every group `i`. -/
def classicEncode {Word : Type} [Inhabited Word] (dict : List Word) (k : Nat)
    (x : List (Fin 256)) : List Word :=
  (List.range ((padBits k (bitString x)).length / k)).map
    (fun i => dict.getD (groupValue k x i) default)

/-- A dictionary of three words. -/
def dict3 : List Nat := [0, 1, 2]

/-- The encoding `NewEncoding` builds for `dict3`. -/
def enc3 : Encoding Nat :=
  { dict := [0, 1, 2], idx := [(2, 2), (1, 1), (0, 0)], size := 3, stepBits := 1,
    offsetToggle := 2 ^ 64 - 1 }

/-- A dictionary of four words. -/
def dict4 : List Nat := [0, 1, 2, 3]

/-- The encoding `NewEncoding` builds for `dict4`. -/
def enc4 : Encoding Nat :=
  { dict := [0, 1, 2, 3], idx := [(3, 3), (2, 2), (1, 1), (0, 0)], size := 4, stepBits := 2,
    offsetToggle := 0 }

/-- A dictionary of three bytes. -/
def bdict3 : List (Fin 256) := [65, 66, 67]

/-- The encoding `NewEncoding` builds for `bdict3`. -/
def benc3 : Encoding (Fin 256) :=
  { dict := [65, 66, 67], idx := [(67, 2), (66, 1), (65, 0)], size := 3, stepBits := 1,
    offsetToggle := 2 ^ 64 - 1 }

/-- A dictionary of eight words. -/
def dict8 : List Nat := [0, 1, 2, 3, 4, 5, 6, 7]

/-- The encoding `NewEncoding` builds for `dict8`. -/
def enc8 : Encoding Nat :=
  { dict := [0, 1, 2, 3, 4, 5, 6, 7],
    idx := [(7, 7), (6, 6), (5, 5), (4, 4), (3, 3), (2, 2), (1, 1), (0, 0)],
    size := 8, stepBits := 3, offsetToggle := 0 }

/-- A dictionary of nine words. -/
def dict9 : List Nat := [0, 1, 2, 3, 4, 5, 6, 7, 8]

/-- The encoding `NewEncoding` builds for `dict9`. -/
def enc9 : Encoding Nat :=
  { dict := [0, 1, 2, 3, 4, 5, 6, 7, 8],
    idx := [(8, 8), (7, 7), (6, 6), (5, 5), (4, 4), (3, 3), (2, 2), (1, 1), (0, 0)],
    size := 9, stepBits := 3, offsetToggle := 2 ^ 64 - 1 }

/-- The position emitted for the `i`-th of the packed values `g 0, g 1, ..`,
starting from the running offset `o`. -/
def chainAt {Word : Type} (enc : Encoding Word) (g : Nat → Nat) (o : Nat) : Nat → Nat
  | 0 => emitPos enc (g 0) o
  | i + 1 => emitPos enc (g (i + 1)) (chainAt enc g o i &&& enc.offsetToggle)

/-- The carry chain in the words of the specification: `e_0 = g_0` and
`e_i = (g_i + o_i) mod N`, where `o_i = e_(i-1)` when carry mode is on and
`o_i = 0` when it is off; `g_i` is the `i`-th group of `stepBits` bits of
the padded bit string of `x`. -/
def carryRef {Word : Type} (enc : Encoding Word) (x : List (Fin 256)) : Nat → Nat
  | 0 => groupValue enc.stepBits x 0
  | i + 1 =>
    (groupValue enc.stepBits x (i + 1) +
      (if enc.offsetToggle = 0 then 0 else carryRef enc x i)) % enc.size

/-- The bytes whose bit string is `L` padded with zero bits to a multiple of
eight. -/
def bytesOf (L : List Bool) : List (Fin 256) :=
  (groups 8 (padBits 8 L)).map toByte

/-- The values the decoder recovers from a sequence of words, starting from
the running offset `o`: for every word its position in the dictionary less
the running offset, modulo `N`, as `decode` computes it. -/
def recovered {Word : Type} [DecidableEq Word] (enc : Encoding Word) :
    Nat → List Word → List Nat
  | _, [] => []
  | o, w :: ws =>
    match mapGet enc.idx w with
    | none => []
    | some index =>
      (if o ≤ index then sub64 index o else sub64 enc.size (sub64 o index)) ::
        recovered enc (index &&& enc.offsetToggle) ws

end Based

namespace Based

/-! ## Bit strings: lemmas -/

@[simp] theorem length_bitsOf (w v : Nat) : (bitsOf w v).length = w := by
  induction w with
  | zero => rfl
  | succ w ih => simp [bitsOf, ih]

theorem valOf_lt (l : List Bool) : valOf l < 2 ^ l.length := by
  induction l with
  | nil => simp [valOf]
  | cons b bs ih =>
    simp only [valOf, List.length_cons, pow_succ]
    cases b <;> simp [Bool.toNat] <;> omega

theorem valOf_append (a b : List Bool) :
    valOf (a ++ b) = valOf a * 2 ^ b.length + valOf b := by
  induction a with
  | nil => simp [valOf]
  | cons x xs ih =>
    rw [List.cons_append]
    simp only [valOf, ih, List.length_append, pow_add]
    ring

theorem valOf_bitsOf (w v : Nat) : valOf (bitsOf w v) = v % 2 ^ w := by
  induction w with
  | zero => simp [bitsOf, valOf, Nat.mod_one]
  | succ w ih =>
    simp only [bitsOf, valOf, ih, length_bitsOf, Nat.mod_pow_succ]
    have h2 : v / 2 ^ w % 2 < 2 := Nat.mod_lt _ (by norm_num)
    by_cases h : v / 2 ^ w % 2 = 1
    · simp [h, Bool.toNat]; omega
    · have h0 : v / 2 ^ w % 2 = 0 := by omega
      simp [h0, Bool.toNat]

theorem valOf_inj : ∀ (a b : List Bool), a.length = b.length → valOf a = valOf b → a = b
  | [], [], _, _ => rfl
  | [], _ :: _, h, _ => by simp at h
  | _ :: _, [], h, _ => by simp at h
  | x :: xs, y :: ys, h, hv => by
    simp only [List.length_cons, Nat.add_right_cancel_iff] at h
    simp only [valOf, h] at hv
    have h1 := valOf_lt xs
    have h2 := valOf_lt ys
    rw [h] at h1
    have hp : 0 < 2 ^ ys.length := Nat.two_pow_pos _
    have hxy : x = y ∧ valOf xs = valOf ys := by
      cases x <;> cases y <;> simp [Bool.toNat] at hv ⊢ <;> omega
    rw [hxy.1, valOf_inj xs ys h hxy.2]

theorem bitsOf_valOf (l : List Bool) : bitsOf l.length (valOf l) = l := by
  apply valOf_inj _ _ (by simp)
  rw [valOf_bitsOf, Nat.mod_eq_of_lt (valOf_lt l)]

theorem valOf_replicate_false (k : Nat) : valOf (List.replicate k false) = 0 := by
  induction k with
  | zero => rfl
  | succ k ih => simp [List.replicate_succ, valOf, ih, Bool.toNat]

theorem valOf_take (l : List Bool) (k : Nat) :
    valOf (l.take k) = valOf l / 2 ^ (l.length - k) := by
  have h := valOf_append (l.take k) (l.drop k)
  rw [List.take_append_drop, List.length_drop] at h
  rw [h, Nat.add_comm, Nat.add_mul_div_right _ _ (Nat.two_pow_pos _)]
  have := valOf_lt (l.drop k)
  rw [List.length_drop] at this
  simp [Nat.div_eq_of_lt this]

theorem valOf_drop (l : List Bool) (k : Nat) :
    valOf (l.drop k) = valOf l % 2 ^ (l.length - k) := by
  have h := valOf_append (l.take k) (l.drop k)
  rw [List.take_append_drop, List.length_drop] at h
  have := valOf_lt (l.drop k)
  rw [List.length_drop] at this
  rw [h, Nat.add_comm, Nat.add_mul_mod_self_right, Nat.mod_eq_of_lt this]

/-! ## Groups: lemmas -/

section Groups
variable {α : Type}

theorem chunks_append (s k : Nat) (g l : List α) (hg : g.length = s) :
    chunks s (k + 1) (g ++ l) = g :: chunks s k l := by
  simp [chunks, ← hg]

theorem groups_append (s : Nat) (hs : 0 < s) (g l : List α) (hg : g.length = s) :
    groups s (g ++ l) = g :: groups s l := by
  unfold groups
  have : (g ++ l).length / s = l.length / s + 1 := by
    rw [List.length_append, hg, Nat.add_comm, Nat.add_div_right _ hs]
  rw [this, chunks_append s _ g l hg]

theorem rest_append (s : Nat) (hs : 0 < s) (g l : List α) (hg : g.length = s) :
    rest s (g ++ l) = rest s l := by
  unfold rest
  have : (g ++ l).length / s = l.length / s + 1 := by
    rw [List.length_append, hg, Nat.add_comm, Nat.add_div_right _ hs]
  rw [this, Nat.add_mul, Nat.one_mul, Nat.add_comm, ← List.drop_drop]
  congr 1
  rw [← hg]; simp

theorem groups_short (s : Nat) (l : List α) (h : l.length < s) : groups s l = [] := by
  simp [groups, Nat.div_eq_of_lt h, chunks]

theorem rest_short (s : Nat) (l : List α) (h : l.length < s) : rest s l = l := by
  simp [rest, Nat.div_eq_of_lt h]

theorem length_rest (s : Nat) (l : List α) : (rest s l).length = l.length % s := by
  simp only [rest, List.length_drop]
  have := Nat.div_add_mod l.length s
  rw [Nat.mul_comm] at this
  omega

theorem length_chunks (s k : Nat) (l : List α) : (chunks s k l).length = k := by
  induction k generalizing l with
  | zero => rfl
  | succ k ih => simp [chunks, ih]

theorem length_groups (s : Nat) (l : List α) : (groups s l).length = l.length / s := by
  simp [groups, length_chunks]

/-- Splitting off the first group of a list that has one. -/
theorem split_first (s : Nat) (l : List α) (h : s ≤ l.length) :
    l = l.take s ++ l.drop s ∧ (l.take s).length = s := by
  simp [List.take_append_drop, h]

theorem groups_rest_append (s : Nat) (hs : 0 < s) (l₁ l₂ : List α) :
    groups s (l₁ ++ l₂) = groups s l₁ ++ groups s (rest s l₁ ++ l₂) ∧
    rest s (l₁ ++ l₂) = rest s (rest s l₁ ++ l₂) := by
  generalize h : l₁.length = n
  induction n using Nat.strong_induction_on generalizing l₁ with
  | _ n ih =>
    subst h
    by_cases hlt : l₁.length < s
    · simp [groups_short s l₁ hlt, rest_short s l₁ hlt]
    · have hsp := split_first s l₁ (by omega)
      have hd : (l₁.drop s).length < l₁.length := by simp; omega
      have := ih _ hd (l₁.drop s) rfl
      rw [hsp.1, List.append_assoc, groups_append s hs _ _ hsp.2, rest_append s hs _ _ hsp.2,
        groups_append s hs _ _ hsp.2, rest_append s hs _ _ hsp.2, this.1, ← this.2]
      simp

theorem mem_groups_length (s : Nat) (l g : List α) (hg : g ∈ groups s l) : g.length = s := by
  unfold groups at hg
  generalize hk : l.length / s = k at hg
  have hle : k * s ≤ l.length := by rw [← hk]; exact Nat.div_mul_le_self _ _
  clear hk
  induction k generalizing l with
  | zero => simp [chunks] at hg
  | succ k ih =>
    simp only [chunks, List.mem_cons] at hg
    rw [Nat.add_mul] at hle
    rcases hg with rfl | hg
    · simp; omega
    · exact ih _ hg (by simp; omega)

theorem flatten_groups (s : Nat) (hs : 0 < s) (l : List α) :
    (groups s l).flatten ++ rest s l = l := by
  generalize h : l.length = n
  induction n using Nat.strong_induction_on generalizing l with
  | _ n ih =>
    subst h
    by_cases hlt : l.length < s
    · simp [groups_short s l hlt, rest_short s l hlt]
    · have hsp := split_first s l (by omega)
      have hd : (l.drop s).length < l.length := by simp; omega
      have := ih _ hd (l.drop s) rfl
      conv_rhs => rw [hsp.1, ← this]
      rw [hsp.1, groups_append s hs _ _ hsp.2, rest_append s hs _ _ hsp.2]
      simp

end Groups

end Based

namespace Based

/-! ## Machine arithmetic: lemmas -/

theorem sub8_eq (a b : Nat) (hb : b ≤ a) (ha : a < 256) : sub8 a b = a - b := by
  unfold sub8
  rw [Nat.mod_eq_of_lt (by omega : b < 256)]
  omega

theorem sub64_eq (a b : Nat) (hb : b ≤ a) (ha : a < 2 ^ 64) : sub64 a b = a - b := by
  unfold sub64
  rw [Nat.mod_eq_of_lt (by omega : b < 2 ^ 64)]
  omega

theorem pow_le_of_le {a b : Nat} (h : a ≤ b) : 2 ^ a ≤ 2 ^ b :=
  Nat.pow_le_pow_right (by norm_num) h

theorem pow_lt_of_lt {a b : Nat} (h : a < b) : 2 ^ a < 2 ^ b :=
  Nat.pow_lt_pow_right (by norm_num) h

/-- Moving the top `rb` bits of the byte remainder `R` behind the pending
bits `P`: the shift-and-or of `encode`. -/
theorem move_index (P R : List Bool) (rb : Nat) (hrb : rb ≤ R.length) (hR : R.length ≤ 8)
    (hP : P.length + rb ≤ 63) :
    ((valOf P <<< rb) % 2 ^ 64) ||| (valOf R >>> sub8 R.length rb) = valOf (P ++ R.take rb) := by
  rw [sub8_eq _ _ hrb (by omega), Nat.shiftRight_eq_div_pow, ← valOf_take, Nat.shiftLeft_eq,
    valOf_append]
  have hT : (R.take rb).length = rb := by simp [hrb]
  have h1 := valOf_lt (R.take rb)
  have h2 := valOf_lt P
  rw [hT] at h1 ⊢
  have h3 : valOf P * 2 ^ rb < 2 ^ 64 := by
    calc valOf P * 2 ^ rb < 2 ^ P.length * 2 ^ rb :=
          Nat.mul_lt_mul_of_pos_right h2 (Nat.two_pow_pos _)
      _ = 2 ^ (P.length + rb) := (pow_add _ _ _).symm
      _ ≤ 2 ^ 64 := pow_le_of_le (by omega)
  rw [Nat.mod_eq_of_lt h3, Nat.mul_comm, Nat.mul_add_lt_is_or h1]

/-- Removing the bits that have been read: the mask of `encode`. -/
theorem move_read (R : List Bool) (rb : Nat) (hrb : rb ≤ R.length) (hpos : 0 < rb)
    (hR : R.length ≤ 8) :
    valOf R &&& sub8 ((1 <<< sub8 R.length rb) % 256) 1 = valOf (R.drop rb) := by
  rw [sub8_eq _ _ hrb (by omega), Nat.shiftLeft_eq, Nat.one_mul, valOf_drop]
  have h1 : 2 ^ (R.length - rb) ≤ 2 ^ 7 := pow_le_of_le (by omega)
  have h2 : 0 < 2 ^ (R.length - rb) := Nat.two_pow_pos _
  rw [Nat.mod_eq_of_lt (by omega), sub8_eq _ _ (by omega) (by omega),
    Nat.and_pow_two_sub_one_eq_mod]

end Based

namespace Based

section Engine
variable {Word : Type} [DecidableEq Word] {enc : Encoding Word}

theorem Valid.step_lt (hv : Valid enc) : enc.stepBits < 63 := by
  have h := lt_of_le_of_lt hv.pow_le hv.size_lt
  exact (Nat.pow_lt_pow_iff_right (by norm_num)).1 h

theorem emitPos_lt (hv : Valid enc) (v o : Nat) (hvv : v < 2 ^ enc.stepBits)
    (ho : o < enc.size) : emitPos enc v o < enc.size := by
  have := hv.pow_le
  unfold emitPos
  split <;> omega

theorem and_toggle_lt (hv : Valid enc) (e : Nat) (he : e < enc.size) :
    e &&& enc.offsetToggle < enc.size := by
  rcases hv.toggle with ⟨h, _⟩ | ⟨h, _⟩
  · rw [h, Nat.and_zero]; omega
  · rw [h, Nat.and_pow_two_sub_one_eq_mod, Nat.mod_eq_of_lt]
    · exact he
    · have := hv.size_lt
      have : (2:Nat) ^ 63 < 2 ^ 64 := by norm_num
      omega

omit [DecidableEq Word] in
theorem set_append_cons (pre : List Word) (x w : Word) (post : List Word) :
    (pre ++ x :: post).set pre.length w = pre ++ w :: post := by
  rw [List.set_append_right _ _ (le_refl _)]
  simp

theorem getElem?_symAt [Inhabited Word] (hv : Valid enc) (e : Nat) (he : e < enc.size) :
    enc.dict[e]? = some (symAt enc e) := by
  have h : e < enc.dict.length := by rw [← hv.size_eq]; exact he
  rw [List.getElem?_eq_getElem h, symAt, List.getD_eq_getElem _ _ h]

/-- One emit: `add` on a state whose pending bits are `P`. -/
theorem add_ok [Inhabited Word] (hv : Valid enc) (P : List Bool) (hP : P.length ≤ enc.stepBits) (o : Nat)
    (ho : o < enc.size) (pre : List Word) (x : Word) (post : List Word) :
    add enc { dst := pre ++ x :: post, index := valOf P, offset := o,
              availBits := P.length, n := pre.length } =
      .ok { dst := pre ++
              symAt enc (emitPos enc (valOf (P ++ List.replicate (enc.stepBits - P.length) false)) o)
                :: post,
            index := 0,
            offset := emitPos enc (valOf (P ++ List.replicate (enc.stepBits - P.length) false)) o
              &&& enc.offsetToggle,
            availBits := 0, n := pre.length + 1 } := by
  have hs := hv.step_lt
  have hpow := hv.pow_le
  have hsz := hv.size_lt
  have h64 : (2:Nat) ^ 64 = 2 ^ 63 + 2 ^ 63 := by norm_num
  set v := valOf (P ++ List.replicate (enc.stepBits - P.length) false) with hvdef
  have hvlt : v < 2 ^ enc.stepBits := by
    have := valOf_lt (P ++ List.replicate (enc.stepBits - P.length) false)
    simp only [List.length_append, List.length_replicate] at this
    rwa [Nat.add_sub_cancel' hP] at this
  have hshift : (valOf P <<< sub8 enc.stepBits P.length) % 2 ^ 64 = v := by
    rw [sub8_eq _ _ hP (by omega), Nat.shiftLeft_eq, hvdef, valOf_append,
      valOf_replicate_false, List.length_replicate, Nat.add_zero]
    rw [hvdef, valOf_append, valOf_replicate_false, List.length_replicate, Nat.add_zero] at hvlt
    exact Nat.mod_eq_of_lt (by omega)
  have hsum : (v + o) % 2 ^ 64 = v + o := Nat.mod_eq_of_lt (by omega)
  have hidx : (if enc.size ≤ v + o then sub64 (v + o) enc.size else v + o) = emitPos enc v o := by
    unfold emitPos
    split
    · rw [sub64_eq _ _ (by assumption) (by omega)]
    · rfl
  have he := emitPos_lt hv v o hvlt ho
  simp only [add, hshift, hsum, hidx, getElem?_symAt hv _ he, List.length_append,
    List.length_cons, set_append_cons]
  rw [if_pos (by omega)]

end Engine

end Based

namespace Based
section Engine2
variable {Word : Type} [DecidableEq Word] {enc : Encoding Word}

omit [DecidableEq Word] in
theorem length_chainPos (enc : Encoding Word) (o : Nat) (vs : List Nat) :
    (chainPos enc o vs).length = vs.length := by
  induction vs generalizing o with
  | nil => rfl
  | cons v vs ih => simp [chainPos, ih]

omit [DecidableEq Word] in
theorem length_emitted [Inhabited Word] (enc : Encoding Word) (o : Nat) (gs : List (List Bool)) :
    (emitted enc o gs).length = gs.length := by
  simp [emitted, length_chainPos]

omit [DecidableEq Word] in
theorem encAfter_nil [Inhabited Word] (pre post : List Word) (P : List Bool) (o : Nat)
    (hP : P.length < enc.stepBits) : encAfter enc pre post P o [] = encSt pre post P o := by
  simp [encAfter, groups_short _ _ hP, rest_short _ _ hP, emitted, chainPos, chainOff]

theorem encodeByte_ok [Inhabited Word] (hv : Valid enc) :
    ∀ (fuel : Nat) (P R : List Bool) (o : Nat) (pre post : List Word),
      R.length ≤ fuel → R.length ≤ 8 → P.length < enc.stepBits → o < enc.size →
      (groups enc.stepBits (P ++ R)).length ≤ post.length →
      encodeByte enc fuel (valOf R) R.length (encSt pre post P o) =
        .ok (encAfter enc pre post P o R) := by
  have hs := hv.step_lt
  have hs0 := hv.step_pos
  intro fuel
  induction fuel with
  | zero =>
    intro P R o pre post hf _ hP _ _
    have : R = [] := List.length_eq_zero.1 (by omega)
    subst this
    simp [encodeByte, encAfter_nil pre post P o hP]
  | succ fuel ih =>
    intro P R o pre post hf hR hP ho hcap
    by_cases hnil : R = []
    · subst hnil
      simp [encodeByte, encAfter_nil pre post P o hP]
    have hRpos : 0 < R.length := List.length_pos.2 hnil
    have hsub : sub8 enc.stepBits P.length = enc.stepBits - P.length :=
      sub8_eq _ _ (by omega) (by omega)
    set rb := min (enc.stepBits - P.length) R.length with hrb
    have hrb1 : 0 < rb := by omega
    have hrb2 : rb ≤ R.length := by omega
    have hrb3 : P.length + rb ≤ enc.stepBits := by omega
    have hlenT : (R.take rb).length = rb := by simp [hrb2]
    have hsplit : P ++ R = (P ++ R.take rb) ++ R.drop rb := by
      rw [List.append_assoc, List.take_append_drop]
    have hdropLen : (R.drop rb).length = R.length - rb := by simp
    have hstep : encodeByte enc (fuel + 1) (valOf R) R.length (encSt pre post P o) =
        if P.length + rb = enc.stepBits then
          match add enc (encSt pre post (P ++ R.take rb) o) with
          | .error e => .error e
          | .ok st => encodeByte enc fuel (valOf (R.drop rb)) (R.drop rb).length st
        else encodeByte enc fuel (valOf (R.drop rb)) (R.drop rb).length
          (encSt pre post (P ++ R.take rb) o) := by
      have hmi := move_index P R rb hrb2 hR (by omega)
      have hmr := move_read R rb hrb2 hrb1 hR
      rw [sub8_eq _ _ hrb2 (by omega : R.length < 256)] at hmi hmr
      rw [encodeByte]
      simp only [encSt, hsub, ← hrb, if_neg (by omega : ¬ R.length = 0), hmi, hmr,
        sub8_eq _ _ hrb2 (by omega : R.length < 256),
        Nat.mod_eq_of_lt (by omega : P.length + rb < 256), List.length_append, hlenT, hdropLen]
    rw [hstep]
    split
    · -- a complete group: emit it and go on with the rest of the byte
      rename_i hfull
      have hPT : (P ++ R.take rb).length = enc.stepBits := by simp [hlenT, hfull]
      have hg : groups enc.stepBits (P ++ R) =
          (P ++ R.take rb) :: groups enc.stepBits (R.drop rb) := by
        rw [hsplit, groups_append _ hs0 _ _ hPT]
      have hr : rest enc.stepBits (P ++ R) = rest enc.stepBits (R.drop rb) := by
        rw [hsplit, rest_append _ hs0 _ _ hPT]
      rw [hg, List.length_cons] at hcap
      obtain ⟨x, post', rfl⟩ : ∃ x post', post = x :: post' := by
        cases post with
        | nil => simp at hcap
        | cons x post' => exact ⟨x, post', rfl⟩
      have hadd := add_ok hv (P ++ R.take rb) (le_of_eq hPT) o ho pre x post'
      rw [hPT, Nat.sub_self, List.replicate_zero, List.append_nil] at hadd
      rw [← hPT] at hadd
      have hvlt : valOf (P ++ R.take rb) < 2 ^ enc.stepBits := by
        have := valOf_lt (P ++ R.take rb); rwa [hPT] at this
      have he := emitPos_lt hv _ o hvlt ho
      have ho' := and_toggle_lt hv _ he
      simp only [encSt, List.length_append, hlenT, hfull] at hadd ⊢
      rw [hadd]
      have := ih [] (R.drop rb)
        (emitPos enc (valOf (P ++ R.take rb)) o &&& enc.offsetToggle)
        (pre ++ [symAt enc (emitPos enc (valOf (P ++ R.take rb)) o)]) post'
        (by omega) (by omega) hs0 ho' (by simpa using hcap)
      simp only [encSt, List.append_assoc, List.singleton_append, List.length_append,
        List.length_singleton, valOf, List.length_nil, List.nil_append] at this
      simp only []
      rw [this]
      simp [encAfter, encSt, hg, hr, emitted, chainPos, chainOff, Nat.add_assoc, Nat.add_comm 1]
    · -- the byte is used up before the group is complete
      rename_i hnot
      have hall : rb = R.length := by omega
      have := ih (P ++ R.take rb) (R.drop rb) o pre post (by omega) (by omega)
        (by simp [hlenT]; omega) ho (by rw [← hsplit]; exact hcap)
      rw [this]
      simp [encAfter, ← hsplit]

end Engine2
end Based

namespace Based
section Engine3
variable {Word : Type} [DecidableEq Word] {enc : Encoding Word}

omit [DecidableEq Word] in
theorem chainPos_append (enc : Encoding Word) (o : Nat) (a b : List Nat) :
    chainPos enc o (a ++ b) = chainPos enc o a ++ chainPos enc (chainOff enc o a) b := by
  induction a generalizing o with
  | nil => rfl
  | cons v vs ih => simp [chainPos, chainOff, ih]

omit [DecidableEq Word] in
theorem chainOff_append (enc : Encoding Word) (o : Nat) (a b : List Nat) :
    chainOff enc o (a ++ b) = chainOff enc (chainOff enc o a) b := by
  induction a generalizing o with
  | nil => rfl
  | cons v vs ih => simp [chainOff, ih]

theorem chainOff_lt (hv : Valid enc) (vs : List Nat) (o : Nat) (ho : o < enc.size)
    (hvs : ∀ v ∈ vs, v < 2 ^ enc.stepBits) : chainOff enc o vs < enc.size := by
  induction vs generalizing o with
  | nil => exact ho
  | cons v vs ih =>
    simp only [chainOff]
    apply ih
    · exact and_toggle_lt hv _ (emitPos_lt hv v o (hvs v (by simp)) ho)
    · intro v' hv'; exact hvs v' (by simp [hv'])

theorem chainPos_lt (hv : Valid enc) (vs : List Nat) (o : Nat) (ho : o < enc.size)
    (hvs : ∀ v ∈ vs, v < 2 ^ enc.stepBits) : ∀ e ∈ chainPos enc o vs, e < enc.size := by
  induction vs generalizing o with
  | nil => intro e he; simp [chainPos] at he
  | cons v vs ih =>
    intro e he
    simp only [chainPos, List.mem_cons] at he
    have h1 := emitPos_lt hv v o (hvs v (by simp)) ho
    rcases he with rfl | he
    · exact h1
    · exact ih _ (and_toggle_lt hv _ h1) (fun v' hv' => hvs v' (by simp [hv'])) e he

theorem groups_val_lt (s : Nat) (l : List Bool) :
    ∀ v ∈ (groups s l).map valOf, v < 2 ^ s := by
  intro v hvm
  obtain ⟨g, hg, rfl⟩ := List.mem_map.1 hvm
  have := valOf_lt g
  rwa [mem_groups_length s l g hg] at this

omit [DecidableEq Word] in
theorem emitted_append [Inhabited Word] (enc : Encoding Word) (o : Nat) (a b : List (List Bool)) :
    emitted enc o (a ++ b) =
      emitted enc o a ++ emitted enc (chainOff enc o (a.map valOf)) b := by
  simp [emitted, chainPos_append]

/-- Running the engine on `R` and then on `X` is running it on `R ++ X`. -/
theorem encAfter_append [Inhabited Word] (hv : Valid enc) (pre post : List Word)
    (P : List Bool) (o : Nat) (R X : List Bool) :
    encAfter enc (pre ++ emitted enc o (groups enc.stepBits (P ++ R)))
        (post.drop (groups enc.stepBits (P ++ R)).length)
        (rest enc.stepBits (P ++ R))
        (chainOff enc o ((groups enc.stepBits (P ++ R)).map valOf)) X =
      encAfter enc pre post P o (R ++ X) := by
  have h := groups_rest_append enc.stepBits hv.step_pos (P ++ R) X
  rw [List.append_assoc] at h
  simp only [encAfter, h.1, ← h.2, emitted_append, List.map_append, chainOff_append,
    List.length_append, List.drop_drop, List.append_assoc]

theorem bitString_cons (b : Fin 256) (x : List (Fin 256)) :
    bitString (b :: x) = bitsOf 8 b.val ++ bitString x := by
  simp [bitString]

theorem valOf_bits8 (b : Fin 256) : valOf (bitsOf 8 b.val) = b.val := by
  rw [valOf_bitsOf]
  exact Nat.mod_eq_of_lt b.isLt

/-- The `for len(src) > 0` loop of `encode` packs the bit string of `src`
behind the pending bits. -/
theorem encodeLoop_ok [Inhabited Word] (hv : Valid enc) :
    ∀ (src : List (Fin 256)) (P : List Bool) (o : Nat) (pre post : List Word),
      P.length < enc.stepBits → o < enc.size →
      (groups enc.stepBits (P ++ bitString src)).length ≤ post.length →
      encodeLoop enc src (encSt pre post P o) =
        .ok (encAfter enc pre post P o (bitString src)) := by
  have hs0 := hv.step_pos
  intro src
  induction src with
  | nil =>
    intro P o pre post hP _ _
    simp [encodeLoop, bitString, encAfter_nil pre post P o hP]
  | cons b src ih =>
    intro P o pre post hP ho hcap
    rw [bitString_cons] at hcap ⊢
    have hsplit := groups_rest_append enc.stepBits hs0 (P ++ bitsOf 8 b.val) (bitString src)
    rw [List.append_assoc] at hsplit
    rw [hsplit.1, List.length_append] at hcap
    have hbyte := encodeByte_ok hv 9 P (bitsOf 8 b.val) o pre post (by simp) (by simp) hP ho
      (by omega)
    rw [valOf_bits8, length_bitsOf] at hbyte
    rw [encodeLoop, hbyte]
    simp only []
    rw [encAfter]
    rw [ih _ _ _ _ (by rw [length_rest]; exact Nat.mod_lt _ hs0)
      (chainOff_lt hv _ o ho (groups_val_lt _ _))
      (by rw [List.length_drop]; omega)]
    rw [encAfter_append hv]

end Engine3
end Based

namespace Based

/-! ## One-shot encoding -/

theorem groups_exact {α : Type} (s : Nat) (hs : 0 < s) (g : List α) (hg : g.length = s) :
    groups s g = [g] := by
  have := groups_append s hs g [] hg
  rwa [List.append_nil, groups_short s [] (by simpa using hs)] at this

theorem groups_padBits (s : Nat) (hs : 0 < s) (X : List Bool) :
    groups s (padBits s X) = groups s X ++
      (if (rest s X).length = 0 then []
       else [rest s X ++ List.replicate (s - (rest s X).length) false]) := by
  unfold padBits
  rw [(groups_rest_append s hs X _).1]
  congr 1
  have hr := length_rest s X
  have hlt : X.length % s < s := Nat.mod_lt _ hs
  by_cases h0 : (rest s X).length = 0
  · rw [if_pos h0]
    have : X.length % s = 0 := by omega
    rw [this, Nat.sub_zero, Nat.mod_self, List.replicate_zero, List.append_nil]
    exact groups_short s _ (by omega)
  · rw [if_neg h0, ← hr, Nat.mod_eq_of_lt (by omega)]
    exact groups_exact s hs _ (by simp; omega)

section Encode
variable {Word : Type} [DecidableEq Word] [Inhabited Word] {enc : Encoding Word}

theorem length_encodeSpec (hv : Valid enc) (x : List (Fin 256)) :
    (encodeSpec enc x).length = EncodedLen enc x.length := by
  have hbits : (bitString x).length = x.length * 8 := by
    induction x with
    | nil => rfl
    | cons b x ih => rw [bitString_cons, List.length_append, ih]; simp; omega
  rw [encodeSpec, length_emitted, groups_padBits _ hv.step_pos, List.length_append,
    length_groups, length_rest, hbits, EncodedLen, encodedLen]
  simp only [Nat.add_zero]
  split <;> simp_all

/-- The body of `Encode` on a destination with enough room. -/
theorem encodeRun_ok (hv : Valid enc) (dst : List Word) (x : List (Fin 256))
    (hcap : EncodedLen enc x.length ≤ dst.length) :
    ∃ st, encodeRun enc dst x = .ok st ∧
      st.dst = encodeSpec enc x ++ dst.drop (EncodedLen enc x.length) ∧
      st.n = EncodedLen enc x.length := by
  have hs0 := hv.step_pos
  rw [← length_encodeSpec hv] at hcap ⊢
  have hgp := groups_padBits enc.stepBits hs0 (bitString x)
  have hlen : (encodeSpec enc x).length =
      (groups enc.stepBits (padBits enc.stepBits (bitString x))).length := by
    rw [encodeSpec, length_emitted]
  have hsize : 0 < enc.size := lt_of_lt_of_le (Nat.two_pow_pos _) hv.pow_le
  have hloop := encodeLoop_ok hv x [] 0 [] dst hs0 hsize
    (by rw [hlen, hgp] at hcap; simp at hcap ⊢; omega)
  have henc : encode enc dst x 0 0 0 = encodeLoop enc x (encSt [] dst [] 0) := rfl
  rw [encodeRun, henc, hloop]
  simp only [encAfter, encSt, List.nil_append, List.length_nil, Nat.zero_add]
  by_cases h0 : (rest enc.stepBits (bitString x)).length = 0
  · rw [if_neg (by omega)]
    rw [if_pos h0, List.append_nil] at hgp
    refine ⟨_, rfl, ?_, ?_⟩
    · simp [encodeSpec, hgp, length_emitted]
    · simp [encodeSpec, hgp, length_emitted]
  · rw [if_pos (by omega)]
    rw [if_neg h0] at hgp
    have hcap' : (groups enc.stepBits (bitString x)).length + 1 ≤ dst.length := by
      rw [hlen, hgp] at hcap; simpa using hcap
    obtain ⟨c, post', hpost⟩ : ∃ c post',
        dst.drop (groups enc.stepBits (bitString x)).length = c :: post' := by
      cases hd : dst.drop (groups enc.stepBits (bitString x)).length with
      | nil =>
        have := congrArg List.length hd
        simp at this; omega
      | cons c post' => exact ⟨c, post', rfl⟩
    have hrl : (rest enc.stepBits (bitString x)).length < enc.stepBits := by
      rw [length_rest]; exact Nat.mod_lt _ hs0
    have hadd := add_ok hv (rest enc.stepBits (bitString x)) (le_of_lt hrl)
      (chainOff enc 0 ((groups enc.stepBits (bitString x)).map valOf))
      (chainOff_lt hv _ 0 hsize (groups_val_lt _ _))
      (emitted enc 0 (groups enc.stepBits (bitString x))) c post'
    rw [hpost, hadd]
    have hpost' : post' = dst.drop ((groups enc.stepBits (bitString x)).length + 1) := by
      have := congrArg (List.drop 1) hpost
      simpa [List.drop_drop, Nat.add_comm] using this.symm
    refine ⟨_, rfl, ?_, ?_⟩
    · simp [encodeSpec, hgp, emitted, chainPos_append, chainPos, length_chainPos, hpost']
    · simp [encodeSpec, hgp, length_emitted]

theorem Encode_ok (hv : Valid enc) (dst : List Word) (x : List (Fin 256))
    (hcap : EncodedLen enc x.length ≤ dst.length) :
    Encode enc dst x = .ok (encodeSpec enc x ++ dst.drop (EncodedLen enc x.length)) := by
  obtain ⟨st, h1, h2, _⟩ := encodeRun_ok hv dst x hcap
  rw [Encode, h1]
  simp only [h2]

theorem AppendEncode_ok (hv : Valid enc) (dst : List Word) (x : List (Fin 256)) :
    AppendEncode enc dst x = .ok (dst ++ encodeSpec enc x) := by
  have h := Encode_ok hv (List.replicate (EncodedLen enc x.length) default) x (by simp)
  simp only [AppendEncode, h]
  simp

end Encode
end Based

namespace Based

/-! ## Construction -/

theorem lenAux_spec : ∀ (fuel x : Nat), x < 2 ^ fuel →
    (x = 0 → lenAux fuel x = 0) ∧
    (0 < x → 2 ^ (lenAux fuel x - 1) ≤ x ∧ x < 2 ^ lenAux fuel x ∧ 0 < lenAux fuel x)
  | 0, x, h => by
    have : x = 0 := by simpa using h
    subst this
    simp [lenAux]
  | fuel + 1, x, h => by
    constructor
    · intro h0; simp [lenAux, h0]
    · intro hpos
      have hne : x ≠ 0 := by omega
      have hhalf : x / 2 < 2 ^ fuel := by
        rw [pow_succ] at h; omega
      have ih := lenAux_spec fuel (x / 2) hhalf
      simp only [lenAux, if_neg hne, Nat.add_sub_cancel]
      by_cases hz : x / 2 = 0
      · rw [ih.1 hz]
        have : x = 1 := by omega
        subst this
        simp
      · obtain ⟨h1, h2, h3⟩ := ih.2 (by omega)
        obtain ⟨k, hk⟩ : ∃ k, lenAux fuel (x / 2) = k + 1 := ⟨_, (Nat.succ_pred_eq_of_pos h3).symm⟩
        rw [hk] at h1 h2 ⊢
        simp only [Nat.add_sub_cancel] at h1
        rw [pow_succ] at h2 ⊢
        refine ⟨?_, ?_, by omega⟩ <;> omega

theorem Len64_zero : Len64 0 = 0 := by simp [Len64, lenAux]

theorem Len64_spec (x : Nat) (h0 : 0 < x) (h : x < 2 ^ 64) :
    2 ^ (Len64 x - 1) ≤ x ∧ x < 2 ^ Len64 x ∧ 0 < Len64 x := by
  unfold Len64
  rw [Nat.mod_eq_of_lt h]
  exact (lenAux_spec 64 x h).2 h0

section Build
variable {Word : Type} [DecidableEq Word]

theorem mapGet_cons (k : Word) (v : Nat) (m : List (Word × Nat)) (w : Word) :
    mapGet ((k, v) :: m) w = if k = w then some v else mapGet m w := rfl

theorem buildIdx_some : ∀ (ws : List Word) (i : Nat) (m m' : List (Word × Nat)),
    buildIdx ws i m = some m' →
    (∀ w j, mapGet m' w = some j ↔
      (mapGet m w = some j ∨ ∃ k, ws[k]? = some w ∧ j = (i + k) % 2 ^ 64)) ∧
    ws.Nodup ∧ ∀ w ∈ ws, mapGet m w = none
  | [], i, m, m', h => by
    simp only [buildIdx, Option.some.injEq] at h
    subst h
    simp
  | w0 :: ws, i, m, m', h => by
    rw [buildIdx] at h
    cases hm : mapGet m w0 with
    | some v => simp [hm] at h
    | none =>
      simp only [hm] at h
      obtain ⟨h1, h2, h3⟩ := buildIdx_some ws (i + 1) _ m' h
      have hfresh : ∀ w ∈ ws, w0 ≠ w ∧ mapGet m w = none := by
        intro w hw
        have := h3 w hw
        rw [mapGet_cons] at this
        by_cases he : w0 = w
        · simp [he] at this
        · simpa [he] using this
      refine ⟨?_, ?_, ?_⟩
      · intro w j
        rw [h1 w j, mapGet_cons]
        constructor
        · rintro (hc | ⟨k, hk, rfl⟩)
          · by_cases he : w0 = w
            · rw [if_pos he] at hc
              right
              exact ⟨0, by simp [he], by simpa using hc.symm⟩
            · rw [if_neg he] at hc
              exact Or.inl hc
          · right
            exact ⟨k + 1, by simpa using hk, by rw [Nat.add_assoc, Nat.add_comm 1 k]⟩
        · rintro (hc | ⟨k, hk, rfl⟩)
          · left
            have : w0 ≠ w := by
              intro he; rw [he] at hm; rw [hm] at hc; exact absurd hc (by simp)
            rw [if_neg this]; exact hc
          · cases k with
            | zero =>
              left
              simp only [List.getElem?_cons_zero, Option.some.injEq] at hk
              simp [hk]
            | succ k =>
              right
              exact ⟨k, by simpa using hk, by rw [Nat.add_assoc, Nat.add_comm 1 k]⟩
      · rw [List.nodup_cons]
        exact ⟨fun hmem => (hfresh w0 hmem).1 rfl, h2⟩
      · intro w hw
        rcases List.mem_cons.1 hw with rfl | hw
        · exact hm
        · exact (hfresh w hw).2

theorem buildIdx_isSome : ∀ (ws : List Word) (i : Nat) (m : List (Word × Nat)),
    ws.Nodup → (∀ w ∈ ws, mapGet m w = none) → ∃ m', buildIdx ws i m = some m'
  | [], _, m, _, _ => ⟨m, rfl⟩
  | w0 :: ws, i, m, hnd, hfresh => by
    rw [buildIdx, hfresh w0 (by simp)]
    rw [List.nodup_cons] at hnd
    apply buildIdx_isSome ws (i + 1) _ hnd.2
    intro w hw
    rw [mapGet_cons, if_neg (by rintro rfl; exact hnd.1 hw)]
    exact hfresh w (by simp [hw])

theorem buildIdx_eq_none_iff (dict : List Word) :
    buildIdx dict 0 [] = none ↔ ¬ dict.Nodup := by
  constructor
  · intro h hnd
    obtain ⟨m', hm'⟩ := buildIdx_isSome dict 0 [] hnd (fun _ _ => rfl)
    rw [h] at hm'; exact absurd hm' (by simp)
  · intro h
    cases hb : buildIdx dict 0 [] with
    | none => rfl
    | some m' => exact absurd (buildIdx_some dict 0 [] m' hb).2.1 h

/-- The function `NewEncoding` panics exactly on a dictionary that is too short or has a
duplicate. -/
theorem NewEncoding_eq_none_iff (dict : List Word) :
    NewEncoding dict = none ↔ dict.length < 2 ∨ ¬ dict.Nodup := by
  rw [← buildIdx_eq_none_iff]
  unfold NewEncoding
  by_cases h2 : dict.length < 2
  · simp [h2]
  · cases hb : buildIdx dict 0 [] with
    | none => simp [h2]
    | some m' =>
      simp only [if_neg h2, reduceCtorEq, or_false, false_or, iff_false]
      constructor
      · intro hcon
        split at hcon <;> exact absurd hcon (by simp)
      · intro h; exact absurd h h2

/-- What `NewEncoding` returns. -/
theorem NewEncoding_valid (dict : List Word) (enc : Encoding Word)
    (hlen : dict.length < 2 ^ 63) (h : NewEncoding dict = some enc) :
    Valid enc ∧ enc.dict = dict := by
  unfold NewEncoding at h
  by_cases h2 : dict.length < 2
  · simp [h2] at h
  rw [if_neg h2] at h
  cases hb : buildIdx dict 0 [] with
  | none => simp [hb] at h
  | some idx =>
    simp only [hb] at h
    have h63 : (2:Nat) ^ 64 = 2 ^ 63 + 2 ^ 63 := by norm_num
    have hmod : dict.length % 2 ^ 64 = dict.length := Nat.mod_eq_of_lt (by omega)
    rw [hmod, sub64_eq _ 1 (by omega) (by omega)] at h
    obtain ⟨ha1, ha2, ha3⟩ := Len64_spec (dict.length - 1) (by omega) (by omega)
    obtain ⟨hb1, hb2, hb3⟩ := Len64_spec dict.length (by omega) (by omega)
    have hidx : ∀ w i, mapGet idx w = some i ↔ dict[i]? = some w := by
      intro w i
      rw [(buildIdx_some dict 0 [] idx hb).1 w i]
      simp only [mapGet, reduceCtorEq, false_or, Nat.zero_add]
      constructor
      · rintro ⟨k, hk, rfl⟩
        have hklt : k < dict.length := by
          rcases Nat.lt_or_ge k dict.length with hlt | hge
          · exact hlt
          · rw [List.getElem?_eq_none hge] at hk; exact absurd hk (by simp)
        rwa [Nat.mod_eq_of_lt (by omega)]
      · intro hk
        have hklt : i < dict.length := by
          rcases Nat.lt_or_ge i dict.length with hlt | hge
          · exact hlt
          · rw [List.getElem?_eq_none hge] at hk; exact absurd hk (by simp)
        exact ⟨i, hk, (Nat.mod_eq_of_lt (by omega)).symm⟩
    have hle : Len64 (dict.length - 1) ≤ Len64 dict.length := by
      by_contra hcon
      have : 2 ^ Len64 dict.length ≤ 2 ^ (Len64 (dict.length - 1) - 1) :=
        pow_le_of_le (by omega)
      omega
    have hL64 : Len64 dict.length ≤ 64 := by
      by_contra hcon
      have : (2:Nat) ^ 64 ≤ 2 ^ (Len64 dict.length - 1) := pow_le_of_le (by omega)
      omega
    split at h
    · rename_i heq
      simp only [Option.some.injEq] at h
      subst h
      have hge2 : 2 ≤ Len64 (dict.length - 1) := by
        by_contra hcon
        have h1 : Len64 (dict.length - 1) = 1 := by omega
        rw [h1] at ha2
        have hd : dict.length = 2 := by omega
        rw [← heq, h1, hd] at hb1 hb2
        simp at hb2
      have hsm : (Len64 (dict.length - 1) - 1) % 256 = Len64 (dict.length - 1) - 1 :=
        Nat.mod_eq_of_lt (by omega)
      refine ⟨⟨rfl, ?_, ?_, ?_, ?_, hidx⟩, rfl⟩
      · simp only [hsm]; omega
      · simp only [hsm]; omega
      · simpa using hlen
      · right
        refine ⟨rfl, ?_, ?_⟩
        · simp only [hsm]; omega
        · simp only [hsm]
          rw [Nat.sub_add_cancel (by omega), heq]
          exact hb2
    · rename_i hneq
      simp only [Option.some.injEq] at h
      subst h
      have hsm : Len64 (dict.length - 1) % 256 = Len64 (dict.length - 1) :=
        Nat.mod_eq_of_lt (by omega)
      have hpow : 2 ^ Len64 (dict.length - 1) ≤ 2 ^ (Len64 dict.length - 1) :=
        pow_le_of_le (by omega)
      refine ⟨⟨rfl, ?_, ?_, ?_, ?_, hidx⟩, rfl⟩
      · simp only [hsm]; omega
      · simp only [hsm]; omega
      · simpa using hlen
      · left
        refine ⟨rfl, ?_⟩
        simp only [hsm]; omega

theorem NewEncoding_isSome (dict : List Word) (h2 : 2 ≤ dict.length) (hnd : dict.Nodup) :
    ∃ enc, NewEncoding dict = some enc := by
  cases h : NewEncoding dict with
  | some enc => exact ⟨enc, rfl⟩
  | none =>
    rcases (NewEncoding_eq_none_iff dict).1 h with h' | h'
    · omega
    · exact absurd hnd h'

end Build
end Based

namespace Based

/-! ## Decoding engine: the inner loop -/

/-- The arithmetic of one round of the inner loop of `decode`. -/
theorem readBits_spec (pb rem : Nat) (hpb : pb < 8) (hrem : 0 < rem) (h256 : rem < 256) :
    0 < min rem (sub8 8 pb) ∧ min rem (sub8 8 pb) ≤ rem ∧ pb + min rem (sub8 8 pb) ≤ 8 ∧
    min rem (sub8 8 pb) = min rem (8 - pb) ∧
    sub8 rem (min rem (sub8 8 pb)) = rem - min rem (sub8 8 pb) ∧
    (pb + min rem (sub8 8 pb)) % 256 = pb + min rem (sub8 8 pb) := by
  have h8 : sub8 8 pb = 8 - pb := sub8_eq _ _ (by omega) (by omega)
  rw [h8]
  refine ⟨by omega, by omega, by omega, rfl, ?_, ?_⟩
  · exact sub8_eq _ _ (by omega) h256
  · exact Nat.mod_eq_of_lt (by omega)

/-- With a destination, the inner loop of `decode` writes the bytes of
`unpackWord` one after another. -/
theorem decodeWord_eq : ∀ (fuel index rem : Nat) (r : reader) (pre post : List (Fin 256)),
    r.partialBits < 8 → rem ≤ fuel → rem < 256 →
    (unpackWord fuel index rem r.partialByte r.partialBits).1.length ≤ post.length →
    decodeWord fuel index rem (decSt pre post r) =
      .ok (decSt (pre ++ (unpackWord fuel index rem r.partialByte r.partialBits).1)
        (post.drop (unpackWord fuel index rem r.partialByte r.partialBits).1.length)
        { offset := r.offset,
          partialByte := (unpackWord fuel index rem r.partialByte r.partialBits).2.1,
          partialBits := (unpackWord fuel index rem r.partialByte r.partialBits).2.2 })
  | 0, index, rem, r, pre, post, _, hf, _, _ => by
    have : rem = 0 := by omega
    subst this
    simp [decodeWord, unpackWord, decSt]
  | fuel + 1, index, rem, r, pre, post, hpb, hf, h256, hcap => by
    by_cases h0 : rem = 0
    · subst h0
      simp [decodeWord, unpackWord, decSt]
    obtain ⟨a1, a2, a3, _, a5, a6⟩ := readBits_spec r.partialBits rem hpb (by omega) h256
    rw [unpackWord] at hcap ⊢
    simp only [if_neg h0] at hcap ⊢
    rw [decodeWord]
    simp only [decSt, if_neg h0]
    by_cases h8 : (r.partialBits + min rem (sub8 8 r.partialBits)) % 256 = 8
    · simp only [if_pos h8] at hcap ⊢
      obtain ⟨c, post', rfl⟩ : ∃ c post', post = c :: post' := by
        cases post with
        | nil => simp at hcap
        | cons c post' => exact ⟨c, post', rfl⟩
      rw [if_pos (by simp), set_append_cons]
      have ih := decodeWord_eq fuel
        (index &&& sub64 ((1 <<< sub8 rem (min rem (sub8 8 r.partialBits))) % 2 ^ 64) 1)
        (sub8 rem (min rem (sub8 8 r.partialBits)))
        { offset := r.offset, partialByte := 0, partialBits := 0 }
        (pre ++ [Fin.ofNat (((r.partialByte <<< min rem (sub8 8 r.partialBits)) % 256) |||
          ((index >>> sub8 rem (min rem (sub8 8 r.partialBits))) % 256))]) post'
        (by simp) (by omega) (by omega) (by simpa using hcap)
      simp only [decSt, List.append_assoc, List.singleton_append, List.length_append,
        List.length_singleton] at ih
      rw [ih]
      simp [Nat.add_assoc, Nat.add_comm 1]
    · simp only [if_neg h8] at hcap ⊢
      have ih := decodeWord_eq fuel
        (index &&& sub64 ((1 <<< sub8 rem (min rem (sub8 8 r.partialBits))) % 2 ^ 64) 1)
        (sub8 rem (min rem (sub8 8 r.partialBits)))
        { offset := r.offset,
          partialByte := ((r.partialByte <<< min rem (sub8 8 r.partialBits)) % 256) |||
            ((index >>> sub8 rem (min rem (sub8 8 r.partialBits))) % 256),
          partialBits := (r.partialBits + min rem (sub8 8 r.partialBits)) % 256 }
        pre post (by simp only []; omega) (by omega) (by omega) hcap
      simp only [decSt] at ih
      rw [ih]

/-- The inner loop of `decode` completes a byte for every eight bits and
keeps the remainder. -/
theorem unpackWord_shape : ∀ (fuel index rem pbyte pb : Nat),
    pb < 8 → rem ≤ fuel → rem < 256 →
    (unpackWord fuel index rem pbyte pb).1.length = (pb + rem) / 8 ∧
    (unpackWord fuel index rem pbyte pb).2.2 = (pb + rem) % 8
  | 0, index, rem, pbyte, pb, hpb, hf, _ => by
    have : rem = 0 := by omega
    subst this
    simp only [unpackWord, List.length_nil, Nat.add_zero]
    omega
  | fuel + 1, index, rem, pbyte, pb, hpb, hf, h256 => by
    by_cases h0 : rem = 0
    · subst h0
      simp only [unpackWord, if_true, List.length_nil, Nat.add_zero]
      omega
    obtain ⟨a1, a2, a3, _, a5, a6⟩ := readBits_spec pb rem hpb (by omega) h256
    rw [unpackWord]
    simp only [if_neg h0]
    by_cases h8 : (pb + min rem (sub8 8 pb)) % 256 = 8
    · simp only [if_pos h8]
      have ih := unpackWord_shape fuel
        (index &&& sub64 ((1 <<< sub8 rem (min rem (sub8 8 pb))) % 2 ^ 64) 1)
        (sub8 rem (min rem (sub8 8 pb))) 0 0 (by omega) (by omega) (by omega)
      rw [List.length_cons, ih.1, ih.2]
      omega
    · simp only [if_neg h8]
      have ih := unpackWord_shape fuel
        (index &&& sub64 ((1 <<< sub8 rem (min rem (sub8 8 pb))) % 2 ^ 64) 1)
        (sub8 rem (min rem (sub8 8 pb)))
        (((pbyte <<< min rem (sub8 8 pb)) % 256) |||
            ((index >>> sub8 rem (min rem (sub8 8 pb))) % 256))
        ((pb + min rem (sub8 8 pb)) % 256) (by omega) (by omega) (by omega)
      rw [ih.1, ih.2]
      omega

end Based

namespace Based

/-- Moving the top `rb` bits of the value `V` behind the pending bits `Q`:
the shift-and-or of `decode`. -/
theorem move_byte (Q V : List Bool) (rb : Nat) (hrb : rb ≤ V.length) (hV : V.length < 256)
    (hQ : Q.length + rb ≤ 8) :
    ((valOf Q <<< rb) % 256) ||| ((valOf V >>> sub8 V.length rb) % 256) =
      valOf (Q ++ V.take rb) := by
  rw [sub8_eq _ _ hrb hV, Nat.shiftRight_eq_div_pow, ← valOf_take, Nat.shiftLeft_eq,
    valOf_append]
  have hT : (V.take rb).length = rb := by simp [hrb]
  have h1 := valOf_lt (V.take rb)
  have h2 := valOf_lt Q
  rw [hT] at h1 ⊢
  have h3 : valOf Q * 2 ^ rb < 2 ^ 8 := by
    calc valOf Q * 2 ^ rb < 2 ^ Q.length * 2 ^ rb :=
          Nat.mul_lt_mul_of_pos_right h2 (Nat.two_pow_pos _)
      _ = 2 ^ (Q.length + rb) := (pow_add _ _ _).symm
      _ ≤ 2 ^ 8 := pow_le_of_le hQ
  have h4 : valOf (V.take rb) < 2 ^ 8 := lt_of_lt_of_le h1 (pow_le_of_le (by omega))
  rw [Nat.mod_eq_of_lt (by simpa using h3), Nat.mod_eq_of_lt (by simpa using h4),
    Nat.mul_comm, Nat.mul_add_lt_is_or h1]

/-- Removing the bits that have been read: the mask of `decode`. -/
theorem move_value (V : List Bool) (rb : Nat) (hrb : rb ≤ V.length) (hV : V.length < 64) :
    valOf V &&& sub64 ((1 <<< sub8 V.length rb) % 2 ^ 64) 1 = valOf (V.drop rb) := by
  rw [sub8_eq _ _ hrb (by omega), Nat.shiftLeft_eq, Nat.one_mul, valOf_drop]
  have h1 : 2 ^ (V.length - rb) < 2 ^ 64 := pow_lt_of_lt (by omega)
  have h2 : 0 < 2 ^ (V.length - rb) := Nat.two_pow_pos _
  rw [Nat.mod_eq_of_lt h1, sub64_eq _ _ (by omega) h1, Nat.and_pow_two_sub_one_eq_mod]

/-- On a value of `V.length` bits, the inner loop of `decode` completes the
groups of eight bits of the pending bits followed by `V`. -/
theorem unpackWord_bits : ∀ (fuel : Nat) (Q V : List Bool),
    Q.length < 8 → V.length ≤ fuel → V.length < 64 →
    unpackWord fuel (valOf V) V.length (valOf Q) Q.length =
      ((groups 8 (Q ++ V)).map toByte, valOf (rest 8 (Q ++ V)), (rest 8 (Q ++ V)).length)
  | 0, Q, V, hQ, hf, _ => by
    have : V = [] := List.length_eq_zero.1 (by omega)
    subst this
    simp [unpackWord, groups_short 8 Q hQ, rest_short 8 Q hQ]
  | fuel + 1, Q, V, hQ, hf, hV => by
    by_cases hnil : V = []
    · subst hnil
      simp [unpackWord, groups_short 8 Q hQ, rest_short 8 Q hQ]
    have hVpos : 0 < V.length := List.length_pos.2 hnil
    obtain ⟨a1, a2, a3, a4, a5, a6⟩ := readBits_spec Q.length V.length hQ hVpos (by omega)
    have hmb := move_byte Q V _ a2 (by omega) a3
    have hmv := move_value V _ a2 hV
    rw [a5] at hmb hmv
    have hsplit : Q ++ V = (Q ++ V.take (min V.length (sub8 8 Q.length))) ++
        V.drop (min V.length (sub8 8 Q.length)) := by
      rw [List.append_assoc, List.take_append_drop]
    have hlenT : (V.take (min V.length (sub8 8 Q.length))).length =
        min V.length (sub8 8 Q.length) := by simp
    have hlenD : (V.drop (min V.length (sub8 8 Q.length))).length =
        V.length - min V.length (sub8 8 Q.length) := by simp
    rw [unpackWord]
    simp only [if_neg (by omega : ¬ V.length = 0), hmb, hmv, a5, a6]
    by_cases h8 : Q.length + min V.length (sub8 8 Q.length) = 8
    · simp only [if_pos h8]
      have hg : (Q ++ V.take (min V.length (sub8 8 Q.length))).length = 8 := by
        rw [List.length_append, hlenT]; exact h8
      have ih := unpackWord_bits fuel [] (V.drop (min V.length (sub8 8 Q.length)))
        (by simp) (by omega) (by omega)
      simp only [valOf, List.length_nil, List.nil_append, hlenD] at ih
      rw [ih, hsplit, groups_append 8 (by norm_num) _ _ hg, rest_append 8 (by norm_num) _ _ hg]
      simp [toByte]
    · simp only [if_neg h8]
      have hall : min V.length (sub8 8 Q.length) = V.length := by omega
      have ih := unpackWord_bits fuel (Q ++ V.take (min V.length (sub8 8 Q.length)))
        (V.drop (min V.length (sub8 8 Q.length)))
        (by rw [List.length_append, hlenT]; omega) (by omega) (by omega)
      simp only [List.length_append, hlenT, hlenD] at ih
      rw [ih, ← hsplit]

section DecodeLoop
variable {Word : Type} [DecidableEq Word] {enc : Encoding Word}

/-- With a destination, the loop of `decode` writes the bytes of `unpack` one
after another. -/
theorem decodeLoop_eq (hs : enc.stepBits < 256) :
    ∀ (src : List Word) (i : Nat) (r : reader) (pre post : List (Fin 256)),
      r.partialBits < 8 → (unpack enc src i r).1.length ≤ post.length →
      decodeLoop enc src i (decSt pre post r) =
        .ok (decSt (pre ++ (unpack enc src i r).1) (post.drop (unpack enc src i r).1.length)
              (unpack enc src i r).2.1, (unpack enc src i r).2.2)
  | [], i, r, pre, post, _, _ => by
    simp [decodeLoop, unpack]
  | w :: src, i, r, pre, post, hpb, hcap => by
    rw [unpack] at hcap ⊢
    rw [decodeLoop]
    cases hm : mapGet enc.idx w with
    | none => simp [hm]
    | some index =>
      simp only [hm, List.length_append] at hcap ⊢
      have hw := decodeWord_eq (enc.stepBits + 1)
        (if r.offset ≤ index then sub64 index r.offset
          else sub64 enc.size (sub64 r.offset index))
        enc.stepBits r pre post hpb (by omega) hs (by omega)
      simp only [decSt, List.length_append] at hw ⊢
      rw [hw]
      have hsh := unpackWord_shape (enc.stepBits + 1)
        (if r.offset ≤ index then sub64 index r.offset
          else sub64 enc.size (sub64 r.offset index))
        enc.stepBits r.partialByte r.partialBits hpb (by omega) hs
      have ih := decodeLoop_eq hs src (i + 1)
        { offset := index &&& enc.offsetToggle,
          partialByte := (unpackWord (enc.stepBits + 1)
            (if r.offset ≤ index then sub64 index r.offset
              else sub64 enc.size (sub64 r.offset index))
            enc.stepBits r.partialByte r.partialBits).2.1,
          partialBits := (unpackWord (enc.stepBits + 1)
            (if r.offset ≤ index then sub64 index r.offset
              else sub64 enc.size (sub64 r.offset index))
            enc.stepBits r.partialByte r.partialBits).2.2 }
        (pre ++ (unpackWord (enc.stepBits + 1)
            (if r.offset ≤ index then sub64 index r.offset
              else sub64 enc.size (sub64 r.offset index))
            enc.stepBits r.partialByte r.partialBits).1)
        (post.drop (unpackWord (enc.stepBits + 1)
            (if r.offset ≤ index then sub64 index r.offset
              else sub64 enc.size (sub64 r.offset index))
            enc.stepBits r.partialByte r.partialBits).1.length)
        (by simp only []; rw [hsh.2]; omega)
        (by rw [List.length_drop]; omega)
      simp only [decSt, List.length_append] at ih
      simp only []
      rw [ih]
      simp [Nat.add_assoc, List.drop_drop, Nat.add_comm]

end DecodeLoop
end Based

namespace Based

section Unpack
variable {Word : Type} [DecidableEq Word] {enc : Encoding Word}

theorem mapGet_of_mem (hv : Valid enc) (w : Word) (hw : w ∈ enc.dict) :
    ∃ k, mapGet enc.idx w = some k ∧ k < enc.size := by
  obtain ⟨k, hk, hkw⟩ := List.mem_iff_getElem.1 hw
  refine ⟨k, (hv.idx_get w k).2 ?_, by rw [hv.size_eq]; exact hk⟩
  rw [List.getElem?_eq_getElem hk, hkw]

theorem mapGet_none_of_not_mem (hv : Valid enc) (w : Word) (hw : w ∉ enc.dict) :
    mapGet enc.idx w = none := by
  cases h : mapGet enc.idx w with
  | none => rfl
  | some k =>
    have := (hv.idx_get w k).1 h
    exact absurd (List.mem_iff_getElem?.2 ⟨k, this⟩) hw

/-- On words of the dictionary the loop of `decode` returns no error,
completes a byte for every eight bits and keeps the remainder. -/
theorem unpack_known (hv : Valid enc) : ∀ (src : List Word) (i : Nat) (r : reader),
    r.partialBits < 8 → (∀ w ∈ src, w ∈ enc.dict) →
    (unpack enc src i r).2.2 = none ∧
    (unpack enc src i r).1.length = (r.partialBits + src.length * enc.stepBits) / 8 ∧
    (unpack enc src i r).2.1.partialBits = (r.partialBits + src.length * enc.stepBits) % 8
  | [], i, r, hpb, _ => by
    simp only [unpack, List.length_nil, Nat.zero_mul, Nat.add_zero, true_and]
    omega
  | w :: src, i, r, hpb, hmem => by
    obtain ⟨k, hk, _⟩ := mapGet_of_mem hv w (hmem w (by simp))
    have hs := hv.step_lt
    rw [unpack]
    simp only [hk]
    have hsh := unpackWord_shape (enc.stepBits + 1)
      (if r.offset ≤ k then sub64 k r.offset else sub64 enc.size (sub64 r.offset k))
      enc.stepBits r.partialByte r.partialBits hpb (by omega) (by omega)
    have ih := unpack_known hv src (i + 1)
      { offset := k &&& enc.offsetToggle,
        partialByte := (unpackWord (enc.stepBits + 1)
          (if r.offset ≤ k then sub64 k r.offset else sub64 enc.size (sub64 r.offset k))
          enc.stepBits r.partialByte r.partialBits).2.1,
        partialBits := (unpackWord (enc.stepBits + 1)
          (if r.offset ≤ k then sub64 k r.offset else sub64 enc.size (sub64 r.offset k))
          enc.stepBits r.partialByte r.partialBits).2.2 }
      (by simp only []; rw [hsh.2]; omega) (fun w' hw' => hmem w' (by simp [hw']))
    refine ⟨ih.1, ?_, ?_⟩
    · rw [List.length_append, hsh.1, ih.2.1]
      simp only []
      rw [hsh.2, List.length_cons, Nat.add_mul, Nat.one_mul]
      omega
    · rw [ih.2.2]
      simp only []
      rw [hsh.2, List.length_cons, Nat.add_mul, Nat.one_mul]
      omega

/-- Decoding `a ++ b` is decoding `a` and then, unless that failed, `b` with
the cells `a` left. -/
theorem unpack_append : ∀ (a b : List Word) (i : Nat) (r : reader),
    unpack enc (a ++ b) i r =
      match (unpack enc a i r).2.2 with
      | none => ((unpack enc a i r).1 ++ (unpack enc b (i + a.length) (unpack enc a i r).2.1).1,
                 (unpack enc b (i + a.length) (unpack enc a i r).2.1).2)
      | some _ => unpack enc a i r
  | [], b, i, r => by simp [unpack]
  | w :: a, b, i, r => by
    rw [List.cons_append, unpack, unpack]
    cases hm : mapGet enc.idx w with
    | none => simp
    | some k =>
      simp only []
      rw [unpack_append a b (i + 1)]
      generalize unpackWord (enc.stepBits + 1) _ enc.stepBits r.partialByte r.partialBits = u
      generalize unpack enc a (i + 1) _ = ta
      rcases ta with ⟨out, r', _ | err⟩ <;> simp [Nat.add_assoc, Nat.add_comm 1]

/-- The offset subtraction of `decode` undoes the offset addition of `add`. -/
theorem value_emitPos (hv : Valid enc) (v o : Nat) (hvv : v < 2 ^ enc.stepBits)
    (ho : o < enc.size) :
    (if o ≤ emitPos enc v o then sub64 (emitPos enc v o) o
      else sub64 enc.size (sub64 o (emitPos enc v o))) = v := by
  have hpow := hv.pow_le
  have hsz := hv.size_lt
  have h64 : (2:Nat) ^ 64 = 2 ^ 63 + 2 ^ 63 := by norm_num
  unfold emitPos
  by_cases hc : enc.size ≤ v + o
  · have h1 : sub64 o (v + o - enc.size) = o - (v + o - enc.size) :=
      sub64_eq _ _ (by omega) (by omega)
    rw [if_pos hc, if_neg (by omega), h1, sub64_eq _ _ (by omega) (by omega)]
    omega
  · rw [if_neg hc, if_pos (by omega), sub64_eq _ _ (by omega) (by omega)]
    omega

theorem mapGet_symAt [Inhabited Word] (hv : Valid enc) (e : Nat) (he : e < enc.size) :
    mapGet enc.idx (symAt enc e) = some e :=
  (hv.idx_get _ e).2 (getElem?_symAt hv e he)

/-- Decoding the words of a carry chain recovers the bits of its values. -/
theorem unpack_chain [Inhabited Word] (hv : Valid enc) :
    ∀ (vs : List Nat) (o : Nat) (Q : List Bool) (i : Nat),
      (∀ v ∈ vs, v < 2 ^ enc.stepBits) → o < enc.size → Q.length < 8 →
      unpack enc ((chainPos enc o vs).map (symAt enc)) i
          { offset := o, partialByte := valOf Q, partialBits := Q.length } =
        ((groups 8 (Q ++ vs.flatMap (bitsOf enc.stepBits))).map toByte,
          { offset := chainOff enc o vs,
            partialByte := valOf (rest 8 (Q ++ vs.flatMap (bitsOf enc.stepBits))),
            partialBits := (rest 8 (Q ++ vs.flatMap (bitsOf enc.stepBits))).length },
          none)
  | [], o, Q, i, _, _, hQ => by
    simp [chainPos, chainOff, unpack, groups_short 8 Q hQ, rest_short 8 Q hQ]
  | v :: vs, o, Q, i, hvs, ho, hQ => by
    have hs := hv.step_lt
    have hvv := hvs v (by simp)
    have he := emitPos_lt hv v o hvv ho
    have hbits := unpackWord_bits (enc.stepBits + 1) Q (bitsOf enc.stepBits v) hQ
      (by simp) (by simp; omega)
    rw [valOf_bitsOf, Nat.mod_eq_of_lt hvv, length_bitsOf] at hbits
    have hsplit := groups_rest_append 8 (by norm_num) (Q ++ bitsOf enc.stepBits v)
      (vs.flatMap (bitsOf enc.stepBits))
    rw [List.append_assoc] at hsplit
    have ih := unpack_chain hv vs (emitPos enc v o &&& enc.offsetToggle)
      (rest 8 (Q ++ bitsOf enc.stepBits v)) (i + 1)
      (fun v' hv' => hvs v' (by simp [hv'])) (and_toggle_lt hv _ he)
      (by rw [length_rest]; exact Nat.mod_lt _ (by norm_num))
    simp only [chainPos, chainOff, List.map_cons, List.flatMap_cons]
    rw [unpack]
    simp only [mapGet_symAt hv _ he, value_emitPos hv v o hvv ho, hbits, ih, hsplit.1,
      ← hsplit.2, List.map_append]

end Unpack
end Based

namespace Based

/-! ## One-shot decoding and the round trip -/

section DecodeTop
variable {Word : Type} [DecidableEq Word] {enc : Encoding Word}

/-- The result of `Decode` on a destination with enough room. -/
theorem Decode_eq (hs : enc.stepBits < 256) (dst : List (Fin 256)) (src : List Word)
    (hcap : (unpack enc src 0 NewReader).1.length ≤ dst.length) :
    Decode enc dst src =
      .ok ((unpack enc src 0 NewReader).1 ++ dst.drop (unpack enc src 0 NewReader).1.length,
           (unpack enc src 0 NewReader).1.length, finalErr (unpack enc src 0 NewReader)) := by
  have h := decodeLoop_eq hs src 0 NewReader [] dst (by simp [NewReader]) hcap
  have hd : decode enc dst src 0 0 0 = decodeLoop enc src 0 (decSt [] dst NewReader) := rfl
  rw [Decode, hd, h]
  generalize unpack enc src 0 NewReader = u
  rcases u with ⟨out, r, _ | err⟩
  · simp only [decSt, finalErr, reader.Close, List.nil_append, List.length_nil, Nat.zero_add]
    split <;> rfl
  · simp [decSt, finalErr]

end DecodeTop

theorem groups_replicate {α : Type} (s : Nat) (hs : 0 < s) (a : α) (q r : Nat) (hr : r < s) :
    groups s (List.replicate (s * q + r) a) = List.replicate q (List.replicate s a) ∧
    rest s (List.replicate (s * q + r) a) = List.replicate r a := by
  induction q with
  | zero =>
    simp only [Nat.mul_zero, Nat.zero_add, List.replicate_zero]
    exact ⟨groups_short s _ (by simpa using hr), rest_short s _ (by simpa using hr)⟩
  | succ q ih =>
    have : s * (q + 1) + r = s + (s * q + r) := by rw [Nat.mul_succ]; omega
    rw [this, List.replicate_add, groups_append s hs _ _ (by simp),
      rest_append s hs _ _ (by simp), ih.1, ih.2, List.replicate_succ]
    exact ⟨rfl, rfl⟩

theorem groups_bitString_pad (x : List (Fin 256)) (m : Nat) :
    groups 8 (bitString x ++ List.replicate m false) =
        x.map (fun b => bitsOf 8 b.val) ++
          List.replicate (m / 8) (List.replicate 8 false) ∧
    rest 8 (bitString x ++ List.replicate m false) = List.replicate (m % 8) false := by
  induction x with
  | nil =>
    have := groups_replicate 8 (by norm_num) false (m / 8) (m % 8) (Nat.mod_lt _ (by norm_num))
    rw [Nat.div_add_mod] at this
    simpa [bitString] using this
  | cons b x ih =>
    rw [bitString_cons, List.append_assoc, groups_append 8 (by norm_num) _ _ (by simp),
      rest_append 8 (by norm_num) _ _ (by simp), ih.1, ih.2]
    simp

theorem toByte_bits8 (b : Fin 256) : toByte (bitsOf 8 b.val) = b := by
  rw [toByte, valOf_bits8]
  apply Fin.ext
  simp [Fin.ofNat]

theorem toByte_zeros (k : Nat) : toByte (List.replicate k false) = 0 := by
  rw [toByte, valOf_replicate_false]
  rfl

theorem flatMap_bitsOf_valOf (s : Nat) (G : List (List Bool)) (hG : ∀ g ∈ G, g.length = s) :
    (G.map valOf).flatMap (bitsOf s) = G.flatten := by
  induction G with
  | nil => rfl
  | cons g G ih =>
    have hg := hG g (by simp)
    rw [List.map_cons, List.flatMap_cons, List.flatten_cons,
      ih (fun g' hg' => hG g' (by simp [hg']))]
    congr 1
    rw [← hg, bitsOf_valOf]

theorem length_padBits_mod (s : Nat) (hs : 0 < s) (X : List Bool) :
    (padBits s X).length % s = 0 := by
  simp only [padBits, List.length_append, List.length_replicate]
  have h := Nat.mod_lt X.length hs
  by_cases h0 : X.length % s = 0
  · rw [h0, Nat.sub_zero, Nat.mod_self, Nat.add_zero, h0]
  · rw [Nat.mod_eq_of_lt (by omega : s - X.length % s < s)]
    have := Nat.div_add_mod X.length s
    have e : X.length + (s - X.length % s) = s * (X.length / s + 1) := by
      rw [Nat.mul_succ]; omega
    rw [e, Nat.mul_mod_right]

theorem flatten_groups_padBits (s : Nat) (hs : 0 < s) (X : List Bool) :
    (groups s (padBits s X)).flatten = padBits s X := by
  have h1 := flatten_groups s hs (padBits s X)
  have h2 : rest s (padBits s X) = [] :=
    List.length_eq_zero.1 (by rw [length_rest, length_padBits_mod s hs])
  rwa [h2, List.append_nil] at h1

theorem length_bitString (x : List (Fin 256)) : (bitString x).length = x.length * 8 := by
  induction x with
  | nil => rfl
  | cons b x ih => rw [bitString_cons, List.length_append, ih]; simp; omega

section RoundTrip
variable {Word : Type} [DecidableEq Word] [Inhabited Word] {enc : Encoding Word}

/-- Decoding the encoding of `x` gives `x`, followed by a zero byte for every
eight padding bits, and leaves zero bits in the accumulator. -/
theorem unpack_encodeSpec (hv : Valid enc) (x : List (Fin 256)) :
    (unpack enc (encodeSpec enc x) 0 NewReader).1 =
        x ++ List.replicate (extraBytes enc.stepBits x.length) 0 ∧
    (unpack enc (encodeSpec enc x) 0 NewReader).2.1.partialByte = 0 ∧
    (unpack enc (encodeSpec enc x) 0 NewReader).2.2 = none := by
  have hs0 := hv.step_pos
  have hsize : 0 < enc.size := lt_of_lt_of_le (Nat.two_pow_pos _) hv.pow_le
  have hch := unpack_chain hv
    ((groups enc.stepBits (padBits enc.stepBits (bitString x))).map valOf) 0 [] 0
    (groups_val_lt _ _) hsize (by simp)
  rw [flatMap_bitsOf_valOf enc.stepBits _ (fun g hg => mem_groups_length _ _ g hg),
    flatten_groups_padBits _ hs0, List.nil_append] at hch
  have hpad := groups_bitString_pad x ((enc.stepBits - (bitString x).length % enc.stepBits)
    % enc.stepBits)
  have hu : unpack enc (encodeSpec enc x) 0 NewReader =
      unpack enc ((chainPos enc 0
        ((groups enc.stepBits (padBits enc.stepBits (bitString x))).map valOf)).map (symAt enc))
        0 { offset := 0, partialByte := valOf [], partialBits := ([] : List Bool).length } := rfl
  rw [length_bitString] at hpad
  have hmap : List.map (toByte ∘ fun b : Fin 256 => bitsOf 8 b.val) x = x := by
    conv_rhs => rw [← List.map_id x]
    apply List.map_congr_left
    intro b _
    simp [toByte_bits8]
  rw [hu, hch]
  simp only [padBits, length_bitString, hpad.1, hpad.2, valOf_replicate_false, List.map_append,
    List.map_map, List.map_replicate, toByte_zeros, extraBytes, and_true, hmap]

end RoundTrip
end Based

namespace Based

/-! ## Streaming writer -/

section Writer
variable {Word : Type} [DecidableEq Word] [Inhabited Word] {enc : Encoding Word}

theorem bitString_append (a b : List (Fin 256)) :
    bitString (a ++ b) = bitString a ++ bitString b := by
  simp [bitString]

/-- The last word of an encoding: the pending bits, padded. -/
theorem emitted_padBits (hv : Valid enc) (X : List Bool) :
    emitted enc 0 (groups enc.stepBits (padBits enc.stepBits X)) =
      emitted enc 0 (groups enc.stepBits X) ++
        (if (rest enc.stepBits X).length = 0 then []
         else [symAt enc (emitPos enc
            (valOf (rest enc.stepBits X ++
              List.replicate (enc.stepBits - (rest enc.stepBits X).length) false))
            (chainOff enc 0 ((groups enc.stepBits X).map valOf)))]) := by
  rw [groups_padBits _ hv.step_pos, emitted_append]
  split <;> simp [emitted, chainPos]

omit [Inhabited Word] in
theorem encodedLen_ge (hv : Valid enc) (n a : Nat) :
    (n * 8 + a) / enc.stepBits ≤ encodedLen enc n a ∧
    (0 < n → 0 < encodedLen enc n a) := by
  have hs0 := hv.step_pos
  unfold encodedLen
  simp only []
  split
  · rename_i h
    refine ⟨le_refl _, fun hn => ?_⟩
    have := Nat.div_add_mod (n * 8 + a) enc.stepBits
    rw [h, Nat.add_zero] at this
    rcases Nat.eq_zero_or_pos ((n * 8 + a) / enc.stepBits) with h0 | h0
    · rw [h0, Nat.mul_zero] at this; omega
    · exact h0
  · exact ⟨Nat.le_succ _, fun _ => Nat.succ_pos _⟩

omit [DecidableEq Word] in
theorem growCells_length (buf : Option (List Word)) (n : Nat) (hn : 0 < n) :
    ∃ cells, growCells buf n = some cells ∧ n ≤ cells.length := by
  cases buf with
  | none => exact ⟨List.replicate n default, by simp [growCells, Nat.ne_of_gt hn], by simp⟩
  | some cells =>
    by_cases h : n ≤ cells.length
    · exact ⟨cells, by simp [growCells, h], h⟩
    · exact ⟨cells ++ List.replicate n default, by simp [growCells, h], by simp⟩

/-- One `Write` extends the written bit string by the bits of the chunk. -/
theorem Write_ok (hv : Valid enc) (w : writer Word) (X : List Bool) (p : List (Fin 256))
    (hinv : WInv enc w X) :
    ∃ w', writer.Write enc w p = .ok w' ∧ WInv enc w' (X ++ bitString p) := by
  have hs0 := hv.step_pos
  by_cases hp : p.length = 0
  · have : p = [] := List.length_eq_zero.1 hp
    subst this
    exact ⟨w, by simp [writer.Write], by simpa [bitString] using hinv⟩
  have hsize : 0 < enc.size := lt_of_lt_of_le (Nat.two_pow_pos _) hv.pow_le
  obtain ⟨hn1, hn2⟩ := encodedLen_ge hv p.length w.availBits
  obtain ⟨cells, hcells, hclen⟩ := growCells_length w.buf _ (hn2 (by omega))
  have hsplit := groups_rest_append enc.stepBits hs0 X (bitString p)
  have hQ : (rest enc.stepBits X).length < enc.stepBits := by
    rw [length_rest]; exact Nat.mod_lt _ hs0
  have hgl : (groups enc.stepBits (rest enc.stepBits X ++ bitString p)).length ≤
      (cells.take (encodedLen enc p.length w.availBits)).length := by
    rw [length_groups, List.length_append, length_bitString, List.length_take,
      Nat.min_eq_left hclen, hinv.avail_eq] at *
    rw [Nat.add_comm]; exact hn1
  have hloop := encodeLoop_ok hv p (rest enc.stepBits X)
    (chainOff enc 0 ((groups enc.stepBits X).map valOf)) []
    (cells.take (encodedLen enc p.length w.availBits)) hQ
    (chainOff_lt hv _ 0 hsize (groups_val_lt _ _)) hgl
  have henc : encode enc (cells.take (encodedLen enc p.length w.availBits)) p w.index w.offset
      w.availBits = encodeLoop enc p (encSt [] (cells.take (encodedLen enc p.length w.availBits))
        (rest enc.stepBits X) (chainOff enc 0 ((groups enc.stepBits X).map valOf))) := by
    rw [encode, encSt, hinv.index_eq, hinv.avail_eq, hinv.offset_eq]
    rfl
  have hW : writer.Write enc w p = .ok
      { buf := some ((encAfter enc [] (cells.take (encodedLen enc p.length w.availBits))
            (rest enc.stepBits X) (chainOff enc 0 ((groups enc.stepBits X).map valOf))
            (bitString p)).dst ++ cells.drop (encodedLen enc p.length w.availBits)),
        index := (encAfter enc [] (cells.take (encodedLen enc p.length w.availBits))
            (rest enc.stepBits X) (chainOff enc 0 ((groups enc.stepBits X).map valOf))
            (bitString p)).index,
        offset := (encAfter enc [] (cells.take (encodedLen enc p.length w.availBits))
            (rest enc.stepBits X) (chainOff enc 0 ((groups enc.stepBits X).map valOf))
            (bitString p)).offset,
        availBits := (encAfter enc [] (cells.take (encodedLen enc p.length w.availBits))
            (rest enc.stepBits X) (chainOff enc 0 ((groups enc.stepBits X).map valOf))
            (bitString p)).availBits,
        sink := w.sink ++ (encAfter enc [] (cells.take (encodedLen enc p.length w.availBits))
            (rest enc.stepBits X) (chainOff enc 0 ((groups enc.stepBits X).map valOf))
            (bitString p)).dst.take (encAfter enc []
              (cells.take (encodedLen enc p.length w.availBits))
            (rest enc.stepBits X) (chainOff enc 0 ((groups enc.stepBits X).map valOf))
            (bitString p)).n } := by
    rw [writer.Write, if_neg hp]
    simp only [hcells, Option.getD_some, henc, hloop, Option.map_some']
  refine ⟨_, hW, ?_⟩
  · have hlenpos : 0 < (cells.take (encodedLen enc p.length w.availBits)).length := by
      rw [List.length_take, Nat.min_eq_left hclen]; exact hn2 (by omega)
    constructor
    · simp [encAfter, encSt, hsplit.2]
    · simp [encAfter, encSt, hsplit.2]
    · simp [encAfter, encSt, hsplit.1, chainOff_append]
    · simp only [encAfter, encSt, List.nil_append, hinv.sink_eq, hsplit.1, emitted_append]
      congr 1
      rw [List.take_left']
      rfl
    · intro _
      simp only [encAfter, encSt, List.nil_append]
      cases hd : emitted enc (chainOff enc 0 ((groups enc.stepBits X).map valOf))
          (groups enc.stepBits (rest enc.stepBits X ++ bitString p)) ++
          List.drop (groups enc.stepBits (rest enc.stepBits X ++ bitString p)).length
            (cells.take (encodedLen enc p.length w.availBits)) ++
          List.drop (encodedLen enc p.length w.availBits) cells with
      | nil =>
        have := congrArg List.length hd
        simp only [List.length_append, length_emitted, List.length_drop, List.length_nil] at this
        omega
      | cons c cs => exact ⟨c, cs, rfl⟩

theorem writeChunks_ok (hv : Valid enc) :
    ∀ (ps : List (List (Fin 256))) (w : writer Word) (X : List Bool), WInv enc w X →
      ∃ w', writeChunks enc w ps = .ok w' ∧ WInv enc w' (X ++ bitString ps.flatten)
  | [], w, X, hinv => ⟨w, rfl, by simpa [bitString] using hinv⟩
  | p :: ps, w, X, hinv => by
    obtain ⟨w1, h1, hinv1⟩ := Write_ok hv w X p hinv
    obtain ⟨w2, h2, hinv2⟩ := writeChunks_ok hv ps w1 _ hinv1
    refine ⟨w2, by rw [writeChunks, h1]; exact h2, ?_⟩
    rwa [List.flatten_cons, bitString_append, ← List.append_assoc]

omit [DecidableEq Word] in
theorem WInv_new : WInv enc (NewWriter : writer Word) [] := by
  have hg : groups enc.stepBits ([] : List Bool) = [] := by simp [groups, chunks]
  have hr : rest enc.stepBits ([] : List Bool) = [] := by simp [rest]
  constructor <;> simp [NewWriter, hg, hr, valOf, chainOff, emitted, chainPos]

/-- The call `Close` flushes the pending bits: the sink then holds the encoding of all
that was written. -/
theorem Close_ok (hv : Valid enc) (w : writer Word) (x : List (Fin 256))
    (hinv : WInv enc w (bitString x)) :
    ∃ w', writer.Close enc w = .ok w' ∧ w'.sink = encodeSpec enc x := by
  have hs0 := hv.step_pos
  have hsize : 0 < enc.size := lt_of_lt_of_le (Nat.two_pow_pos _) hv.pow_le
  have hspec := emitted_padBits hv (bitString x)
  by_cases h0 : (rest enc.stepBits (bitString x)).length = 0
  · rw [if_pos h0, List.append_nil] at hspec
    refine ⟨w, ?_, by rw [hinv.sink_eq, encodeSpec, hspec]⟩
    rw [writer.Close]
    cases w.buf with
    | none => rfl
    | some cells => simp [hinv.avail_eq, h0]
  · rw [if_neg h0] at hspec
    obtain ⟨c, cs, hbuf⟩ := hinv.buf_ok (by omega)
    have hQ : (rest enc.stepBits (bitString x)).length < enc.stepBits := by
      rw [length_rest]; exact Nat.mod_lt _ hs0
    have hadd := add_ok hv (rest enc.stepBits (bitString x)) (le_of_lt hQ)
      (chainOff enc 0 ((groups enc.stepBits (bitString x)).map valOf))
      (chainOff_lt hv _ 0 hsize (groups_val_lt _ _)) [] c []
    simp only [List.nil_append, List.length_nil] at hadd
    simp only [writer.Close, hbuf, hinv.avail_eq, hinv.index_eq, hinv.offset_eq,
      if_pos (by omega : 0 < (rest enc.stepBits (bitString x)).length),
      List.take_succ_cons, List.take_zero, hadd]
    refine ⟨_, rfl, ?_⟩
    simp only [hinv.sink_eq, encodeSpec, hspec]

end Writer
end Based

namespace Based

/-! ## Decoding words of the dictionary -/

section Known
variable {Word : Type} [DecidableEq Word] {enc : Encoding Word}

/-- The result of `Decode` on words of the dictionary. -/
theorem Decode_known (hv : Valid enc) (dst : List (Fin 256)) (src : List Word)
    (hmem : ∀ w ∈ src, w ∈ enc.dict) (hcap : DecodedLen enc src.length ≤ dst.length) :
    (unpack enc src 0 NewReader).1.length = DecodedLen enc src.length ∧
    (unpack enc src 0 NewReader).2.1.partialBits = (src.length * enc.stepBits) % 8 ∧
    (unpack enc src 0 NewReader).2.2 = none ∧
    Decode enc dst src =
      .ok ((unpack enc src 0 NewReader).1 ++ dst.drop (DecodedLen enc src.length),
           DecodedLen enc src.length, reader.Close (unpack enc src 0 NewReader).2.1) := by
  have hs := hv.step_lt
  obtain ⟨h1, h2, h3⟩ := unpack_known hv src 0 NewReader (by simp [NewReader]) hmem
  simp only [NewReader, Nat.zero_add] at h2 h3
  have hl : (unpack enc src 0 NewReader).1.length = DecodedLen enc src.length := by
    rw [DecodedLen]; exact h2
  refine ⟨hl, h3, h1, ?_⟩
  rw [Decode_eq (by omega) dst src (by rw [hl]; exact hcap), hl, finalErr, h1]

/-- The bytes and the cells that the loop of `decode` produces do not depend
on the index that it counts for its error message. -/
theorem unpack_index : ∀ (src : List Word) (i j : Nat) (r : reader),
    (unpack enc src i r).1 = (unpack enc src j r).1 ∧
    (unpack enc src i r).2.1 = (unpack enc src j r).2.1 ∧
    ((unpack enc src i r).2.2 = none ↔ (unpack enc src j r).2.2 = none)
  | [], i, j, r => by simp [unpack]
  | w :: src, i, j, r => by
    rw [unpack, unpack]
    cases hm : mapGet enc.idx w with
    | none => simp
    | some k =>
      simp only []
      generalize unpackWord (enc.stepBits + 1) _ enc.stepBits r.partialByte r.partialBits = u
      have ih := unpack_index src (i + 1) (j + 1)
        { offset := k &&& enc.offsetToggle, partialByte := u.2.1, partialBits := u.2.2 }
      exact ⟨by rw [ih.1], ih.2.1, ih.2.2⟩

theorem symAt_mem [Inhabited Word] (hv : Valid enc) (e : Nat) (he : e < enc.size) :
    symAt enc e ∈ enc.dict :=
  List.mem_iff_getElem?.2 ⟨e, getElem?_symAt hv e he⟩

theorem encodeSpec_mem [Inhabited Word] (hv : Valid enc) (x : List (Fin 256)) :
    ∀ w ∈ encodeSpec enc x, w ∈ enc.dict := by
  intro w hw
  have hsize : 0 < enc.size := lt_of_lt_of_le (Nat.two_pow_pos _) hv.pow_le
  simp only [encodeSpec, emitted, List.mem_map] at hw
  obtain ⟨e, he, rfl⟩ := hw
  exact symAt_mem hv e (chainPos_lt hv _ 0 hsize (groups_val_lt _ _) e he)

/-- Decoding an encoding, for every valid encoding: the input comes back,
followed by `extraBytes` zero bytes, and without an error. -/
theorem Decode_encodeSpec [Inhabited Word] (hv : Valid enc) (dst : List (Fin 256))
    (x : List (Fin 256))
    (hcap : DecodedLen enc (EncodedLen enc x.length) ≤ dst.length) :
    x.length + extraBytes enc.stepBits x.length = DecodedLen enc (EncodedLen enc x.length) ∧
    Decode enc dst (encodeSpec enc x) =
      .ok (x ++ List.replicate (extraBytes enc.stepBits x.length) 0 ++
             dst.drop (x.length + extraBytes enc.stepBits x.length),
           x.length + extraBytes enc.stepBits x.length, none) := by
  rw [← length_encodeSpec hv] at hcap ⊢
  obtain ⟨h1, _, _, h4⟩ := Decode_known hv dst (encodeSpec enc x) (encodeSpec_mem hv x) hcap
  obtain ⟨u1, u2, _⟩ := unpack_encodeSpec hv x
  rw [u1, List.length_append, List.length_replicate] at h1
  refine ⟨h1, ?_⟩
  rw [h4, ← h1, u1, reader.Close, u2]
  simp

theorem AppendDecode_encodeSpec [Inhabited Word] (hv : Valid enc) (dst : List (Fin 256))
    (x : List (Fin 256)) :
    AppendDecode enc dst (encodeSpec enc x) =
      .ok (dst ++ (x ++ List.replicate (extraBytes enc.stepBits x.length) 0), none) := by
  have h := Decode_encodeSpec hv
    (List.replicate (DecodedLen enc (encodeSpec enc x).length) 0) x
    (by rw [length_encodeSpec hv]; simp)
  rw [AppendDecode]
  simp only [h.2]
  rw [List.take_left' (by simp)]

theorem extraBytes_eq_zero (s n : Nat) (hs0 : 0 < s) (hs : s ≤ 8) : extraBytes s n = 0 := by
  unfold extraBytes
  have := Nat.mod_lt (s - n * 8 % s) hs0
  exact Nat.div_eq_of_lt (by omega)

/-! ## Streaming reader -/

theorem readChunks_ok (hv : Valid enc) :
    ∀ (cs : List (List Word × List (Fin 256))) (r : reader), r.partialBits < 8 →
      (∀ c ∈ cs, ∀ w ∈ c.1, w ∈ enc.dict) →
      (∀ c ∈ cs, (c.1.length * enc.stepBits + 7) / 8 ≤ c.2.length) →
      readChunks enc r cs =
        .ok ((unpack enc (cs.map Prod.fst).flatten 0 r).2.1,
             (unpack enc (cs.map Prod.fst).flatten 0 r).1, none)
  | [], r, _, _, _ => by simp [readChunks, unpack]
  | (got, p) :: cs, r, hpb, hmem, hbuf => by
    have hs := hv.step_lt
    obtain ⟨k1, k2, k3⟩ := unpack_known hv got 0 r hpb (hmem (got, p) (by simp))
    have hb := hbuf (got, p) (by simp)
    simp only [] at hb
    have hcap : (unpack enc got 0 r).1.length ≤ p.length := by
      rw [k2]
      calc (r.partialBits + got.length * enc.stepBits) / 8
          ≤ (got.length * enc.stepBits + 7) / 8 := Nat.div_le_div_right (by omega)
        _ ≤ p.length := hb
    have hloop := decodeLoop_eq (by omega : enc.stepBits < 256) got 0 r [] p hpb hcap
    have hd : decode enc p got r.offset r.partialByte r.partialBits =
        decodeLoop enc got 0 (decSt [] p r) := rfl
    have ih := readChunks_ok hv cs (unpack enc got 0 r).2.1
      (by rw [k3]; exact Nat.mod_lt _ (by norm_num))
      (fun c hc => hmem c (by simp [hc])) (fun c hc => hbuf c (by simp [hc]))
    have happ := @unpack_append _ _ enc got (cs.map Prod.fst).flatten 0 r
    rw [k1] at happ
    simp only [Nat.zero_add] at happ
    have hidx := @unpack_index _ _ enc (cs.map Prod.fst).flatten got.length 0
      (unpack enc got 0 r).2.1
    have hnone : (unpack enc (cs.map Prod.fst).flatten got.length (unpack enc got 0 r).2.1).2.2
        = none := hidx.2.2.2 (by
          have := unpack_known hv (cs.map Prod.fst).flatten 0 (unpack enc got 0 r).2.1
            (by rw [k3]; exact Nat.mod_lt _ (by norm_num))
            (by
              intro w hw
              obtain ⟨l, hl, hwl⟩ := List.mem_flatten.1 hw
              obtain ⟨c, hc, rfl⟩ := List.mem_map.1 hl
              exact hmem c (by simp [hc]) w hwl)
          exact this.1)
    rw [readChunks, reader.decodeGot, hd, hloop]
    simp only [k1, decSt, List.nil_append, List.length_nil, Nat.zero_add]
    rw [ih]
    simp only [List.map_cons, List.flatten_cons, happ, hidx.1, hidx.2.1]
    rw [List.take_left']
    rfl

end Known
end Based

namespace Based

/-! ## The claims -/

theorem Valid.step_le_of_size_lt {Word : Type} [DecidableEq Word] {enc : Encoding Word}
    (hv : Valid enc) (k : Nat) (h : enc.size < 2 ^ (k + 1)) : enc.stepBits ≤ k := by
  have h1 := lt_of_le_of_lt hv.pow_le h
  have := (Nat.pow_lt_pow_iff_right (by norm_num : 1 < 2)).1 h1
  omega

/-- C1 (as amended): for every dictionary of `2 ≤ N ≤ 511` unique words, which
is every dictionary with `stepBits ≤ 8`, and every byte sequence `x`,
`AppendDecode(nil, AppendEncode(nil, x))` returns exactly `x` with a nil error. -/
theorem C1_round_trip_small_dict {Word : Type} [DecidableEq Word] [Inhabited Word]
    (dict : List Word) (enc : Encoding Word) (x : List (Fin 256))
    (hN : dict.length ≤ 511) (henc : NewEncoding dict = some enc) :
    ∃ s, AppendEncode enc [] x = .ok s ∧ AppendDecode enc [] s = .ok (x, none) := by
  obtain ⟨hv, hd⟩ := NewEncoding_valid dict enc (by omega) henc
  have hs : enc.stepBits ≤ 8 :=
    hv.step_le_of_size_lt 8 (by rw [hv.size_eq, hd]; norm_num; omega)
  refine ⟨encodeSpec enc x, by simpa using AppendEncode_ok hv [] x, ?_⟩
  rw [AppendDecode_encodeSpec hv [] x, extraBytes_eq_zero _ _ hv.step_pos hs]
  simp

/-- Witness of C1 (as amended), on a dictionary of three words, where carry
mode is on. -/
theorem C1_round_trip_small_dict_witness :
    NewEncoding dict3 = some enc3 ∧
    ∃ s, AppendEncode enc3 [] [7, 200] = .ok s ∧ AppendDecode enc3 [] s = .ok ([7, 200], none) :=
  ⟨by decide, C1_round_trip_small_dict dict3 enc3 [7, 200] (by decide) (by decide)⟩

/-- C1 as stated fails: with the 512 words `0 .. 511` (`stepBits = 9`) the
encoding of the eight bytes `1 .. 8` has eight words, that is 72 bits, and
decodes to nine bytes, the input followed by a zero byte, with a nil error. -/
theorem C1_counterexample :
    ∃ enc s, NewEncoding (List.range 512) = some enc ∧
      AppendEncode enc [] [1, 2, 3, 4, 5, 6, 7, 8] = .ok s ∧
      AppendDecode enc [] s = .ok ([1, 2, 3, 4, 5, 6, 7, 8, 0], none) ∧
      AppendDecode enc [] s ≠ .ok ([1, 2, 3, 4, 5, 6, 7, 8], none) := by
  obtain ⟨enc, henc⟩ := NewEncoding_isSome (List.range 512) (by simp) (List.nodup_range 512)
  obtain ⟨hv, hd⟩ := NewEncoding_valid _ enc (by simp) henc
  have hsize : enc.size = 2 ^ 9 := by rw [hv.size_eq, hd]; simp
  have hs : enc.stepBits = 9 := by
    rcases hv.toggle with ⟨_, h⟩ | ⟨_, h1, h2⟩
    · rw [hsize] at h
      exact (Nat.pow_right_injective (le_refl 2) h).symm
    · rw [hsize] at h1 h2
      have a := (Nat.pow_lt_pow_iff_right (by norm_num : 1 < 2)).1 h1
      have b := (Nat.pow_lt_pow_iff_right (by norm_num : 1 < 2)).1 h2
      omega
  have hdec := AppendDecode_encodeSpec hv [] [1, 2, 3, 4, 5, 6, 7, 8]
  rw [hs] at hdec
  have he : extraBytes 9 ([1, 2, 3, 4, 5, 6, 7, 8] : List (Fin 256)).length = 1 := by decide
  rw [he] at hdec
  refine ⟨enc, encodeSpec enc [1, 2, 3, 4, 5, 6, 7, 8], henc,
    by simpa using AppendEncode_ok hv [] _, by simpa using hdec, ?_⟩
  rw [hdec]
  intro h
  have := congrArg (fun r => match r with
    | Except.ok (l, _) => List.length l
    | Except.error _ => 0) h
  simp at this

/-- C2: for every dictionary of unique byte symbols accepted by `NewEncoding`
(so `2 ≤ N ≤ 256` and `stepBits ≤ 8`, carry mode on or off) and every byte
sequence `x`, `Decode` applied to what `Encode` wrote for `x` writes exactly
`x`, returns `n = len(x)` and a nil error. -/
theorem C2_round_trip_byte_dict (dict : List (Fin 256)) (enc : Encoding (Fin 256))
    (x : List (Fin 256)) (dst : List (Fin 256)) (buf : List (Fin 256))
    (henc : NewEncoding dict = some enc) (hdst : dst.length = EncodedLen enc x.length)
    (hbuf : x.length ≤ buf.length) :
    2 ≤ dict.length ∧ dict.length ≤ 256 ∧ enc.stepBits ≤ 8 ∧
    ∃ s, Encode enc dst x = .ok s ∧
      Decode enc buf s = .ok (x ++ buf.drop x.length, x.length, none) := by
  have hsome : NewEncoding dict ≠ none := by rw [henc]; simp
  have hnot := mt (NewEncoding_eq_none_iff dict).2 hsome
  have h2 : 2 ≤ dict.length := by
    by_contra h; exact hnot (Or.inl (by omega))
  have hnd : dict.Nodup := by
    by_contra h; exact hnot (Or.inr h)
  have hcard : dict.length ≤ 256 := by
    have := List.Nodup.length_le_card hnd
    rwa [Fintype.card_fin] at this
  obtain ⟨hv, hd⟩ := NewEncoding_valid dict enc (by omega) henc
  have hs : enc.stepBits ≤ 8 :=
    hv.step_le_of_size_lt 8 (by rw [hv.size_eq, hd]; norm_num; omega)
  have hx := extraBytes_eq_zero enc.stepBits x.length hv.step_pos hs
  have hdl : DecodedLen enc (EncodedLen enc x.length) = x.length := by
    have := (Decode_encodeSpec hv (List.replicate (DecodedLen enc (EncodedLen enc x.length)) 0)
      x (by simp)).1
    omega
  refine ⟨h2, hcard, hs, encodeSpec enc x, ?_, ?_⟩
  · rw [Encode_ok hv dst x (le_of_eq hdst.symm), ← hdst]
    simp
  · have := (Decode_encodeSpec hv buf x (by rw [hdl]; exact hbuf)).2
    rw [hx] at this
    simpa using this

/-- Witness of C2, on a dictionary of three bytes, where carry mode is on. -/
theorem C2_round_trip_byte_dict_witness :
    NewEncoding bdict3 = some benc3 ∧
    ∃ s, Encode benc3 (List.replicate 8 0) [165] = .ok s ∧
      Decode benc3 [0, 0] s = .ok ([165] ++ List.drop 1 [0, 0], 1, none) :=
  ⟨by decide,
   (C2_round_trip_byte_dict bdict3 benc3 [165] (List.replicate 8 0) [0, 0]
      (by decide) (by decide) (by decide)).2.2.2⟩

end Based

namespace Based

/-! ### Power-of-two dictionaries -/

theorem chunks_eq_map_range {α : Type} (s : Nat) : ∀ (m : Nat) (l : List α),
    chunks s m l = (List.range m).map (fun i => (l.drop (i * s)).take s)
  | 0, _ => rfl
  | m + 1, l => by
    rw [chunks, chunks_eq_map_range s m (l.drop s), List.range_succ_eq_map, List.map_cons,
      List.map_map]
    congr 1
    · simp
    · apply List.map_congr_left
      intro i _
      simp only [Function.comp, List.drop_drop, Nat.succ_eq_add_one, Nat.add_mul, Nat.one_mul]
      congr 2
      omega

theorem chainPos_no_carry {Word : Type} (enc : Encoding Word) (ht : enc.offsetToggle = 0)
    (vs : List Nat) (hvs : ∀ v ∈ vs, v < enc.size) : chainPos enc 0 vs = vs := by
  induction vs with
  | nil => rfl
  | cons v vs ih =>
    have hv := hvs v (by simp)
    have he : emitPos enc v 0 = v := by
      unfold emitPos; rw [if_neg (by omega)]; rfl
    rw [chainPos, he, ht, Nat.and_zero, ih (fun v' hv' => hvs v' (by simp [hv']))]

theorem Valid.pow_two {Word : Type} [DecidableEq Word] {enc : Encoding Word} (hv : Valid enc)
    (k : Nat) (hk : enc.size = 2 ^ k) : enc.stepBits = k ∧ enc.offsetToggle = 0 := by
  rcases hv.toggle with ⟨h0, h⟩ | ⟨_, h1, h2⟩
  · rw [hk] at h
    exact ⟨(Nat.pow_right_injective (le_refl 2) h).symm, h0⟩
  · rw [hk] at h1 h2
    have a := (Nat.pow_lt_pow_iff_right (by norm_num : 1 < 2)).1 h1
    have b := (Nat.pow_lt_pow_iff_right (by norm_num : 1 < 2)).1 h2
    omega

theorem groupValue_lt (k : Nat) (x : List (Fin 256)) (i : Nat) : groupValue k x i < 2 ^ k := by
  unfold groupValue
  refine lt_of_lt_of_le (valOf_lt _) (pow_le_of_le ?_)
  rw [List.length_take]
  exact Nat.min_le_left _ _

theorem encodeSpec_pow_two {Word : Type} [DecidableEq Word] [Inhabited Word]
    {enc : Encoding Word} (hv : Valid enc) (k : Nat) (hk : enc.size = 2 ^ k)
    (x : List (Fin 256)) : encodeSpec enc x = classicEncode enc.dict k x := by
  obtain ⟨hs, ht⟩ := hv.pow_two k hk
  have hvs : ∀ v ∈ (groups enc.stepBits (padBits enc.stepBits (bitString x))).map valOf,
      v < enc.size := by
    intro v hvm
    exact lt_of_lt_of_le (groups_val_lt _ _ v hvm) hv.pow_le
  rw [encodeSpec, emitted, chainPos_no_carry enc ht _ hvs, hs, groups, chunks_eq_map_range,
    classicEncode, List.map_map, List.map_map]
  rfl

/-- On the standard 32-letter alphabet `classicEncode` is unpadded base32:
the test vector of RFC 4648 for `foobar`. -/
theorem classicEncode_base32_foobar :
    classicEncode "ABCDEFGHIJKLMNOPQRSTUVWXYZ234567".toList 5 [102, 111, 111, 98, 97, 114] =
      "MZXW6YTBOI".toList := by
  decide

/-- C3: for every dictionary whose size is `2 ^ k` and every byte sequence
`x`, `NewEncoding` sets `stepBits = k` without carry, and `Encode` writes the
classical unpadded fixed-width base-`2 ^ k` encoding: its `i`-th word is
`dict[g_i]`, where `g_i` is the value of bits `[i * k, (i + 1) * k)` of the
bit string of `x` padded on the right with zero bits to a multiple of `k`. -/
theorem C3_power_of_two_equivalence {Word : Type} [DecidableEq Word] [Inhabited Word]
    (dict : List Word) (enc : Encoding Word) (k : Nat) (x : List (Fin 256)) (dst : List Word)
    (hN : dict.length = 2 ^ k) (hlen : dict.length < 2 ^ 63)
    (henc : NewEncoding dict = some enc) (hdst : EncodedLen enc x.length ≤ dst.length) :
    enc.stepBits = k ∧ enc.offsetToggle = 0 ∧
    ∃ s, Encode enc dst x = .ok (s ++ dst.drop (EncodedLen enc x.length)) ∧
      s.length = EncodedLen enc x.length ∧
      s = classicEncode dict k x ∧
      ∀ i, i < s.length →
        groupValue k x i < dict.length ∧ s[i]? = dict[groupValue k x i]? := by
  obtain ⟨hv, hd⟩ := NewEncoding_valid dict enc hlen henc
  have hk : enc.size = 2 ^ k := by rw [hv.size_eq, hd, hN]
  obtain ⟨hs, ht⟩ := hv.pow_two k hk
  have hspec := encodeSpec_pow_two hv k hk x
  rw [hd] at hspec
  refine ⟨hs, ht, classicEncode dict k x, ?_, ?_, rfl, ?_⟩
  · rw [Encode_ok hv dst x hdst, hspec]
  · rw [← hspec, length_encodeSpec hv]
  · intro i hi
    have hg : groupValue k x i < dict.length := by
      rw [hN]; exact groupValue_lt k x i
    refine ⟨hg, ?_⟩
    simp only [classicEncode, List.length_map, List.length_range] at hi
    simp only [classicEncode, List.getElem?_map, List.getElem?_range hi, Option.map_some']
    rw [List.getElem?_eq_getElem hg, List.getD_eq_getElem _ _ hg]

/-- Witness of C3, on a dictionary of four words (`k = 2`). -/
theorem C3_power_of_two_equivalence_witness :
    NewEncoding dict4 = some enc4 ∧
    ∃ s, Encode enc4 [9, 9, 9, 9, 9] [27] = .ok (s ++ List.drop (EncodedLen enc4 1) [9, 9, 9, 9, 9]) ∧
      s = classicEncode dict4 2 [27] :=
  ⟨by decide,
   let ⟨s, h1, _, h3, _⟩ := (C3_power_of_two_equivalence dict4 enc4 2 [27] [9, 9, 9, 9, 9]
      (by decide) (by decide) (by decide) (by decide)).2.2
   ⟨s, h1, h3⟩⟩

/-! ### Lengths -/

theorem ceil_div (L s : Nat) (hs : 0 < s) :
    (if L % s = 0 then L / s else L / s + 1) = (L + s - 1) / s := by
  have hdm := Nat.div_add_mod L s
  have hlt := Nat.mod_lt L hs
  generalize L % s = r at hdm hlt
  generalize L / s = q at hdm
  subst hdm
  by_cases h0 : r = 0
  · subst h0
    rw [if_pos rfl]
    have e : s * q + 0 + s - 1 = (s - 1) + s * q := by omega
    rw [e, Nat.add_mul_div_left _ _ hs, Nat.div_eq_of_lt (by omega)]
    omega
  · rw [if_neg h0]
    have e : s * q + r + s - 1 = (r - 1) + s + s * q := by omega
    rw [e, Nat.add_mul_div_left _ _ hs, Nat.add_div_right _ hs, Nat.div_eq_of_lt (by omega)]
    omega

/-- C6: for every dictionary and every byte sequence `x`, `Encode` writes
exactly `EncodedLen(len(x))` words, at positions `0 .. EncodedLen(len(x)) - 1`
of `dst`, where `EncodedLen(n) = ceil(8 * n / stepBits)`; these are the words
`AppendEncode(nil, x)` returns, so `len(AppendEncode(nil, x)) =
EncodedLen(len(x))`. -/
theorem C6_encode_length {Word : Type} [DecidableEq Word] [Inhabited Word]
    (dict : List Word) (enc : Encoding Word) (x : List (Fin 256)) (dst : List Word)
    (hlen : dict.length < 2 ^ 63) (henc : NewEncoding dict = some enc)
    (hdst : EncodedLen enc x.length ≤ dst.length) :
    EncodedLen enc x.length = (8 * x.length + enc.stepBits - 1) / enc.stepBits ∧
    ∃ st out, encodeRun enc dst x = .ok st ∧ Encode enc dst x = .ok st.dst ∧
      st.n = EncodedLen enc x.length ∧
      st.dst = out ++ dst.drop (EncodedLen enc x.length) ∧
      out.length = EncodedLen enc x.length ∧
      AppendEncode enc [] x = .ok out := by
  obtain ⟨hv, _⟩ := NewEncoding_valid dict enc hlen henc
  obtain ⟨st, h1, h2, h3⟩ := encodeRun_ok hv dst x hdst
  refine ⟨?_, st, encodeSpec enc x, h1, ?_, h3, h2, length_encodeSpec hv x, ?_⟩
  · have := ceil_div (x.length * 8 + 0) enc.stepBits hv.step_pos
    rw [EncodedLen, encodedLen]
    rw [this, Nat.add_zero, Nat.mul_comm]
  · rw [Encode, h1]
  · simpa using AppendEncode_ok hv [] x

/-- Witness of C6, on a dictionary of three words. -/
theorem C6_encode_length_witness :
    NewEncoding dict3 = some enc3 ∧
    EncodedLen enc3 1 = (8 * 1 + 1 - 1) / 1 ∧
    ∃ st out, encodeRun enc3 (List.replicate 9 5) [129] = .ok st ∧
      Encode enc3 (List.replicate 9 5) [129] = .ok st.dst ∧
      st.n = EncodedLen enc3 1 ∧
      st.dst = out ++ List.drop (EncodedLen enc3 1) (List.replicate 9 5) ∧
      out.length = EncodedLen enc3 1 ∧
      AppendEncode enc3 [] [129] = .ok out :=
  ⟨by decide,
   C6_encode_length dict3 enc3 [129] (List.replicate 9 5) (by decide) (by decide) (by decide)⟩

end Based

namespace Based

/-! ### Streaming -/

/-- C4: for every dictionary, every byte sequence and every way of splitting
it into consecutive chunks (empty chunks allowed), feeding the chunks in order
to the writer's `Write` and then calling `Close` once forwards to the sink, in
total, exactly the words the one-shot `Encode` writes for the whole input. -/
theorem C4_writer_chunk_invariance {Word : Type} [DecidableEq Word] [Inhabited Word]
    (dict : List Word) (enc : Encoding Word) (ps : List (List (Fin 256))) (dst : List Word)
    (hlen : dict.length < 2 ^ 63) (henc : NewEncoding dict = some enc)
    (hdst : dst.length = EncodedLen enc ps.flatten.length) :
    ∃ w w', writeChunks enc NewWriter ps = .ok w ∧ writer.Close enc w = .ok w' ∧
      Encode enc dst ps.flatten = .ok w'.sink := by
  obtain ⟨hv, _⟩ := NewEncoding_valid dict enc hlen henc
  obtain ⟨w, h1, hinv⟩ := writeChunks_ok hv ps NewWriter [] WInv_new
  rw [List.nil_append] at hinv
  obtain ⟨w', h2, h3⟩ := Close_ok hv w ps.flatten hinv
  refine ⟨w, w', h1, h2, ?_⟩
  rw [Encode_ok hv dst _ (le_of_eq hdst.symm), h3, ← hdst]
  simp

/-- Witness of C4: two bytes written as an empty chunk and two chunks of one
byte, on a dictionary of three words. -/
theorem C4_writer_chunk_invariance_witness :
    NewEncoding dict3 = some enc3 ∧
    ∃ w w', writeChunks enc3 NewWriter [[], [7], [200]] = .ok w ∧
      writer.Close enc3 w = .ok w' ∧
      Encode enc3 (List.replicate 16 0) [[], [7], [200]].flatten = .ok w'.sink :=
  ⟨by decide,
   C4_writer_chunk_invariance dict3 enc3 [[], [7], [200]] (List.replicate 16 0)
     (by decide) (by decide) (by decide)⟩

/-- C5: for every dictionary and every sequence of dictionary words, split
into consecutive chunks that are decoded one after another with the carried
cells (`offset`, `partial`, `partialBits`), each into a buffer with room for
its bytes, the bytes of the calls concatenated are the bytes the one-shot
`Decode` writes for the whole sequence, and the reader's `Close` returns the
error that the one-shot `Decode` returns. -/
theorem C5_reader_chunk_invariance {Word : Type} [DecidableEq Word]
    (dict : List Word) (enc : Encoding Word) (cs : List (List Word × List (Fin 256)))
    (dst : List (Fin 256))
    (hlen : dict.length < 2 ^ 63) (henc : NewEncoding dict = some enc)
    (hmem : ∀ c ∈ cs, ∀ w ∈ c.1, w ∈ dict)
    (hbuf : ∀ c ∈ cs, (c.1.length * enc.stepBits + 7) / 8 ≤ c.2.length)
    (hdst : DecodedLen enc (cs.map Prod.fst).flatten.length ≤ dst.length) :
    ∃ r out, readChunks enc NewReader cs = .ok (r, out, none) ∧
      Decode enc dst (cs.map Prod.fst).flatten =
        .ok (out ++ dst.drop out.length, out.length, reader.Close r) ∧
      ((reader.Close r : Option (DecodeError Word)) ≠ none ↔
        0 < r.partialBits ∧ r.partialByte ≠ 0) := by
  obtain ⟨hv, hd⟩ := NewEncoding_valid dict enc hlen henc
  rw [← hd] at hmem
  have hall : ∀ w ∈ (cs.map Prod.fst).flatten, w ∈ enc.dict := by
    intro w hw
    obtain ⟨l, hl, hwl⟩ := List.mem_flatten.1 hw
    obtain ⟨c, hc, rfl⟩ := List.mem_map.1 hl
    exact hmem c hc w hwl
  have h1 := readChunks_ok hv cs NewReader (by simp [NewReader]) hmem hbuf
  obtain ⟨k1, _, _, k4⟩ := Decode_known hv dst _ hall hdst
  refine ⟨_, _, h1, ?_, ?_⟩
  · rw [k4, k1]
  · unfold reader.Close
    split <;> simp_all

/-- Witness of C5: three words decoded as an empty chunk, a chunk of one word
and a chunk of two, on a dictionary of four words. -/
theorem C5_reader_chunk_invariance_witness :
    NewEncoding dict4 = some enc4 ∧
    ∃ r out, readChunks enc4 NewReader [([], []), ([1], [0]), ([2, 3], [0, 0])]
        = .ok (r, out, none) ∧
      Decode enc4 [0] ([([], []), ([1], [0]), ([2, 3], [0, 0])].map Prod.fst).flatten =
        .ok (out ++ List.drop out.length [0], out.length, reader.Close r) ∧
      ((reader.Close r : Option (DecodeError Nat)) ≠ none ↔
        0 < r.partialBits ∧ r.partialByte ≠ 0) :=
  ⟨by decide,
   C5_reader_chunk_invariance dict4 enc4 [([], []), ([1], [0]), ([2, 3], [0, 0])] [0]
     (by decide) (by decide) (by decide) (by decide) (by decide)⟩

/-! ### Decoding -/

/-- C8: for every dictionary and every word sequence whose first word outside
the dictionary is `w`, at position `i = len(pre)`, `Decode` returns the error
for the unknown word `w` at index `i`, `n = floor(i * stepBits / 8)`, and the
bytes written are the bytes that decoding the prefix before `w` writes;
nothing after position `i` has any effect. -/
theorem C8_unknown_symbol {Word : Type} [DecidableEq Word]
    (dict : List Word) (enc : Encoding Word) (pre : List Word) (w : Word) (suf : List Word)
    (dst : List (Fin 256))
    (hlen : dict.length < 2 ^ 63) (henc : NewEncoding dict = some enc)
    (hpre : ∀ v ∈ pre, v ∈ dict) (hw : w ∉ dict)
    (hdst : DecodedLen enc pre.length ≤ dst.length) :
    ∃ out err, Decode enc dst pre = .ok (out ++ dst.drop out.length, out.length, err) ∧
      out.length = pre.length * enc.stepBits / 8 ∧
      Decode enc dst (pre ++ w :: suf) =
        .ok (out ++ dst.drop out.length, out.length, some (.unknownWord w pre.length)) := by
  obtain ⟨hv, hd⟩ := NewEncoding_valid dict enc hlen henc
  rw [← hd] at hpre hw
  have hs := hv.step_lt
  obtain ⟨k1, _, k3, k4⟩ := Decode_known hv dst pre hpre hdst
  have hnone := mapGet_none_of_not_mem hv w hw
  have happ := @unpack_append _ _ enc pre (w :: suf) 0 NewReader
  rw [k3] at happ
  simp only [unpack, hnone, List.append_nil, Nat.zero_add] at happ
  refine ⟨_, _, by rw [k4, ← k1], k1, ?_⟩
  rw [Decode_eq (by omega) dst _ (by rw [happ]; simp only []; rw [k1]; exact hdst), happ]
  simp [finalErr]

/-- Witness of C8: the word `5` is not among `0, 1, 2`; it comes at position
nine, after one complete byte and one more bit. -/
theorem C8_unknown_symbol_witness :
    NewEncoding dict3 = some enc3 ∧
    ∃ out err, Decode enc3 [9, 9] [1, 1, 1, 1, 1, 1, 1, 1, 1] =
        .ok (out ++ List.drop out.length [9, 9], out.length, err) ∧
      out.length = [1, 1, 1, 1, 1, 1, 1, 1, 1].length * enc3.stepBits / 8 ∧
      Decode enc3 [9, 9] ([1, 1, 1, 1, 1, 1, 1, 1, 1] ++ 5 :: [0, 7]) =
        .ok (out ++ List.drop out.length [9, 9], out.length,
             some (.unknownWord 5 [1, 1, 1, 1, 1, 1, 1, 1, 1].length)) :=
  ⟨by decide,
   C8_unknown_symbol dict3 enc3 [1, 1, 1, 1, 1, 1, 1, 1, 1] 5 [0, 7] [9, 9]
     (by decide) (by decide) (by decide) (by decide) (by decide)⟩

/-- C9: for every dictionary and every sequence of words of the dictionary,
`decode` consumes all of them without error, and `Decode` then returns a
non-nil error if and only if `partialBits > 0` and `partial != 0`; the error
is the trailing-bits error. `partialBits` is `len(src) * stepBits mod 8`, so
an input that fits exactly, and an input whose leftover bits are zero, return
a nil error. -/
theorem C9_trailing_bits {Word : Type} [DecidableEq Word]
    (dict : List Word) (enc : Encoding Word) (src : List Word) (dst : List (Fin 256))
    (hlen : dict.length < 2 ^ 63) (henc : NewEncoding dict = some enc)
    (hmem : ∀ w ∈ src, w ∈ dict) (hdst : DecodedLen enc src.length ≤ dst.length) :
    ∃ st err, decode enc dst src 0 0 0 = .ok (st, none) ∧
      Decode enc dst src = .ok (st.dst, st.n, err) ∧
      (err ≠ none ↔ 0 < st.partialBits ∧ st.partialByte ≠ 0) ∧
      (err ≠ none → err = some (.trailingBits st.partialByte st.partialBits)) ∧
      st.partialBits = src.length * enc.stepBits % 8 ∧
      (src.length * enc.stepBits % 8 = 0 → err = none) ∧
      (st.partialByte = 0 → err = none) := by
  obtain ⟨hv, hd⟩ := NewEncoding_valid dict enc hlen henc
  rw [← hd] at hmem
  have hs := hv.step_lt
  obtain ⟨k1, k2, k3, k4⟩ := Decode_known hv dst src hmem hdst
  have hloop := decodeLoop_eq (by omega : enc.stepBits < 256) src 0 NewReader [] dst
    (by simp [NewReader]) (by rw [k1]; exact hdst)
  have hdec : decode enc dst src 0 0 0 = decodeLoop enc src 0 (decSt [] dst NewReader) := rfl
  rw [k3] at hloop
  refine ⟨_, reader.Close (unpack enc src 0 NewReader).2.1, by rw [hdec, hloop],
    ?_, ?_, ?_, ?_, ?_, ?_⟩
  · rw [k4, ← k1]; simp [decSt]
  · simp only [decSt, reader.Close]
    split <;> simp_all
  · simp only [decSt, reader.Close]
    split <;> simp_all
  · simpa [decSt] using k2
  · intro h0
    simp only [reader.Close]
    rw [if_neg]
    rw [k2]; omega
  · intro h0
    simp only [decSt] at h0
    simp only [reader.Close]
    rw [if_neg]
    simp [h0]

/-- Witness of C9: three words of a dictionary of four leave six bits, not
all zero. -/
theorem C9_trailing_bits_witness :
    NewEncoding dict4 = some enc4 ∧
    ∃ st err, decode enc4 [] [1, 2, 3] 0 0 0 = .ok (st, none) ∧
      Decode enc4 [] [1, 2, 3] = .ok (st.dst, st.n, err) ∧
      (err ≠ none ↔ 0 < st.partialBits ∧ st.partialByte ≠ 0) ∧
      (err ≠ none → err = some (.trailingBits st.partialByte st.partialBits)) ∧
      st.partialBits = [1, 2, 3].length * enc4.stepBits % 8 ∧
      ([1, 2, 3].length * enc4.stepBits % 8 = 0 → err = none) ∧
      (st.partialByte = 0 → err = none) :=
  ⟨by decide,
   C9_trailing_bits dict4 enc4 [1, 2, 3] [] (by decide) (by decide) (by decide) (by decide)⟩

/-! ### Construction -/

/-- C10: `NewEncoding(dict)` panics, producing no encoding, if and only if
`len(dict) < 2` or two positions of `dict` hold equal words; otherwise it
returns an encoding over `dict` with `size = len(dict)` whose reverse index
maps `dict[i]` to `i` for every position `i < len(dict)`. -/
theorem C10_construction_validation {Word : Type} [DecidableEq Word] (dict : List Word)
    (hlen : dict.length < 2 ^ 63) :
    (NewEncoding dict = none ↔
      dict.length < 2 ∨ ∃ i j, i < j ∧ j < dict.length ∧ dict[i]? = dict[j]?) ∧
    ∀ enc, NewEncoding dict = some enc →
      enc.dict = dict ∧ enc.size = dict.length ∧
      ∀ (i : Nat) (h : i < dict.length), mapGet enc.idx (dict.get ⟨i, h⟩) = some i := by
  constructor
  · rw [NewEncoding_eq_none_iff]
    have hdup : ¬ dict.Nodup ↔ ∃ i j, i < j ∧ j < dict.length ∧ dict[i]? = dict[j]? := by
      rw [List.nodup_iff_getElem?_ne_getElem?]
      constructor
      · intro h
        by_contra hcon
        exact h (fun i j hij hj he => hcon ⟨i, j, hij, hj, he⟩)
      · rintro ⟨i, j, hij, hj, he⟩ h
        exact h i j hij hj he
    rw [hdup]
  · intro enc henc
    obtain ⟨hv, hd⟩ := NewEncoding_valid dict enc hlen henc
    refine ⟨hd, by rw [hv.size_eq, hd], fun i h => ?_⟩
    rw [hv.idx_get, hd, List.getElem?_eq_getElem h]
    rfl

/-- Witness of C10, on a dictionary of three words: no duplicate, and the
encoding built. -/
theorem C10_construction_validation_witness :
    (NewEncoding dict3 = none ↔
      dict3.length < 2 ∨ ∃ i j, i < j ∧ j < dict3.length ∧ dict3[i]? = dict3[j]?) ∧
    ∀ enc, NewEncoding dict3 = some enc →
      enc.dict = dict3 ∧ enc.size = dict3.length ∧
      ∀ (i : Nat) (h : i < dict3.length), mapGet enc.idx (dict3.get ⟨i, h⟩) = some i :=
  C10_construction_validation dict3 (by decide)

end Based
namespace Based

/-! ### Step width -/

theorem step_unique (s k N : Nat) (h1 : 2 ^ s ≤ N) (h2 : N < 2 ^ (s + 1)) (h3 : 2 ^ k ≤ N)
    (h4 : N < 2 ^ (k + 1)) : s = k := by
  have a := (Nat.pow_lt_pow_iff_right (by norm_num : 1 < 2)).1 (lt_of_le_of_lt h1 h4)
  have b := (Nat.pow_lt_pow_iff_right (by norm_num : 1 < 2)).1 (lt_of_le_of_lt h3 h2)
  omega

theorem Valid.size_lt_pow {Word : Type} [DecidableEq Word] {enc : Encoding Word}
    (hv : Valid enc) : enc.size < 2 ^ (enc.stepBits + 1) := by
  rcases hv.toggle with ⟨_, h⟩ | ⟨_, _, h⟩
  · rw [h]; exact pow_lt_of_lt (Nat.lt_succ_self _)
  · exact h

theorem Valid.toggle_zero_iff {Word : Type} [DecidableEq Word] {enc : Encoding Word}
    (hv : Valid enc) : enc.offsetToggle = 0 ↔ ∃ k, enc.size = 2 ^ k := by
  constructor
  · intro h0
    rcases hv.toggle with ⟨_, h⟩ | ⟨h, _, _⟩
    · exact ⟨_, h⟩
    · rw [h0] at h; exact absurd h (by norm_num)
  · rintro ⟨k, hk⟩
    exact (hv.pow_two k hk).2

/-- C11: for every dictionary size `N >= 2`, `NewEncoding` sets
`stepBits = floor(log2(N))`, that is `2 ^ stepBits <= N < 2 ^ (stepBits + 1)`,
and `offsetToggle` is all bits set if and only if `N` is not a power of two
and is `0` otherwise; `N = 32` gives `stepBits = 5` without carry, `N = 64`
gives `6` without carry, and `N = 33` gives `5` with carry. -/
theorem C11_step_width {Word : Type} [DecidableEq Word] (dict : List Word)
    (enc : Encoding Word) (hlen : dict.length < 2 ^ 63) (henc : NewEncoding dict = some enc) :
    enc.stepBits = Nat.log 2 dict.length ∧
    2 ^ enc.stepBits ≤ dict.length ∧ dict.length < 2 ^ (enc.stepBits + 1) ∧
    (enc.offsetToggle = 2 ^ 64 - 1 ↔ ¬ ∃ k, dict.length = 2 ^ k) ∧
    (enc.offsetToggle = 0 ↔ ∃ k, dict.length = 2 ^ k) ∧
    (dict.length = 32 → enc.stepBits = 5 ∧ enc.offsetToggle = 0) ∧
    (dict.length = 64 → enc.stepBits = 6 ∧ enc.offsetToggle = 0) ∧
    (dict.length = 33 → enc.stepBits = 5 ∧ enc.offsetToggle = 2 ^ 64 - 1) := by
  obtain ⟨hv, hd⟩ := NewEncoding_valid dict enc hlen henc
  have hsz : enc.size = dict.length := by rw [hv.size_eq, hd]
  have h1 : 2 ^ enc.stepBits ≤ dict.length := by rw [← hsz]; exact hv.pow_le
  have h2 : dict.length < 2 ^ (enc.stepBits + 1) := by rw [← hsz]; exact hv.size_lt_pow
  have hz : enc.offsetToggle = 0 ↔ ∃ k, dict.length = 2 ^ k := by
    rw [← hsz]; exact hv.toggle_zero_iff
  have hor : enc.offsetToggle = 0 ∨ enc.offsetToggle = 2 ^ 64 - 1 := by
    rcases hv.toggle with ⟨h, _⟩ | ⟨h, _⟩
    · exact Or.inl h
    · exact Or.inr h
  have hc : enc.offsetToggle = 2 ^ 64 - 1 ↔ ¬ ∃ k, dict.length = 2 ^ k := by
    rw [← hz]
    constructor
    · intro h h0; rw [h0] at h; exact absurd h (by norm_num)
    · intro h; rcases hor with h0 | h1
      · exact absurd h0 h
      · exact h1
  refine ⟨?_, h1, h2, hc, hz, ?_, ?_, ?_⟩
  · exact (Nat.log_eq_of_pow_le_of_lt_pow h1 h2).symm
  · intro h32
    rw [h32] at h1 h2
    exact ⟨step_unique _ 5 32 h1 h2 (by norm_num) (by norm_num), hz.2 ⟨5, by rw [h32]; norm_num⟩⟩
  · intro h64
    rw [h64] at h1 h2
    exact ⟨step_unique _ 6 64 h1 h2 (by norm_num) (by norm_num), hz.2 ⟨6, by rw [h64]; norm_num⟩⟩
  · intro h33
    refine ⟨?_, hc.2 ?_⟩
    · rw [h33] at h1 h2
      exact step_unique _ 5 33 h1 h2 (by norm_num) (by norm_num)
    · rintro ⟨k, hk⟩
      rw [h33] at hk
      have a : (2:Nat) ^ 5 < 2 ^ k := by rw [← hk]; norm_num
      have b : (2:Nat) ^ k < 2 ^ 6 := by rw [← hk]; norm_num
      have a' := (Nat.pow_lt_pow_iff_right (by norm_num : 1 < 2)).1 a
      have b' := (Nat.pow_lt_pow_iff_right (by norm_num : 1 < 2)).1 b
      omega

/-- Witness of C11, on a dictionary of nine words: three bits a word, with
carry. -/
theorem C11_step_width_witness :
    NewEncoding dict9 = some enc9 ∧
    enc9.stepBits = Nat.log 2 dict9.length ∧
    2 ^ enc9.stepBits ≤ dict9.length ∧ dict9.length < 2 ^ (enc9.stepBits + 1) ∧
    (enc9.offsetToggle = 2 ^ 64 - 1 ↔ ¬ ∃ k, dict9.length = 2 ^ k) :=
  ⟨by decide,
   let h := C11_step_width dict9 enc9 (by decide) (by decide)
   ⟨h.1, h.2.1, h.2.2.1, h.2.2.2.1⟩⟩

end Based

namespace Based

/-! ### Append -/

/-- On any words, known or not, the loop of `decode` completes at most a byte
for every eight bits and keeps fewer than eight. -/
theorem unpack_length_le {Word : Type} [DecidableEq Word] {enc : Encoding Word}
    (hs : enc.stepBits < 256) : ∀ (src : List Word) (i : Nat) (r : reader),
    r.partialBits < 8 →
    (unpack enc src i r).1.length ≤ (r.partialBits + src.length * enc.stepBits) / 8 ∧
    (unpack enc src i r).2.1.partialBits < 8
  | [], i, r, hpb => by
    simp only [unpack, List.length_nil]
    exact ⟨Nat.zero_le _, hpb⟩
  | w :: src, i, r, hpb => by
    rw [unpack]
    cases hm : mapGet enc.idx w with
    | none =>
      simp only [List.length_nil]
      exact ⟨Nat.zero_le _, hpb⟩
    | some k =>
      simp only []
      have hsh := unpackWord_shape (enc.stepBits + 1)
        (if r.offset ≤ k then sub64 k r.offset else sub64 enc.size (sub64 r.offset k))
        enc.stepBits r.partialByte r.partialBits hpb (by omega) hs
      generalize unpackWord (enc.stepBits + 1) _ enc.stepBits r.partialByte r.partialBits = u
        at hsh ⊢
      have hu8 : u.2.2 < 8 := by rw [hsh.2]; omega
      have ih := unpack_length_le hs src (i + 1)
        { offset := k &&& enc.offsetToggle, partialByte := u.2.1, partialBits := u.2.2 } hu8
      refine ⟨?_, ih.2⟩
      have h1 : (unpack enc src (i + 1)
          { offset := k &&& enc.offsetToggle, partialByte := u.2.1,
            partialBits := u.2.2 }).1.length ≤ (u.2.2 + src.length * enc.stepBits) / 8 := ih.1
      have h2 := hsh.2
      rw [List.length_append, hsh.1, List.length_cons, Nat.add_mul, Nat.one_mul]
      omega

/-- C12: for every dictionary, every buffer and every input,
`AppendEncode(dst, src)` returns `dst` followed by the words `Encode` writes
for `src`, and `AppendDecode(dst, src)` returns `dst` followed by the `n`
bytes `Decode` wrote for `src`, whether or not `Decode` returned an error; the
first `len(dst)` elements of either result are those of `dst`. -/
theorem C12_append_frame {Word : Type} [DecidableEq Word] [Inhabited Word]
    (dict : List Word) (enc : Encoding Word) (dstW : List Word) (x : List (Fin 256))
    (dstB : List (Fin 256)) (src : List Word)
    (hlen : dict.length < 2 ^ 63) (henc : NewEncoding dict = some enc) :
    (∃ syms, Encode enc (List.replicate (EncodedLen enc x.length) default) x = .ok syms ∧
      syms.length = EncodedLen enc x.length ∧
      AppendEncode enc dstW x = .ok (dstW ++ syms) ∧
      (dstW ++ syms).take dstW.length = dstW) ∧
    (∃ cells n err,
      Decode enc (List.replicate (DecodedLen enc src.length) 0) src = .ok (cells, n, err) ∧
      n ≤ cells.length ∧
      AppendDecode enc dstB src = .ok (dstB ++ cells.take n, err) ∧
      (dstB ++ cells.take n).take dstB.length = dstB) := by
  obtain ⟨hv, _⟩ := NewEncoding_valid dict enc hlen henc
  have hs := hv.step_lt
  constructor
  · refine ⟨encodeSpec enc x, ?_, length_encodeSpec hv x, AppendEncode_ok hv dstW x, by simp⟩
    rw [Encode_ok hv _ x (by simp)]
    simp
  · have hle := (unpack_length_le (by omega : enc.stepBits < 256) src 0 NewReader
      (by simp [NewReader])).1
    simp only [NewReader, Nat.zero_add] at hle
    have hcap : (unpack enc src 0 NewReader).1.length ≤
        (List.replicate (DecodedLen enc src.length) (0 : Fin 256)).length := by
      rw [List.length_replicate, DecodedLen]; exact hle
    have hD := Decode_eq (by omega : enc.stepBits < 256) _ src hcap
    refine ⟨_, _, _, hD, by simp, ?_, by simp⟩
    rw [AppendDecode]
    simp only [hD]

/-- Witness of C12, on a dictionary of three words: the decoded input has an
unknown word at position nine. -/
theorem C12_append_frame_witness :
    NewEncoding dict3 = some enc3 ∧
    (∃ syms, Encode enc3 (List.replicate (EncodedLen enc3 [7].length) default) [7] = .ok syms ∧
      syms.length = EncodedLen enc3 [7].length ∧
      AppendEncode enc3 [4, 4] [7] = .ok ([4, 4] ++ syms) ∧
      ([4, 4] ++ syms).take [4, 4].length = [4, 4]) ∧
    (∃ cells n err,
      Decode enc3 (List.replicate (DecodedLen enc3 [1, 1, 1, 1, 1, 1, 1, 1, 1, 5].length) 0)
        [1, 1, 1, 1, 1, 1, 1, 1, 1, 5] = .ok (cells, n, err) ∧
      n ≤ cells.length ∧
      AppendDecode enc3 [3] [1, 1, 1, 1, 1, 1, 1, 1, 1, 5] = .ok ([3] ++ cells.take n, err) ∧
      ([3] ++ cells.take n).take [3].length = [3]) :=
  ⟨by decide,
   C12_append_frame dict3 enc3 [4, 4] [7] [3] [1, 1, 1, 1, 1, 1, 1, 1, 1, 5]
     (by decide) (by decide)⟩

end Based

namespace Based

/-! ### Closing a writer -/

section CloseTwice
variable {Word : Type} [DecidableEq Word] {enc : Encoding Word}

theorem emitPos_eq_mod (hv : Valid enc) (v o : Nat) (hvv : v < 2 ^ enc.stepBits)
    (ho : o < enc.size) : emitPos enc v o = (v + o) % enc.size := by
  have hpow := hv.pow_le
  unfold emitPos
  split
  · rename_i h
    have e : v + o = (v + o - enc.size) + enc.size := by omega
    conv_rhs => rw [e, Nat.add_mod_right]
    exact (Nat.mod_eq_of_lt (by omega)).symm
  · rename_i h
    exact (Nat.mod_eq_of_lt (by omega)).symm

omit [DecidableEq Word] in
theorem Close_idle (w : writer Word) (h : w.availBits = 0) : writer.Close enc w = .ok w := by
  rw [writer.Close]
  cases w.buf with
  | none => rfl
  | some cells => simp [h]

/-- With bits pending, `Close` emits one word, the pending bits padded with
zero bits, and leaves no bits pending. -/
theorem Close_pending [Inhabited Word] (hv : Valid enc) (w : writer Word) (X : List Bool)
    (hinv : WInv enc w X) (hpos : 0 < w.availBits) :
    ∃ w', writer.Close enc w = .ok w' ∧ w'.availBits = 0 ∧
      w'.sink = w.sink ++
        [symAt enc (((w.index <<< (enc.stepBits - w.availBits)) + w.offset) % enc.size)] := by
  have hs0 := hv.step_pos
  have hsize : 0 < enc.size := lt_of_lt_of_le (Nat.two_pow_pos _) hv.pow_le
  rw [hinv.avail_eq] at hpos
  obtain ⟨c, cs, hbuf⟩ := hinv.buf_ok hpos
  have hQ : (rest enc.stepBits X).length < enc.stepBits := by
    rw [length_rest]; exact Nat.mod_lt _ hs0
  have ho := chainOff_lt hv ((groups enc.stepBits X).map valOf) 0 hsize (groups_val_lt _ _)
  have hadd := add_ok hv (rest enc.stepBits X) (le_of_lt hQ)
    (chainOff enc 0 ((groups enc.stepBits X).map valOf)) ho [] c []
  simp only [List.nil_append, List.length_nil] at hadd
  have hvlt : valOf (rest enc.stepBits X ++
      List.replicate (enc.stepBits - (rest enc.stepBits X).length) false) <
      2 ^ enc.stepBits := by
    have := valOf_lt (rest enc.stepBits X ++
      List.replicate (enc.stepBits - (rest enc.stepBits X).length) false)
    simp only [List.length_append, List.length_replicate] at this
    rwa [Nat.add_sub_cancel' (le_of_lt hQ)] at this
  have hval : valOf (rest enc.stepBits X ++
      List.replicate (enc.stepBits - (rest enc.stepBits X).length) false) =
      valOf (rest enc.stepBits X) <<< (enc.stepBits - (rest enc.stepBits X).length) := by
    rw [valOf_append, valOf_replicate_false, List.length_replicate, Nat.add_zero,
      Nat.shiftLeft_eq]
  rw [emitPos_eq_mod hv _ _ hvlt ho, hval] at hadd
  simp only [writer.Close, hbuf, hinv.avail_eq, hinv.index_eq, hinv.offset_eq, if_pos hpos,
    List.take_succ_cons, List.take_zero, hadd]
  exact ⟨_, rfl, rfl, rfl⟩

/-- C13: for every writer state reached by `Write` calls, `Close` forwards
exactly one word to the sink when `availBits > 0`, the word at position
`((index << (stepBits - availBits)) + offset) mod N` of the dictionary, that
is the pending bits followed by zero padding bits, plus the running offset;
it forwards nothing and changes nothing when `availBits = 0`. -/
theorem C13_close_flush [Inhabited Word] (dict : List Word) (enc : Encoding Word)
    (ps : List (List (Fin 256)))
    (hlen : dict.length < 2 ^ 63) (henc : NewEncoding dict = some enc) :
    ∃ w, writeChunks enc NewWriter ps = .ok w ∧ w.availBits < enc.stepBits ∧
      (w.availBits = 0 → writer.Close enc w = .ok w) ∧
      (0 < w.availBits → ∃ w' sym, writer.Close enc w = .ok w' ∧
        w'.sink = w.sink ++ [sym] ∧
        enc.dict[((w.index <<< (enc.stepBits - w.availBits)) + w.offset) % enc.size]? =
          some sym) := by
  obtain ⟨hv, _⟩ := NewEncoding_valid dict enc hlen henc
  have hsize : 0 < enc.size := lt_of_lt_of_le (Nat.two_pow_pos _) hv.pow_le
  obtain ⟨w, h1, hinv⟩ := writeChunks_ok hv ps NewWriter [] WInv_new
  refine ⟨w, h1, ?_, Close_idle w, ?_⟩
  · rw [hinv.avail_eq, length_rest]; exact Nat.mod_lt _ hv.step_pos
  · intro hpos
    obtain ⟨w', k1, _, k3⟩ := Close_pending hv w _ hinv hpos
    exact ⟨w', _, k1, k3, (getElem?_symAt hv _ (Nat.mod_lt _ hsize))⟩

/-- Witness of C13: one byte written to a dictionary of nine words leaves two
bits pending. -/
theorem C13_close_flush_witness :
    NewEncoding dict9 = some enc9 ∧
    ∃ w, writeChunks enc9 NewWriter [[255]] = .ok w ∧ w.availBits < enc9.stepBits ∧
      (w.availBits = 0 → writer.Close enc9 w = .ok w) ∧
      (0 < w.availBits → ∃ w' sym, writer.Close enc9 w = .ok w' ∧
        w'.sink = w.sink ++ [sym] ∧
        enc9.dict[((w.index <<< (enc9.stepBits - w.availBits)) + w.offset) % enc9.size]? =
          some sym) :=
  ⟨by decide, C13_close_flush dict9 enc9 [[255]] (by decide) (by decide)⟩

/-- C14 (as amended): calling `Close` twice in a row emits the final padded
word once. The first call emits it when bits are pending and leaves
`availBits = 0`; the second call emits nothing and changes nothing. When no
bits are pending neither call emits anything. -/
theorem C14_double_close [Inhabited Word] (dict : List Word) (enc : Encoding Word)
    (ps : List (List (Fin 256)))
    (hlen : dict.length < 2 ^ 63) (henc : NewEncoding dict = some enc) :
    ∃ w w1, writeChunks enc NewWriter ps = .ok w ∧ writer.Close enc w = .ok w1 ∧
      writer.Close enc w1 = .ok w1 ∧
      (0 < w.availBits → ∃ sym, w1.sink = w.sink ++ [sym]) ∧
      (w.availBits = 0 → w1 = w) := by
  obtain ⟨hv, _⟩ := NewEncoding_valid dict enc hlen henc
  obtain ⟨w, h1, hinv⟩ := writeChunks_ok hv ps NewWriter [] WInv_new
  by_cases h0 : w.availBits = 0
  · exact ⟨w, w, h1, Close_idle w h0, Close_idle w h0, fun h => by omega, fun _ => rfl⟩
  · obtain ⟨w', k1, k2, k3⟩ := Close_pending hv w _ hinv (by omega)
    exact ⟨w, w', h1, k1, Close_idle w' k2, fun _ => ⟨_, k3⟩, fun h => absurd h h0⟩

/-- Witness of C14 (as amended), on a dictionary of nine words with two bits
pending. -/
theorem C14_double_close_witness :
    NewEncoding dict9 = some enc9 ∧
    ∃ w w1, writeChunks enc9 NewWriter [[255]] = .ok w ∧ writer.Close enc9 w = .ok w1 ∧
      writer.Close enc9 w1 = .ok w1 ∧
      (0 < w.availBits → ∃ sym, w1.sink = w.sink ++ [sym]) ∧
      (w.availBits = 0 → w1 = w) :=
  ⟨by decide, C14_double_close dict9 enc9 [[255]] (by decide) (by decide)⟩

end CloseTwice

/-- C14 as stated fails: on the eight words `0 .. 7` the byte `255` leaves two
bits pending; the first `Close` forwards the word `6` and the second `Close`
forwards nothing, so the sink holds `7, 7, 6` and no duplicate. -/
theorem C14_counterexample :
    NewEncoding dict8 = some enc8 ∧
    (writeChunks enc8 NewWriter [[255]]).toOption.map (fun w => (w.availBits, w.sink))
      = some (2, [7, 7]) ∧
    ((writeChunks enc8 NewWriter [[255]]).toOption.bind
      (fun w => (writer.Close enc8 w).toOption)).map (fun w => w.sink) = some [7, 7, 6] ∧
    (((writeChunks enc8 NewWriter [[255]]).toOption.bind
      (fun w => (writer.Close enc8 w).toOption)).bind
      (fun w => (writer.Close enc8 w).toOption)).map (fun w => w.sink) = some [7, 7, 6] := by
  decide

end Based

namespace Based

/-! ### One step of the carry chain -/

section Step
variable {Word : Type} [DecidableEq Word] {enc : Encoding Word}

theorem and_toggle_eq (hv : Valid enc) (e : Nat) (he : e < enc.size) :
    e &&& enc.offsetToggle = if enc.offsetToggle = 0 then 0 else e := by
  rcases hv.toggle with ⟨h, _⟩ | ⟨h, _⟩
  · rw [h, Nat.and_zero, if_pos rfl]
  · have hsz := hv.size_lt
    have h63 : (2:Nat) ^ 63 < 2 ^ 64 := by norm_num
    rw [h, Nat.and_pow_two_sub_one_eq_mod, Nat.mod_eq_of_lt (by omega), if_neg (by norm_num)]

/-- The emit step on a full group: `add` on a state with `availBits =
stepBits`. -/
theorem add_full [Inhabited Word] (hv : Valid enc) (st : EncState Word)
    (hvv : st.index < 2 ^ enc.stepBits) (ho : st.offset < enc.size)
    (ha : st.availBits = enc.stepBits) (hn : st.n < st.dst.length) :
    add enc st =
      .ok { dst := st.dst.set st.n (symAt enc ((st.index + st.offset) % enc.size)),
            index := 0,
            offset := (st.index + st.offset) % enc.size &&& enc.offsetToggle,
            availBits := 0, n := st.n + 1 } := by
  have hs := hv.step_lt
  have hpow := hv.pow_le
  have hsz := hv.size_lt
  have h64 : (2:Nat) ^ 64 = 2 ^ 63 + 2 ^ 63 := by norm_num
  have hshift : (st.index <<< sub8 enc.stepBits st.availBits) % 2 ^ 64 = st.index := by
    rw [ha, sub8_eq _ _ (le_refl _) (by omega), Nat.sub_self, Nat.shiftLeft_zero]
    exact Nat.mod_eq_of_lt (by omega)
  have hsum : (st.index + st.offset) % 2 ^ 64 = st.index + st.offset :=
    Nat.mod_eq_of_lt (by omega)
  have hidx : (if enc.size ≤ st.index + st.offset then sub64 (st.index + st.offset) enc.size
      else st.index + st.offset) = (st.index + st.offset) % enc.size := by
    rw [← emitPos_eq_mod hv _ _ hvv ho]
    unfold emitPos
    split
    · rw [sub64_eq _ _ (by assumption) (by omega)]
    · rfl
  have hsize : 0 < enc.size := by omega
  simp only [add, hshift, hsum, hidx, getElem?_symAt hv _ (Nat.mod_lt _ hsize), if_pos hn]

/-- C16: for every dictionary of size `N`, every running offset `o < N` and
every packed value `v < 2 ^ stepBits`, the emit step `add` writes the word at
position `e = (v + o) mod N`; the offset subtraction of the decoder, `e - o`
when `o <= e` and `N - (o - e)` otherwise, gives back `v`, so that `decode`
on that word with running offset `o` unpacks exactly `v`; and both sides
leave the same next offset, `e` when carry mode is on and `0` when it is
off. -/
theorem C16_decode_step_inverts_encode_step [Inhabited Word] (dict : List Word)
    (enc : Encoding Word) (st : EncState Word) (ds : DecState) (i : Nat)
    (hlen : dict.length < 2 ^ 63) (henc : NewEncoding dict = some enc)
    (hvv : st.index < 2 ^ enc.stepBits) (ho : st.offset < enc.size)
    (ha : st.availBits = enc.stepBits) (hn : st.n < st.dst.length)
    (hds : ds.offset = st.offset) :
    (st.index + st.offset) % enc.size < enc.size ∧
    (if st.offset ≤ (st.index + st.offset) % enc.size
      then (st.index + st.offset) % enc.size - st.offset
      else enc.size - (st.offset - (st.index + st.offset) % enc.size)) = st.index ∧
    ∃ st' w, add enc st = .ok st' ∧
      enc.dict[(st.index + st.offset) % enc.size]? = some w ∧
      st'.dst[st.n]? = some w ∧
      st'.offset = (if enc.offsetToggle = 0 then 0 else (st.index + st.offset) % enc.size) ∧
      decodeLoop enc [w] i ds =
        match decodeWord (enc.stepBits + 1) st.index enc.stepBits ds with
        | .error f => .error f
        | .ok ds' =>
          .ok ({ ds' with
                 offset := if enc.offsetToggle = 0 then 0
                   else (st.index + st.offset) % enc.size }, none) := by
  obtain ⟨hv, _⟩ := NewEncoding_valid dict enc hlen henc
  have hpow := hv.pow_le
  have hsz := hv.size_lt
  have h64 : (2:Nat) ^ 64 = 2 ^ 63 + 2 ^ 63 := by norm_num
  have hsize : 0 < enc.size := by omega
  have he : (st.index + st.offset) % enc.size < enc.size := Nat.mod_lt _ hsize
  have hval := value_emitPos hv st.index st.offset hvv ho
  rw [emitPos_eq_mod hv _ _ hvv ho] at hval
  have hplain : (if st.offset ≤ (st.index + st.offset) % enc.size
      then (st.index + st.offset) % enc.size - st.offset
      else enc.size - (st.offset - (st.index + st.offset) % enc.size)) = st.index := by
    by_cases hc : st.offset ≤ (st.index + st.offset) % enc.size
    · rw [if_pos hc] at hval ⊢
      rwa [sub64_eq _ _ hc (by omega)] at hval
    · rw [if_neg hc] at hval ⊢
      have h1 : sub64 st.offset ((st.index + st.offset) % enc.size) =
          st.offset - (st.index + st.offset) % enc.size := sub64_eq _ _ (by omega) (by omega)
      rwa [h1, sub64_eq _ _ (by omega) (by omega)] at hval
  refine ⟨he, hplain, _, symAt enc ((st.index + st.offset) % enc.size),
    add_full hv st hvv ho ha hn, getElem?_symAt hv _ he, ?_, and_toggle_eq hv _ he, ?_⟩
  · simp [hn]
  · rw [decodeLoop]
    simp only [mapGet_symAt hv _ he, hds, hval, and_toggle_eq hv _ he]
    cases decodeWord (enc.stepBits + 1) st.index enc.stepBits ds with
    | error f => rfl
    | ok ds' => simp [decodeLoop]

end Step

/-- Witness of C16, on a dictionary of nine words: value `6` under offset
`5` is emitted at position `2`. -/
theorem C16_decode_step_inverts_encode_step_witness :
    NewEncoding dict9 = some enc9 ∧
    ∃ st' w, add enc9 { dst := [0], index := 6, offset := 5, availBits := 3, n := 0 }
        = .ok st' ∧
      enc9.dict[(6 + 5) % enc9.size]? = some w ∧
      st'.dst[0]? = some w ∧
      st'.offset = (if enc9.offsetToggle = 0 then 0 else (6 + 5) % enc9.size) :=
  ⟨by decide,
   let ⟨st', w, h1, h2, h3, h4, _⟩ := (C16_decode_step_inverts_encode_step dict9 enc9
      { dst := [0], index := 6, offset := 5, availBits := 3, n := 0 }
      { dst := [], offset := 5, partialByte := 0, partialBits := 0, n := 0 } 0
      (by decide) (by decide) (by decide) (by decide) (by decide) (by decide) (by decide)).2.2
   ⟨st', w, h1, h2, h3, h4⟩⟩

end Based

namespace Based

/-! ### Accounting of the engines -/

/-- C19: for every dictionary, every accumulator state with
`availBits = a < stepBits` and `index < 2 ^ a`, the running offset being
below `N` as in every state that `Encode` and `Write` hand to `encode`, and
every chunk of `n` bytes, `encode` (without the final flush) emits exactly
`floor((8 * n + a) / stepBits)` words and leaves
`availBits = (8 * n + a) mod stepBits` with `index < 2 ^ availBits` and
`offset < N`; the count does not exceed
`encodedLen(n, a) = ceil((8 * n + a) / stepBits)`, the length of the buffer
that `Write` reserves, so no write goes past that buffer. Every state reached
by `Write` calls on a new writer meets the three bounds. -/
theorem C19_encode_accounting {Word : Type} [DecidableEq Word] [Inhabited Word]
    (dict : List Word) (enc : Encoding Word) (src : List (Fin 256)) (dst : List Word)
    (index offset a : Nat)
    (hlen : dict.length < 2 ^ 63) (henc : NewEncoding dict = some enc)
    (ha : a < enc.stepBits) (hidx : index < 2 ^ a) (hoff : offset < enc.size)
    (hdst : dst.length = encodedLen enc src.length a) :
    encodedLen enc src.length a = (8 * src.length + a + enc.stepBits - 1) / enc.stepBits ∧
    (∃ st, encode enc dst src index offset a = .ok st ∧
      st.n = (8 * src.length + a) / enc.stepBits ∧
      st.n ≤ encodedLen enc src.length a ∧
      st.dst.length = dst.length ∧
      st.availBits = (8 * src.length + a) % enc.stepBits ∧
      st.index < 2 ^ st.availBits ∧
      st.offset < enc.size) ∧
    (∀ ps : List (List (Fin 256)), ∃ w, writeChunks enc NewWriter ps = .ok w ∧
      w.availBits < enc.stepBits ∧ w.index < 2 ^ w.availBits ∧ w.offset < enc.size) := by
  obtain ⟨hv, _⟩ := NewEncoding_valid dict enc hlen henc
  have hs0 := hv.step_pos
  have hP : valOf (bitsOf a index) = index := by
    rw [valOf_bitsOf, Nat.mod_eq_of_lt hidx]
  have hge := (encodedLen_ge hv src.length a).1
  have hcount : (groups enc.stepBits (bitsOf a index ++ bitString src)).length =
      (8 * src.length + a) / enc.stepBits := by
    rw [length_groups, List.length_append, length_bitsOf, length_bitString]
    congr 1; omega
  have hloop := encodeLoop_ok hv src (bitsOf a index) offset [] dst
    (by rw [length_bitsOf]; exact ha) hoff
    (by rw [hcount, hdst]; rw [Nat.mul_comm] at hge; exact hge)
  have he : encode enc dst src index offset a =
      encodeLoop enc src (encSt [] dst (bitsOf a index) offset) := by
    rw [encode, encSt, hP, length_bitsOf]; rfl
  refine ⟨?_, ?_, ?_⟩
  · have := ceil_div (src.length * 8 + a) enc.stepBits hs0
    rw [encodedLen, this, Nat.mul_comm]
  · refine ⟨_, by rw [he, hloop], ?_, ?_, ?_, ?_, ?_, ?_⟩
    · simp only [encAfter, encSt, List.nil_append, length_emitted, hcount]
    · simp only [encAfter, encSt, List.nil_append, length_emitted, hcount]
      rw [Nat.mul_comm] at hge; exact hge
    · simp only [encAfter, encSt, List.nil_append, List.length_append, length_emitted,
        List.length_drop]
      have : (groups enc.stepBits (bitsOf a index ++ bitString src)).length ≤ dst.length := by
        rw [hcount, hdst]; rw [Nat.mul_comm] at hge; exact hge
      omega
    · simp only [encAfter, encSt, length_rest, List.length_append, length_bitsOf,
        length_bitString]
      congr 1; omega
    · simp only [encAfter, encSt]
      exact valOf_lt _
    · simp only [encAfter, encSt]
      exact chainOff_lt hv _ offset hoff (groups_val_lt _ _)
  · intro ps
    obtain ⟨w, h1, hinv⟩ := writeChunks_ok hv ps NewWriter [] WInv_new
    refine ⟨w, h1, ?_, ?_, ?_⟩
    · rw [hinv.avail_eq, length_rest]; exact Nat.mod_lt _ hs0
    · rw [hinv.index_eq, hinv.avail_eq]; exact valOf_lt _
    · rw [hinv.offset_eq]
      exact chainOff_lt hv _ 0 (lt_of_lt_of_le (Nat.two_pow_pos _) hv.pow_le)
        (groups_val_lt _ _)

/-- Witness of C19: one byte more on two pending bits, on a dictionary of
nine words; the state is the one a writer holds after the byte `255`. -/
theorem C19_encode_accounting_witness :
    NewEncoding dict9 = some enc9 ∧
    (writeChunks enc9 NewWriter [[255]]).toOption.map
      (fun w => (w.index, w.offset, w.availBits)) = some (3, 5, 2) ∧
    encodedLen enc9 [129].length 2 = (8 * [129].length + 2 + enc9.stepBits - 1) / enc9.stepBits ∧
    (∃ st, encode enc9 [0, 0, 0, 0] [129] 3 5 2 = .ok st ∧
      st.n = (8 * [129].length + 2) / enc9.stepBits ∧
      st.n ≤ encodedLen enc9 [129].length 2 ∧
      st.dst.length = [0, 0, 0, 0].length ∧
      st.availBits = (8 * [129].length + 2) % enc9.stepBits ∧
      st.index < 2 ^ st.availBits ∧
      st.offset < enc9.size) ∧
    (∀ ps : List (List (Fin 256)), ∃ w, writeChunks enc9 NewWriter ps = .ok w ∧
      w.availBits < enc9.stepBits ∧ w.index < 2 ^ w.availBits ∧ w.offset < enc9.size) :=
  ⟨by decide, by decide,
   C19_encode_accounting dict9 enc9 [129] [0, 0, 0, 0] 3 5 2 (by decide) (by decide)
     (by decide) (by decide) (by decide) (by decide)⟩

end Based

namespace Based

theorem request_bits (s L pb k : Nat) (hs0 : 0 < s) (hs : s ≤ 8) (hpb : pb < 8)
    (hk : k ≤ (if 0 < (L * 8 + s - 1) / s ∧ 0 < pb then (L * 8 + s - 1) / s - 1
      else (L * 8 + s - 1) / s)) :
    (pb + k * s) / 8 ≤ L := by
  have hn := Nat.div_mul_le_self (L * 8 + s - 1) s
  generalize (L * 8 + s - 1) / s = n at hk hn
  by_cases hc : 0 < n ∧ 0 < pb
  · rw [if_pos hc] at hk
    have h1 : k * s ≤ (n - 1) * s := Nat.mul_le_mul_right s hk
    have h2 : (n - 1) * s + s = n * s := by
      rw [← Nat.succ_mul]; congr 1; omega
    omega
  · rw [if_neg hc] at hk
    have h1 : k * s ≤ n * s := Nat.mul_le_mul_right s hk
    rcases Nat.eq_zero_or_pos n with h0 | h0
    · subst h0
      have : k * s = 0 := by omega
      omega
    · have : pb = 0 := by
        by_contra h; exact hc ⟨h0, by omega⟩
      omega

/-- C20: for every dictionary with `stepBits <= 8`, every reader state with
`partialBits < 8` and every caller buffer of `L` bytes, when the source
delivers without error at most the number of words `Read` requests,
`ceil(8 * L / stepBits)` less one when that is positive and
`partialBits > 0`, `decode` completes at most `L` bytes: `Read` does not write
past the caller's buffer and the byte count it returns is at most `L`. -/
theorem C20_reader_buffer_safety {Word : Type} [DecidableEq Word]
    (dict : List Word) (enc : Encoding Word) (r : reader) (p : List (Fin 256))
    (source : Nat → List Word × Bool)
    (hlen : dict.length < 2 ^ 63) (henc : NewEncoding dict = some enc)
    (hs : enc.stepBits ≤ 8) (hpb : r.partialBits < 8)
    (hok : (source (reader.request enc r p.length)).2 = false)
    (hgot : (source (reader.request enc r p.length)).1.length ≤
      reader.request enc r p.length) :
    reader.request enc r p.length =
      (if 0 < (8 * p.length + enc.stepBits - 1) / enc.stepBits ∧ 0 < r.partialBits
        then (8 * p.length + enc.stepBits - 1) / enc.stepBits - 1
        else (8 * p.length + enc.stepBits - 1) / enc.stepBits) ∧
    ∃ r' p' n err, reader.Read enc r p source = .ok (r', p', n, err) ∧
      n ≤ p.length ∧ p'.length = p.length ∧ r'.partialBits < 8 := by
  obtain ⟨hv, _⟩ := NewEncoding_valid dict enc hlen henc
  have hs0 := hv.step_pos
  have hreq : reader.request enc r p.length =
      (if 0 < (p.length * 8 + enc.stepBits - 1) / enc.stepBits ∧ 0 < r.partialBits
        then (p.length * 8 + enc.stepBits - 1) / enc.stepBits - 1
        else (p.length * 8 + enc.stepBits - 1) / enc.stepBits) := by
    have := ceil_div (p.length * 8 + 0) enc.stepBits hs0
    rw [reader.request, encodedLen, this, Nat.add_zero]
  constructor
  · rw [hreq, Nat.mul_comm]
  · simp only [reader.Read, reader.decodeGot]
    generalize source (reader.request enc r p.length) = sg at hok hgot ⊢
    rw [hreq] at hgot
    have hbits := request_bits enc.stepBits p.length r.partialBits sg.1.length hs0 hs hpb hgot
    obtain ⟨u1, u2⟩ := unpack_length_le (by omega : enc.stepBits < 256) sg.1 0 r hpb
    have hcap : (unpack enc sg.1 0 r).1.length ≤ p.length := le_trans u1 hbits
    have hloop := decodeLoop_eq (by omega : enc.stepBits < 256) sg.1 0 r [] p hpb hcap
    have hd : decode enc p sg.1 r.offset r.partialByte r.partialBits =
        decodeLoop enc sg.1 0 (decSt [] p r) := rfl
    simp only [hok, hd, hloop, Bool.false_eq_true, if_false]
    refine ⟨_, _, _, _, rfl, ?_, ?_, ?_⟩
    · simpa [decSt] using hcap
    · simp only [decSt, List.nil_append, List.length_append, List.length_drop]
      omega
    · simpa [decSt] using u2

/-- Witness of C20: a buffer of two bytes and three bits pending, on a
dictionary of nine words; the source delivers the five words requested. -/
theorem C20_reader_buffer_safety_witness :
    NewEncoding dict9 = some enc9 ∧
    ∃ r' p' n err,
      reader.Read enc9 { offset := 4, partialByte := 5, partialBits := 3 } [0, 0]
        (fun n => ((List.replicate 9 8).take n, false)) = .ok (r', p', n, err) ∧
      n ≤ [(0 : Fin 256), 0].length ∧ p'.length = [(0 : Fin 256), 0].length ∧
      r'.partialBits < 8 :=
  ⟨by decide,
   (C20_reader_buffer_safety dict9 enc9 { offset := 4, partialByte := 5, partialBits := 3 }
      [0, 0] (fun n => ((List.replicate 9 8).take n, false))
      (by decide) (by decide) (by decide) (by decide) (by decide) (by decide)).2⟩

end Based

namespace Based

/-! ### The carry chain -/

section Chain
variable {Word : Type} [DecidableEq Word] {enc : Encoding Word}

omit [DecidableEq Word] in
theorem chainAt_succ (g : Nat → Nat) (o : Nat) : ∀ i,
    chainAt enc g o (i + 1) =
      chainAt enc (g ∘ Nat.succ) (emitPos enc (g 0) o &&& enc.offsetToggle) i
  | 0 => rfl
  | i + 1 => by
    rw [chainAt, chainAt_succ g o i]
    rfl

omit [DecidableEq Word] in
theorem chainPos_range : ∀ (n : Nat) (g : Nat → Nat) (o : Nat),
    chainPos enc o ((List.range n).map g) = (List.range n).map (chainAt enc g o)
  | 0, _, _ => rfl
  | n + 1, g, o => by
    rw [List.range_succ_eq_map, List.map_cons, List.map_map, chainPos,
      chainPos_range n (g ∘ Nat.succ), List.map_cons, List.map_map]
    congr 1
    apply List.map_congr_left
    intro i _
    exact (chainAt_succ g o i).symm

theorem chainAt_eq_carryRef (hv : Valid enc) (x : List (Fin 256)) : ∀ i,
    chainAt enc (groupValue enc.stepBits x) 0 i = carryRef enc x i ∧
    carryRef enc x i < enc.size
  | 0 => by
    have hsize : 0 < enc.size := lt_of_lt_of_le (Nat.two_pow_pos _) hv.pow_le
    have hg := groupValue_lt enc.stepBits x 0
    have hpow := hv.pow_le
    rw [chainAt, carryRef, emitPos_eq_mod hv _ _ hg hsize, Nat.add_zero,
      Nat.mod_eq_of_lt (by omega)]
    exact ⟨rfl, by omega⟩
  | i + 1 => by
    have hsize : 0 < enc.size := lt_of_lt_of_le (Nat.two_pow_pos _) hv.pow_le
    obtain ⟨ih1, ih2⟩ := chainAt_eq_carryRef hv x i
    have hg := groupValue_lt enc.stepBits x (i + 1)
    have ho : (if enc.offsetToggle = 0 then 0 else carryRef enc x i) < enc.size := by
      split
      · exact hsize
      · exact ih2
    rw [chainAt, carryRef, ih1, and_toggle_eq hv _ ih2, emitPos_eq_mod hv _ _ hg ho]
    exact ⟨rfl, Nat.mod_lt _ hsize⟩

theorem encodeSpec_eq_carryRef [Inhabited Word] (hv : Valid enc) (x : List (Fin 256)) :
    encodeSpec enc x =
      (List.range (EncodedLen enc x.length)).map (fun i => symAt enc (carryRef enc x i)) := by
  have hl := length_encodeSpec hv x
  rw [encodeSpec, length_emitted, length_groups] at hl
  rw [encodeSpec, emitted, groups, chunks_eq_map_range, List.map_map, hl]
  have hfun : (valOf ∘ fun i =>
      List.take enc.stepBits (List.drop (i * enc.stepBits)
        (padBits enc.stepBits (bitString x)))) = groupValue enc.stepBits x := rfl
  rw [hfun, chainPos_range, List.map_map]
  apply List.map_congr_left
  intro i _
  simp only [Function.comp, (chainAt_eq_carryRef hv x i).1]

/-- C15: for every dictionary of size `N` and every byte sequence `x`, with
`g_0 .. g_(M-1)` the groups of `stepBits` bits of the bit string of `x` padded
with zero bits to a multiple of `stepBits`, `Encode` writes the words
`dict[e_i]` where `e_0 = g_0` and `e_i = (g_i + o_i) mod N`, `o_i = e_(i-1)`
when carry mode is on and `o_i = 0` when it is off; every `e_i` is below `N`,
so every dictionary lookup is in range. -/
theorem C15_carry_chain [Inhabited Word] (dict : List Word) (enc : Encoding Word)
    (x : List (Fin 256)) (dst : List Word)
    (hlen : dict.length < 2 ^ 63) (henc : NewEncoding dict = some enc)
    (hdst : EncodedLen enc x.length ≤ dst.length) :
    ∃ s, Encode enc dst x = .ok (s ++ dst.drop (EncodedLen enc x.length)) ∧
      s.length = EncodedLen enc x.length ∧
      carryRef enc x 0 = groupValue enc.stepBits x 0 ∧
      (∀ i, carryRef enc x (i + 1) =
        (groupValue enc.stepBits x (i + 1) +
          (if enc.offsetToggle = 0 then 0 else carryRef enc x i)) % dict.length) ∧
      ∀ i, i < s.length → carryRef enc x i < dict.length ∧ s[i]? = dict[carryRef enc x i]? := by
  obtain ⟨hv, hd⟩ := NewEncoding_valid dict enc hlen henc
  have hsz : enc.size = dict.length := by rw [hv.size_eq, hd]
  have hspec := encodeSpec_eq_carryRef hv x
  refine ⟨encodeSpec enc x, Encode_ok hv dst x hdst, length_encodeSpec hv x, rfl, ?_, ?_⟩
  · intro i; rw [← hsz]; rfl
  · intro i hi
    have hlt := (chainAt_eq_carryRef hv x i).2
    rw [length_encodeSpec hv] at hi
    refine ⟨by rw [← hsz]; exact hlt, ?_⟩
    rw [hspec, List.getElem?_map, List.getElem?_range hi, Option.map_some', ← hd,
      getElem?_symAt hv _ hlt]

end Chain

/-- Witness of C15: two bytes on a dictionary of nine words, with carry. -/
theorem C15_carry_chain_witness :
    NewEncoding dict9 = some enc9 ∧
    ∃ s, Encode enc9 (List.replicate 6 0) [200, 77] =
        .ok (s ++ List.drop (EncodedLen enc9 [200, 77].length) (List.replicate 6 0)) ∧
      s.length = EncodedLen enc9 [200, 77].length ∧
      ∀ i, i < s.length →
        carryRef enc9 [200, 77] i < dict9.length ∧ s[i]? = dict9[carryRef enc9 [200, 77] i]? :=
  ⟨by decide,
   let ⟨s, h1, h2, _, _, h5⟩ := C15_carry_chain dict9 enc9 [200, 77] (List.replicate 6 0)
      (by decide) (by decide) (by decide)
   ⟨s, h1, h2, h5⟩⟩

end Based

namespace Based

/-! ### Use of the whole alphabet -/

theorem bits8_toByte (g : List Bool) (hg : g.length = 8) : bitsOf 8 (toByte g).val = g := by
  have h := valOf_lt g
  rw [hg] at h
  have : (toByte g).val = valOf g := by
    simp only [toByte, Fin.ofNat, Nat.succ_eq_add_one]
    exact Nat.mod_eq_of_lt h
  rw [this, ← hg, bitsOf_valOf]

theorem bitString_map_toByte (G : List (List Bool)) (hG : ∀ g ∈ G, g.length = 8) :
    bitString (G.map toByte) = G.flatten := by
  induction G with
  | nil => rfl
  | cons g G ih =>
    rw [List.map_cons, bitString_cons, bits8_toByte g (hG g (by simp)),
      ih (fun g' hg' => hG g' (by simp [hg'])), List.flatten_cons]

theorem bitString_bytesOf (L : List Bool) : bitString (bytesOf L) = padBits 8 L := by
  rw [bytesOf, bitString_map_toByte _ (fun g hg => mem_groups_length 8 _ g hg),
    flatten_groups_padBits 8 (by norm_num)]

section Alphabet
variable {Word : Type} [DecidableEq Word] [Inhabited Word] {enc : Encoding Word}

/-- The first two words of the encoding of bytes whose bits start with the
groups of `g0` and `g1`. -/
theorem encodeSpec_two (hv : Valid enc) (g0 g1 : Nat) :
    ∃ tl, encodeSpec enc (bytesOf (bitsOf enc.stepBits g0 ++ bitsOf enc.stepBits g1)) =
      symAt enc (emitPos enc (valOf (bitsOf enc.stepBits g0)) 0) ::
      symAt enc (emitPos enc (valOf (bitsOf enc.stepBits g1))
        (emitPos enc (valOf (bitsOf enc.stepBits g0)) 0 &&& enc.offsetToggle)) :: tl := by
  have hs0 := hv.step_pos
  rw [encodeSpec, bitString_bytesOf]
  have e : padBits enc.stepBits
      (padBits 8 (bitsOf enc.stepBits g0 ++ bitsOf enc.stepBits g1)) =
      bitsOf enc.stepBits g0 ++ (bitsOf enc.stepBits g1 ++
        (List.replicate ((8 - (bitsOf enc.stepBits g0 ++ bitsOf enc.stepBits g1).length % 8) % 8)
            false ++
          List.replicate ((enc.stepBits -
            (padBits 8 (bitsOf enc.stepBits g0 ++ bitsOf enc.stepBits g1)).length
              % enc.stepBits) % enc.stepBits) false)) := by
    simp only [padBits, List.append_assoc]
  rw [e, groups_append _ hs0 _ _ (length_bitsOf _ _), groups_append _ hs0 _ _ (length_bitsOf _ _)]
  simp only [emitted, List.map_cons, chainPos]
  exact ⟨_, rfl⟩

/-- C18: for every dictionary of size `N >= 2`, a power of two or not, and
every position `j < N`, there is a byte sequence whose encoding contains the
word `dict[j]`. -/
theorem C18_full_alphabet (dict : List Word) (enc : Encoding Word) (j : Nat)
    (hlen : dict.length < 2 ^ 63) (henc : NewEncoding dict = some enc)
    (hj : j < dict.length) :
    ∃ x syms, AppendEncode enc [] x = .ok syms ∧ dict.get ⟨j, hj⟩ ∈ syms := by
  obtain ⟨hv, hd⟩ := NewEncoding_valid dict enc hlen henc
  have hsz : enc.size = dict.length := by rw [hv.size_eq, hd]
  have hpow := hv.pow_le
  have hsize : 0 < enc.size := lt_of_lt_of_le (Nat.two_pow_pos _) hpow
  have hsym : symAt enc j = dict.get ⟨j, hj⟩ := by
    rw [symAt, hd, List.getD_eq_getElem _ _ hj]; rfl
  by_cases hsmall : j < 2 ^ enc.stepBits
  · -- the first group is `j`
    obtain ⟨tl, htl⟩ := encodeSpec_two hv j 0
    rw [valOf_bitsOf, Nat.mod_eq_of_lt hsmall, emitPos_eq_mod hv _ _ hsmall hsize,
      Nat.add_zero, Nat.mod_eq_of_lt (by omega), hsym] at htl
    refine ⟨bytesOf (bitsOf enc.stepBits j ++ bitsOf enc.stepBits 0), _,
      by simpa using AppendEncode_ok hv [] _, ?_⟩
    rw [htl]; simp
  · -- the first group is all ones and the second makes up the difference
    have hcarry : enc.offsetToggle ≠ 0 := by
      intro h0
      rcases hv.toggle with ⟨_, h⟩ | ⟨h, _, _⟩
      · omega
      · rw [h0] at h; exact absurd h (by norm_num)
    have hlt := hv.size_lt_pow
    rw [pow_succ] at hlt
    have hp0 : 0 < 2 ^ enc.stepBits := Nat.two_pow_pos _
    have hg0 : 2 ^ enc.stepBits - 1 < 2 ^ enc.stepBits := by omega
    have hg1 : j - (2 ^ enc.stepBits - 1) < 2 ^ enc.stepBits := by omega
    obtain ⟨tl, htl⟩ := encodeSpec_two hv (2 ^ enc.stepBits - 1) (j - (2 ^ enc.stepBits - 1))
    have he0 : emitPos enc (2 ^ enc.stepBits - 1) 0 = 2 ^ enc.stepBits - 1 := by
      rw [emitPos_eq_mod hv _ _ hg0 hsize, Nat.add_zero, Nat.mod_eq_of_lt (by omega)]
    have ht : (2 ^ enc.stepBits - 1) &&& enc.offsetToggle = 2 ^ enc.stepBits - 1 := by
      rw [and_toggle_eq hv _ (by omega), if_neg hcarry]
    have he1 : emitPos enc (j - (2 ^ enc.stepBits - 1)) (2 ^ enc.stepBits - 1) = j := by
      rw [emitPos_eq_mod hv _ _ hg1 (by omega)]
      have : j - (2 ^ enc.stepBits - 1) + (2 ^ enc.stepBits - 1) = j := by omega
      rw [this, Nat.mod_eq_of_lt (by omega)]
    rw [valOf_bitsOf, valOf_bitsOf, Nat.mod_eq_of_lt hg0, Nat.mod_eq_of_lt hg1, he0, ht, he1,
      hsym] at htl
    refine ⟨bytesOf (bitsOf enc.stepBits (2 ^ enc.stepBits - 1) ++
        bitsOf enc.stepBits (j - (2 ^ enc.stepBits - 1))), _,
      by simpa using AppendEncode_ok hv [] _, ?_⟩
    rw [htl]; simp

end Alphabet

/-- Witness of C18: the last of nine words, which no group of three bits
names, is reached through the carry. -/
theorem C18_full_alphabet_witness :
    NewEncoding dict9 = some enc9 ∧
    ∃ x syms, AppendEncode enc9 [] x = .ok syms ∧
      dict9.get ⟨8, by decide⟩ ∈ syms :=
  ⟨by decide, C18_full_alphabet dict9 enc9 8 (by decide) (by decide) (by decide)⟩

end Based


namespace Based

/-! ### Canonical decoding -/

theorem valOf_eq_zero (l : List Bool) (h : valOf l = 0) : l = List.replicate l.length false :=
  valOf_inj _ _ (by simp) (by rw [h, valOf_replicate_false])

theorem groups_flatMap_bitsOf (s : Nat) (hs : 0 < s) (vs : List Nat) :
    groups s (vs.flatMap (bitsOf s)) = vs.map (bitsOf s) := by
  induction vs with
  | nil => exact groups_short s [] (by simpa using hs)
  | cons v vs ih =>
    rw [List.flatMap_cons, groups_append s hs _ _ (length_bitsOf _ _), ih, List.map_cons]

theorem length_flatMap_bitsOf (s : Nat) (vs : List Nat) :
    (vs.flatMap (bitsOf s)).length = vs.length * s := by
  induction vs with
  | nil => simp
  | cons v vs ih =>
    rw [List.flatMap_cons, List.length_append, ih, length_bitsOf, List.length_cons,
      Nat.succ_mul, Nat.add_comm]

/-- The padding that `padBits` adds to `8 * n` bits is what is left of the
`M` groups, when `M` is the encoded length of `n` bytes. -/
theorem pad_eq (s n M m : Nat) (hs : 0 < s)
    (hM : M = if n * 8 % s = 0 then n * 8 / s else n * 8 / s + 1)
    (hm : M * s = n * 8 + m) : (s - n * 8 % s) % s = m := by
  have hdm := Nat.div_add_mod (n * 8) s
  have hlt := Nat.mod_lt (n * 8) hs
  generalize n * 8 % s = t at hM hdm hlt
  generalize n * 8 / s = q at hM hdm
  by_cases h0 : t = 0
  · rw [if_pos h0] at hM
    subst hM h0
    rw [Nat.sub_zero, Nat.mod_self]
    rw [Nat.mul_comm] at hm
    omega
  · rw [if_neg h0] at hM
    subst hM
    rw [Nat.succ_mul, Nat.mul_comm] at hm
    rw [Nat.mod_eq_of_lt (by omega)]
    omega

section Canonical
variable {Word : Type} [DecidableEq Word] {enc : Encoding Word}

theorem emitPos_value (hv : Valid enc) (o k : Nat) (ho : o < enc.size) (hk : k < enc.size) :
    emitPos enc (if o ≤ k then sub64 k o else sub64 enc.size (sub64 o k)) o = k := by
  have hsz := hv.size_lt
  have h64 : (2:Nat) ^ 64 = 2 ^ 63 + 2 ^ 63 := by norm_num
  by_cases hc : o ≤ k
  · rw [if_pos hc, sub64_eq _ _ hc (by omega)]
    unfold emitPos
    rw [if_neg (by omega)]
    omega
  · have h1 : sub64 o k = o - k := sub64_eq _ _ (by omega) (by omega)
    rw [if_neg hc, h1, sub64_eq _ _ (by omega) (by omega)]
    unfold emitPos
    rw [if_pos (by omega)]
    omega

/-- Words whose recovered values fit in `stepBits` bits are the carry chain
of those values. -/
theorem chain_recovered [Inhabited Word] (hv : Valid enc) :
    ∀ (src : List Word) (o : Nat), o < enc.size → (∀ w ∈ src, w ∈ enc.dict) →
      (chainPos enc o (recovered enc o src)).map (symAt enc) = src
  | [], _, _, _ => rfl
  | w :: src, o, ho, hmem => by
    obtain ⟨k, hk, hklt⟩ := mapGet_of_mem hv w (hmem w (by simp))
    have hw : symAt enc k = w := by
      have h1 := (hv.idx_get w k).1 hk
      rw [getElem?_symAt hv k hklt] at h1
      exact Option.some.inj h1
    rw [recovered]
    simp only [hk, chainPos, List.map_cons, emitPos_value hv o k ho hklt, hw]
    rw [chain_recovered hv src _ (and_toggle_lt hv k hklt) (fun w' hw' => hmem w' (by simp [hw']))]

theorem recovered_no_carry (hv : Valid enc) (ht : enc.offsetToggle = 0) :
    ∀ (src : List Word), ∀ v ∈ recovered enc 0 src, v < 2 ^ enc.stepBits
  | [], v, h => by simp [recovered] at h
  | w :: src, v, h => by
    have hsz := hv.size_lt
    have hpw : enc.size = 2 ^ enc.stepBits := by
      rcases hv.toggle with ⟨_, h'⟩ | ⟨h', _, _⟩
      · exact h'
      · rw [ht] at h'; exact absurd h' (by norm_num)
    rw [recovered] at h
    cases hm : mapGet enc.idx w with
    | none => simp [hm] at h
    | some k =>
      have hk : k < enc.dict.length := by
        have h1 := (hv.idx_get w k).1 hm
        rcases Nat.lt_or_ge k enc.dict.length with hlt | hge
        · exact hlt
        · rw [List.getElem?_eq_none hge] at h1; exact absurd h1 (by simp)
      rw [← hv.size_eq] at hk
      simp only [hm, ht, Nat.and_zero, Nat.zero_le, if_true, List.mem_cons] at h
      have h64 : (2:Nat) ^ 64 = 2 ^ 63 + 2 ^ 63 := by norm_num
      rcases h with h | h
      · rw [h, sub64_eq _ _ (Nat.zero_le _) (by omega), Nat.sub_zero, ← hpw]; exact hk
      · exact recovered_no_carry hv ht src v h

/-- C17 (as amended): for every dictionary and every sequence `s` of
dictionary words whose length is a possible encoded length,
`len(s) = EncodedLen(DecodedLen(len(s)))`, and in which every value the
decoder recovers is below `2 ^ stepBits`, as it always is when carry mode is
off, if decoding `s` returns the bytes `x` with a nil error then the encoding
of `x` is `s`. -/
theorem C17_canonical_decoding [Inhabited Word] (dict : List Word) (enc : Encoding Word)
    (src : List Word) (x : List (Fin 256))
    (hlen : dict.length < 2 ^ 63) (henc : NewEncoding dict = some enc)
    (hmem : ∀ w ∈ src, w ∈ dict)
    (hcanon : enc.offsetToggle = 0 ∨ ∀ v ∈ recovered enc 0 src, v < 2 ^ enc.stepBits)
    (hM : src.length = EncodedLen enc (DecodedLen enc src.length))
    (hdec : AppendDecode enc [] src = .ok (x, none)) :
    AppendEncode enc [] x = .ok src := by
  obtain ⟨hv, hd⟩ := NewEncoding_valid dict enc hlen henc
  rw [← hd] at hmem
  have hs0 := hv.step_pos
  have hsize : 0 < enc.size := lt_of_lt_of_le (Nat.two_pow_pos _) hv.pow_le
  have hvs : ∀ v ∈ recovered enc 0 src, v < 2 ^ enc.stepBits := by
    rcases hcanon with h | h
    · exact recovered_no_carry hv h src
    · exact h
  have hchain := chain_recovered hv src 0 hsize hmem
  have hvl : (recovered enc 0 src).length = src.length := by
    have := congrArg List.length hchain
    rwa [List.length_map, length_chainPos] at this
  -- what decoding returns
  obtain ⟨k1, _, _, k4⟩ := Decode_known hv (List.replicate (DecodedLen enc src.length) 0) src
    hmem (by simp)
  rw [AppendDecode] at hdec
  simp only [k4, List.drop_replicate, List.length_replicate, Nat.sub_self, List.replicate_zero,
    List.append_nil, List.nil_append, Except.ok.injEq, Prod.mk.injEq] at hdec
  rw [← k1, List.take_length] at hdec
  obtain ⟨hx, hclose⟩ := hdec
  have hun := unpack_chain hv (recovered enc 0 src) 0 [] 0 hvs hsize (by simp)
  rw [hchain, List.nil_append] at hun
  have hu : unpack enc src 0 NewReader =
      unpack enc src 0 { offset := 0, partialByte := valOf [],
                         partialBits := ([] : List Bool).length } := rfl
  rw [hu, hun] at hx hclose
  simp only [] at hx hclose
  -- the bits left over are zero
  have hrest : valOf (rest 8 ((recovered enc 0 src).flatMap (bitsOf enc.stepBits))) = 0 := by
    by_contra hne
    have hpos : 0 < (rest 8 ((recovered enc 0 src).flatMap (bitsOf enc.stepBits))).length := by
      rcases Nat.eq_zero_or_pos
        (rest 8 ((recovered enc 0 src).flatMap (bitsOf enc.stepBits))).length with h0 | h0
      · rw [List.length_eq_zero.1 h0] at hne; exact absurd rfl hne
      · exact h0
    simp [reader.Close, hpos, hne] at hclose
  have hB := flatten_groups 8 (by norm_num) ((recovered enc 0 src).flatMap (bitsOf enc.stepBits))
  rw [valOf_eq_zero _ hrest, length_rest, length_flatMap_bitsOf, hvl] at hB
  have hbx : bitString x =
      (groups 8 ((recovered enc 0 src).flatMap (bitsOf enc.stepBits))).flatten := by
    rw [← hx, bitString_map_toByte _ (fun g hg => mem_groups_length 8 _ g hg)]
  have hxl : x.length = src.length * enc.stepBits / 8 := by
    rw [← hx, List.length_map, length_groups, length_flatMap_bitsOf, hvl]
  -- the padded bit string of `x` is the bit string of the recovered values
  have hpadlen := pad_eq enc.stepBits x.length src.length (src.length * enc.stepBits % 8) hs0
    (by rw [hM, EncodedLen, encodedLen, DecodedLen, ← hxl]; simp only [Nat.add_zero])
    (by rw [hxl]; have := Nat.div_add_mod (src.length * enc.stepBits) 8; omega)
  have hpad : padBits enc.stepBits (bitString x) =
      (recovered enc 0 src).flatMap (bitsOf enc.stepBits) := by
    rw [padBits, length_bitString, hpadlen, hbx]
    exact hB
  rw [AppendEncode_ok hv [] x, List.nil_append, encodeSpec, hpad,
    groups_flatMap_bitsOf _ hs0, emitted, List.map_map]
  have hid : (recovered enc 0 src).map (valOf ∘ bitsOf enc.stepBits) = recovered enc 0 src := by
    conv_rhs => rw [← List.map_id (recovered enc 0 src)]
    apply List.map_congr_left
    intro v hv'
    simp only [Function.comp, valOf_bitsOf, Nat.mod_eq_of_lt (hvs v hv'), id]
  rw [hid, hchain]

end Canonical

/-- Witness of C17 (as amended): the six words that encode `200, 77` on a
dictionary of nine words, with carry. -/
theorem C17_canonical_decoding_witness :
    NewEncoding dict9 = some enc9 ∧
    (∀ v ∈ recovered enc9 0 [6, 8, 8, 3, 0, 4], v < 2 ^ enc9.stepBits) ∧
    AppendDecode enc9 [] [6, 8, 8, 3, 0, 4] = .ok ([200, 77], none) ∧
    AppendEncode enc9 [] [200, 77] = .ok [6, 8, 8, 3, 0, 4] :=
  ⟨by decide, by decide, rfl,
   C17_canonical_decoding dict9 enc9 [6, 8, 8, 3, 0, 4] [200, 77] (by decide) (by decide)
     (by decide) (Or.inr (by decide)) (by decide) rfl⟩

/-- C17 as stated fails with carry mode on: on the three words `0, 1, 2`
(`stepBits = 1`) the eight words `2, 2, 2, 2, 2, 2, 2, 2` have a possible
encoded length and decode to the byte `0` with a nil error, the first
recovered value being `2`, which is not below `2 ^ stepBits`; the encoding of
the byte `0` is `0, 0, 0, 0, 0, 0, 0, 0`. -/
theorem C17_counterexample :
    NewEncoding dict3 = some enc3 ∧
    (∀ w ∈ [2, 2, 2, 2, 2, 2, 2, 2], w ∈ dict3) ∧
    [2, 2, 2, 2, 2, 2, 2, 2].length =
      EncodedLen enc3 (DecodedLen enc3 [2, 2, 2, 2, 2, 2, 2, 2].length) ∧
    recovered enc3 0 [2, 2, 2, 2, 2, 2, 2, 2] = [2, 0, 0, 0, 0, 0, 0, 0] ∧
    AppendDecode enc3 [] [2, 2, 2, 2, 2, 2, 2, 2] = .ok ([0], none) ∧
    AppendEncode enc3 [] [0] = .ok [0, 0, 0, 0, 0, 0, 0, 0] ∧
    AppendEncode enc3 [] [0] ≠ .ok [2, 2, 2, 2, 2, 2, 2, 2] :=
  ⟨by decide, by decide, by decide, by decide, rfl, rfl, by
    intro h
    have := Except.ok.inj h
    exact absurd this (by decide)⟩
end Based

namespace Based

/-! ### The bytes that decoding writes -/

section Written
variable {Word : Type} [DecidableEq Word] {enc : Encoding Word}

/-- On words of the dictionary whose recovered values fit in `stepBits` bits,
the loop of `decode` completes the groups of eight bits of the bit string of
the values and keeps the bits that are left. -/
theorem unpack_recovered [Inhabited Word] (hv : Valid enc) (src : List Word)
    (hmem : ∀ w ∈ src, w ∈ enc.dict)
    (hvs : ∀ v ∈ recovered enc 0 src, v < 2 ^ enc.stepBits) :
    unpack enc src 0 NewReader =
      ((groups 8 ((recovered enc 0 src).flatMap (bitsOf enc.stepBits))).map toByte,
        { offset := chainOff enc 0 (recovered enc 0 src),
          partialByte := valOf (rest 8 ((recovered enc 0 src).flatMap (bitsOf enc.stepBits))),
          partialBits := (rest 8 ((recovered enc 0 src).flatMap (bitsOf enc.stepBits))).length },
        none) := by
  have hsize : 0 < enc.size := lt_of_lt_of_le (Nat.two_pow_pos _) hv.pow_le
  have hun := unpack_chain hv (recovered enc 0 src) 0 [] 0 hvs hsize (by simp)
  rw [chain_recovered hv src 0 hsize hmem, List.nil_append] at hun
  exact hun

/-- The bit string of the completed bytes is the longest prefix of the bit
string of the values that is a whole number of bytes. -/
theorem bitString_groups_toByte (B : List Bool) :
    bitString ((groups 8 B).map toByte) = B.take (8 * (B.length / 8)) := by
  have hB := flatten_groups 8 (by norm_num) B
  have hb : bitString ((groups 8 B).map toByte) = (groups 8 B).flatten :=
    bitString_map_toByte _ (fun g hg => mem_groups_length 8 _ g hg)
  have hl : (bitString ((groups 8 B).map toByte)).length = 8 * (B.length / 8) := by
    rw [length_bitString, List.length_map, length_groups, Nat.mul_comm]
  rw [← hb] at hB
  have ht : B.take (8 * (B.length / 8)) =
      (bitString ((groups 8 B).map toByte) ++ rest 8 B).take
        (bitString ((groups 8 B).map toByte)).length := by rw [hB, hl]
  rw [ht, List.take_left]

end Written

/-- C7: for every dictionary and every sequence of `M` words of the
dictionary, `Decode` writes exactly `DecodedLen(M) = floor(M * stepBits / 8)`
bytes and returns `n = DecodedLen(M)`, whether its error is nil or the
trailing-bits error. The bytes written replace the first `n` cells of the
destination whatever it held: they are the bytes that `AppendDecode` returns,
with the same error, and when every value the decoder recovers is below
`2 ^ stepBits`, as it always is when carry mode is off, their bit string is
the first `8 * n` bits of the values written with `stepBits` bits each. -/
theorem C7_decode_length {Word : Type} [DecidableEq Word]
    (dict : List Word) (enc : Encoding Word) (src : List Word) (dst : List (Fin 256))
    (hlen : dict.length < 2 ^ 63) (henc : NewEncoding dict = some enc)
    (hmem : ∀ w ∈ src, w ∈ dict) (hdst : DecodedLen enc src.length ≤ dst.length) :
    DecodedLen enc src.length = src.length * enc.stepBits / 8 ∧
    ∃ out err, Decode enc dst src =
        .ok (out ++ dst.drop (DecodedLen enc src.length), DecodedLen enc src.length, err) ∧
      out.length = DecodedLen enc src.length ∧
      AppendDecode enc [] src = .ok (out, err) ∧
      ((enc.offsetToggle = 0 ∨ ∀ v ∈ recovered enc 0 src, v < 2 ^ enc.stepBits) →
        bitString out = ((recovered enc 0 src).flatMap (bitsOf enc.stepBits)).take
          (8 * DecodedLen enc src.length)) ∧
      (err = none ∨ ∃ p b, err = some (.trailingBits p b)) := by
  obtain ⟨hv, hd⟩ := NewEncoding_valid dict enc hlen henc
  rw [← hd] at hmem
  have hsize : 0 < enc.size := lt_of_lt_of_le (Nat.two_pow_pos _) hv.pow_le
  obtain ⟨k1, _, _, k4⟩ := Decode_known hv dst src hmem hdst
  obtain ⟨_, _, _, k5⟩ := Decode_known hv (List.replicate (DecodedLen enc src.length) 0) src
    hmem (by simp)
  refine ⟨rfl, _, _, k4, k1, ?_, ?_, ?_⟩
  · rw [AppendDecode]
    simp only [k5, List.drop_replicate, Nat.sub_self, List.replicate_zero, List.append_nil,
      List.nil_append]
    rw [← k1, List.take_length]
  · intro hcanon
    have hne : 0 < enc.dict.length := by rw [← hv.size_eq]; exact hsize
    haveI : Inhabited Word := ⟨enc.dict.get ⟨0, hne⟩⟩
    have hvs : ∀ v ∈ recovered enc 0 src, v < 2 ^ enc.stepBits := by
      rcases hcanon with h | h
      · exact recovered_no_carry hv h src
      · exact h
    have hvl : (recovered enc 0 src).length = src.length := by
      have := congrArg List.length (chain_recovered hv src 0 hsize hmem)
      rwa [List.length_map, length_chainPos] at this
    rw [unpack_recovered hv src hmem hvs]
    simp only []
    rw [bitString_groups_toByte, length_flatMap_bitsOf, hvl, DecodedLen]
  · unfold reader.Close
    split
    · exact Or.inr ⟨_, _, rfl⟩
    · exact Or.inl rfl

/-- Witness of C7: three words of a dictionary of nine, with carry. The byte
`200` replaces the first cell of the destination, and the bit that is left
over is reported after it. -/
theorem C7_decode_length_witness :
    NewEncoding dict9 = some enc9 ∧
    Decode enc9 [9, 9] [6, 8, 0] = .ok ([200, 9], 1, some (.trailingBits 1 1)) ∧
    DecodedLen enc9 [6, 8, 0].length = [6, 8, 0].length * enc9.stepBits / 8 ∧
    ∃ out err, Decode enc9 [9, 9] [6, 8, 0] =
        .ok (out ++ List.drop (DecodedLen enc9 [6, 8, 0].length) [9, 9],
             DecodedLen enc9 [6, 8, 0].length, err) ∧
      out.length = DecodedLen enc9 [6, 8, 0].length ∧
      AppendDecode enc9 [] [6, 8, 0] = .ok (out, err) ∧
      ((enc9.offsetToggle = 0 ∨ ∀ v ∈ recovered enc9 0 [6, 8, 0], v < 2 ^ enc9.stepBits) →
        bitString out = ((recovered enc9 0 [6, 8, 0]).flatMap (bitsOf enc9.stepBits)).take
          (8 * DecodedLen enc9 [6, 8, 0].length)) ∧
      (err = none ∨ ∃ p b, err = some (.trailingBits p b)) :=
  ⟨by decide, rfl,
   C7_decode_length dict9 enc9 [6, 8, 0] [9, 9] (by decide) (by decide) (by decide)
     (by decide)⟩

end Based
